import Mathlib

/-!
# Matrix template class: a shallow embedding of `Matrix.h`

The C++ class `Matrix<T>` stores `m_rows`, `m_columns` and a row-major
`std::vector<T> m_elements`.  Every member function of the class is translated
below as a function on a structure with the same three fields.

* A thrown `std::range_error` is an `Except.error` carrying the message kind.
* A storage access outside the vector (an iterator past `end()`, an index past
  `size()`, a read past the end of an initializer list) is not an exception in
  C++; it is reported as `Failure.undefinedBehaviour`.
* A division by zero, which `rref` could only perform when normalising a row,
  is reported as `Failure.divisionByZero`: it is undefined for `int` and never
  a wanted pivot.  A quotient by a nonzero divisor that the element type cannot
  hold (`INT_MIN / -1` for `int`, which stops the program) is reported as
  `Failure.divisionOverflow`; `DivOverflow` says where that happens.
* Memory is not bounded: the allocation of a vector succeeds.
* The `while` loop of `rref` is run on fuel; `Failure.outOfFuel` is returned
  when the fuel does not suffice.  `rref` passes fuel that always suffices
  (`rref_total`).
* The element type `T` is a type with `0`, `1`, `+`, `-`, `*`, `/` and a
  decidable equality.  The exact instantiations are fields; `int` is `CInt`,
  the 32-bit two's-complement integers: `+`, `-` and `*` wrap at `2^32` (the
  result the machine gives where the C++ standard leaves the overflow
  undefined), `/` truncates towards zero.
* Sizes are natural numbers.  The list constructor compares the length of
  its list with the product `rows * columns` as `size_t` computes it, modulo
  `2^64` (`sizeMul`).

The definitions come first: the class, the mutating member functions with
their receiver, then the notions the statements are written in.  The theorems
follow: loop rules, the specification of every loop of the class in terms of
entries, the correctness of `rref` and `inverse` over a field, the row and
column insertions, addition, transposition, element access, the runs of `rref`
on `int` that compute in the integers, and at the end the claims.
-/

/-- Dense `m × n` matrices of Mathlib, indexed by `Fin`. -/
abbrev FinMatrix (m n : Nat) (K : Type) : Type := Matrix (Fin m) (Fin n) K

namespace MatrixLib

/-- The ways an operation of the class can fail. The first four are the four
messages with which the source throws `std::range_error`. -/
inductive Failure where
  /-- "Error: wrong matrix shape!" -/
  | wrongShape
  /-- "Error: dimensions are outside of matrix range!" -/
  | outsideRange
  /-- "Error: matrix shapes do not match!" -/
  | shapesDoNotMatch
  /-- "Error: list size of values is bigger than matrix dimension" -/
  | listTooBig
  /-- A storage access outside the vector or the initializer list. -/
  | undefinedBehaviour
  /-- A division of an element by zero. -/
  | divisionByZero
  /-- A division whose quotient the element type cannot hold. -/
  | divisionOverflow
  /-- The fuel given to a `while` loop ran out. -/
  | outOfFuel
  deriving DecidableEq, Repr

/-- The class `Matrix<T>`: the private members of `Matrix.h`. -/
structure Matrix (T : Type) where
  m_rows : Nat
  m_columns : Nat
  m_elements : List T
  deriving DecidableEq, Repr

/-- Where the element type cannot hold the quotient `x / f` by a nonzero `f`,
so that the division `x /= f` does not return. -/
class DivOverflow (T : Type) where
  overflows : T → T → Bool

/-- In a field every quotient by a nonzero divisor exists. -/
instance fieldDivOverflow {K : Type} [Field K] : DivOverflow K := ⟨fun _ _ => false⟩

/-- The value of an `int` computation that left the range: the result modulo
`2^32`, taken in `[-2^31, 2^31)`. -/
def wrap32 (z : Int) : Int := (z + 2147483648) % 4294967296 - 2147483648

/-- The element type `int`: the integers from `INT_MIN = -2^31` to
`INT_MAX = 2^31 - 1`. -/
structure CInt where
  val : Int
  inRange : -2147483648 ≤ val ∧ val < 2147483648
  deriving DecidableEq, Repr

/-- The `int` that a computation with the integer result `z` leaves. -/
def CInt.ofInt (z : Int) : CInt := ⟨wrap32 z, by unfold wrap32; omega⟩

instance : Zero CInt := ⟨CInt.ofInt 0⟩
instance : One CInt := ⟨CInt.ofInt 1⟩
instance : Add CInt := ⟨fun a b => CInt.ofInt (a.val + b.val)⟩
instance : Sub CInt := ⟨fun a b => CInt.ofInt (a.val - b.val)⟩
instance : Mul CInt := ⟨fun a b => CInt.ofInt (a.val * b.val)⟩
instance : Div CInt := ⟨fun a b => CInt.ofInt (Int.tdiv a.val b.val)⟩
instance : OfNat CInt n := ⟨CInt.ofInt (n : Int)⟩
instance : Neg CInt := ⟨fun a => CInt.ofInt (-a.val)⟩

/-- `INT_MIN`, the least `int`. -/
def INT_MIN : CInt := CInt.ofInt (-2147483648)

/-- The one quotient of two `int`s by a nonzero divisor that is no `int`:
`INT_MIN / -1`. -/
instance : DivOverflow CInt := ⟨fun x f => decide (x.val = -2147483648 ∧ f.val = -1)⟩

/-- The product of two `size_t` values: it wraps at `2^64`. -/
def sizeMul (a b : Nat) : Nat := (a * b) % 18446744073709551616

/-- The loop `for (k = start; k < start + count; ++k) body`, threading the
state through the body and stopping at the first failure. -/
def loopFrom {σ : Type} (body : Nat → σ → Except Failure σ) :
    Nat → Nat → σ → Except Failure σ
  | _, 0, s => .ok s
  | k, count + 1, s =>
    match body k s with
    | .ok s' => loopFrom body (k + 1) count s'
    | .error e => .error e

/-- The loop `for (size_t k = 0; k < n; ++k) body`. -/
def forRange {σ : Type} (n : Nat) (body : Nat → σ → Except Failure σ) (s : σ) :
    Except Failure σ :=
  loopFrom body 0 n s

/-- The call `v.insert(v.begin() + pos, first, last)` of `std::vector`: the
iterator must not lie past `end()`. -/
def insertRange {T : Type} (l : List T) (pos : Nat) (xs : List T) : Except Failure (List T) :=
  if pos ≤ l.length then .ok (l.take pos ++ xs ++ l.drop pos) else .error .undefinedBehaviour

/-- The read of `*(values.begin() + i)` from an initializer list: the position
must lie before `values.end()`. -/
def readValue {T : Type} (values : List T) (i : Nat) : Except Failure T :=
  match values[i]? with
  | some v => .ok v
  | none => .error .undefinedBehaviour

namespace Matrix

variable {T : Type}

/-- The storage invariant `elements.length == rows * columns`. -/
def Valid (M : Matrix T) : Prop := M.m_elements.length = M.m_rows * M.m_columns

instance (M : Matrix T) : Decidable M.Valid := by unfold Valid; infer_instance

/-- `Matrix(size_t rows, size_t columns)`. -/
def mk2 [Zero T] (rows columns : Nat) : Matrix T :=
  ⟨rows, columns, List.replicate (rows * columns) 0⟩

/-- `Matrix(size_t rows, size_t columns, T value)`. -/
def mk3 (rows columns : Nat) (value : T) : Matrix T :=
  ⟨rows, columns, List.replicate (rows * columns) value⟩

/-- `Matrix(size_t rows, size_t columns, std::initializer_list<T> values)`:
the storage is allocated default-valued with `rows * columns` elements, a
`size_t` product, the size is checked against the same product, and the values
are copied over the beginning of the storage. -/
def ofList [Zero T] (rows columns : Nat) (values : List T) : Except Failure (Matrix T) :=
  if sizeMul rows columns < values.length then .error .wrongShape
  else .ok ⟨rows, columns,
    values ++ (List.replicate (sizeMul rows columns) 0).drop values.length⟩

/-- `operator()(row, column)` read: the bounds check, then `m_elements[row * m_columns + column]`. -/
def get (M : Matrix T) (row column : Nat) : Except Failure T :=
  if row ≥ M.m_rows ∨ column ≥ M.m_columns then .error .outsideRange
  else
    match M.m_elements[row * M.m_columns + column]? with
    | some x => .ok x
    | none => .error .undefinedBehaviour

/-- `operator()(row, column) = x`: the bounds check, then a write through the
returned reference. -/
def put (M : Matrix T) (row column : Nat) (x : T) : Except Failure (Matrix T) :=
  if row ≥ M.m_rows ∨ column ≥ M.m_columns then .error .outsideRange
  else if row * M.m_columns + column < M.m_elements.length then
    .ok { M with m_elements := M.m_elements.set (row * M.m_columns + column) x }
  else .error .undefinedBehaviour

/-- `operator+`. -/
def add [Zero T] [Add T] (A m : Matrix T) : Except Failure (Matrix T) :=
  if m.m_rows ≠ A.m_rows ∨ m.m_columns ≠ A.m_columns then .error .shapesDoNotMatch
  else
    forRange A.m_rows (fun i result =>
      forRange A.m_columns (fun j result => do
        let a ← A.get i j
        let b ← m.get i j
        result.put i j (a + b)) result) (mk2 A.m_rows A.m_columns)

/-- `operator*`. -/
def mul [Zero T] [Add T] [Mul T] (A m : Matrix T) : Except Failure (Matrix T) :=
  if A.m_columns ≠ m.m_rows ∨ A.m_rows ≠ m.m_columns then .error .shapesDoNotMatch
  else
    forRange A.m_rows (fun i result =>
      forRange m.m_columns (fun j result =>
        forRange A.m_columns (fun k result => do
          let a ← A.get i k
          let b ← m.get k j
          let r ← result.get i j
          result.put i j (r + a * b)) result) result) (mk2 A.m_rows m.m_columns)

/-- `swapRows(i, j)`: `std::swap` of the two references, column by column. -/
def swapRows (M : Matrix T) (i j : Nat) : Except Failure (Matrix T) :=
  forRange M.m_columns (fun column M => do
    let a ← M.get i column
    let b ← M.get j column
    let M ← M.put i column b
    M.put j column a) M

/-- The pivot search of `rref`: the loop `while ((*this)(i, lead) == 0)`.
It yields `none` where the source returns from `rref`, and the final
`(i, lead)` where the loop is left. -/
def pivotSearch [Zero T] [DecidableEq T] (M : Matrix T) (row : Nat) :
    Nat → Nat → Nat → Except Failure (Option (Nat × Nat))
  | 0, _, _ => .error .outOfFuel
  | fuel + 1, i, lead =>
    match M.get i lead with
    | .error e => .error e
    | .ok x =>
      if x = 0 then
        if i + 1 = M.m_rows then
          if lead + 1 = M.m_columns then .ok none
          else pivotSearch M row fuel row (lead + 1)
        else pivotSearch M row fuel (i + 1) lead
      else .ok (some (i, lead))

/-- The loop `(*this)(row, column) /= f` over the columns. A division by
`f = 0` and a division whose quotient the element type cannot hold are
reported as failures. -/
def divideRow [Zero T] [Div T] [DivOverflow T] [DecidableEq T] (M : Matrix T) (row : Nat)
    (f : T) : Except Failure (Matrix T) :=
  forRange M.m_columns (fun column M => do
    let x ← M.get row column
    if f = 0 then .error .divisionByZero
    else if DivOverflow.overflows x f then .error .divisionOverflow
    else M.put row column (x / f)) M

/-- The loop `(*this)(j, column) -= f * (*this)(row, column)` over the columns. -/
def subtractRow [Sub T] [Mul T] (M : Matrix T) (j row : Nat) (f : T) :
    Except Failure (Matrix T) :=
  forRange M.m_columns (fun column M => do
    let p ← M.get row column
    let x ← M.get j column
    M.put j column (x - f * p)) M

/-- The loop over `j` of `rref` that clears the lead column in every other row. -/
def eliminate [Sub T] [Mul T] (M : Matrix T) (row lead : Nat) : Except Failure (Matrix T) :=
  forRange M.m_rows (fun j M =>
    if j = row then .ok M
    else do
      let f ← M.get j lead
      subtractRow M j row f) M

/-- One pass of the body of the outer `for` loop of `rref`, after the pivot
search has stopped at `(i, lead)`. -/
def reduceAt [Zero T] [Sub T] [Mul T] [Div T] [DivOverflow T] [DecidableEq T]
    (M : Matrix T) (row i lead : Nat) : Except Failure (Matrix T) := do
  let M ← M.swapRows i row
  let x ← M.get row lead
  let M ← if x ≠ 0 then (do let f ← M.get row lead; M.divideRow row f) else .ok M
  M.eliminate row lead

/-- The outer loop `for (row = 0, lead = 0; row < m_rows && lead < m_columns; ++row, ++lead)`
of `rref`, from the state `(row, lead)`. -/
def rrefLoop [Zero T] [Sub T] [Mul T] [Div T] [DivOverflow T] [DecidableEq T] :
    Nat → Matrix T → Nat → Nat → Except Failure (Matrix T)
  | 0, M, row, lead =>
    if row < M.m_rows ∧ lead < M.m_columns then .error .outOfFuel else .ok M
  | fuel + 1, M, row, lead =>
    if row < M.m_rows ∧ lead < M.m_columns then
      match pivotSearch M row (M.m_rows * M.m_columns) row lead with
      | .error e => .error e
      | .ok none => .ok M
      | .ok (some (i, lead)) =>
        match reduceAt M row i lead with
        | .error e => .error e
        | .ok M => rrefLoop fuel M (row + 1) (lead + 1)
    else .ok M

/-- `rref()`. The outer loop runs at most `m_rows` times and one pivot search
looks at no more than `m_rows * m_columns` entries. -/
def rref [Zero T] [Sub T] [Mul T] [Div T] [DivOverflow T] [DecidableEq T] (M : Matrix T) :
    Except Failure (Matrix T) :=
  rrefLoop M.m_rows M 0 0

/-- `inverse()`. -/
def inverse [Zero T] [One T] [Sub T] [Mul T] [Div T] [DivOverflow T] [DecidableEq T] (M : Matrix T) :
    Except Failure (Matrix T) :=
  if M.m_rows ≠ M.m_columns then .error .wrongShape
  else do
    let tmp ← forRange M.m_rows (fun row tmp => do
      let tmp ← forRange M.m_rows (fun column tmp => do
        let x ← M.get row column
        tmp.put row column x) tmp
      tmp.put row (row + M.m_rows) 1) (mk3 M.m_rows (2 * M.m_rows) (0 : T))
    let tmp ← tmp.rref
    forRange M.m_rows (fun row inv =>
      forRange M.m_rows (fun column inv => do
        let x ← tmp.get row (column + M.m_rows)
        inv.put row column x) inv) (mk2 M.m_rows M.m_rows)

/-- `transpose()`. -/
def transpose [Zero T] (M : Matrix T) : Except Failure (Matrix T) :=
  forRange M.m_rows (fun i result =>
    forRange M.m_columns (fun j result => do
      let x ← M.get i j
      result.put j i x) result) (mk2 M.m_columns M.m_rows)

/-- `addRow(size_t row)`. -/
def addRow [Zero T] (M : Matrix T) (row : Nat) : Except Failure (Matrix T) :=
  if row > M.m_rows then .error .outsideRange
  else do
    let elements ← insertRange M.m_elements (row * M.m_columns + M.m_columns)
      (List.replicate M.m_columns 0)
    .ok ⟨M.m_rows + 1, M.m_columns, elements⟩

/-- `addRow(size_t row, std::initializer_list<T> values)`. -/
def addRowValues (M : Matrix T) (row : Nat) (values : List T) : Except Failure (Matrix T) :=
  if row > M.m_rows then .error .outsideRange
  else if values.length > M.m_columns then .error .listTooBig
  else do
    let elements ← insertRange M.m_elements (row * M.m_columns + M.m_columns) values
    .ok ⟨M.m_rows + 1, M.m_columns, elements⟩

/-- `addColumn(size_t column)`. -/
def addColumn [Zero T] (M : Matrix T) (column : Nat) : Except Failure (Matrix T) :=
  if column > M.m_columns then .error .outsideRange
  else do
    let elements ← forRange M.m_rows (fun i elements =>
      insertRange elements (i * (M.m_columns + 1) + column + 1) [0]) M.m_elements
    .ok ⟨M.m_rows, M.m_columns + 1, elements⟩

/-- `addColumn(size_t column, std::initializer_list<T> values)`: row `i` reads
the range `[values.begin() + i, values.begin() + (i + 1))`. -/
def addColumnValues (M : Matrix T) (column : Nat) (values : List T) :
    Except Failure (Matrix T) :=
  if column > M.m_columns then .error .outsideRange
  else if values.length > M.m_rows then .error .listTooBig
  else do
    let elements ← forRange M.m_rows (fun i elements => do
      let v ← readValue values i
      insertRange elements (i * (M.m_columns + 1) + column + 1) [v]) M.m_elements
    .ok ⟨M.m_rows, M.m_columns + 1, elements⟩

/-- The entry `(i, j)` of the row-major storage, `0` outside it. -/
def entry [Zero T] (M : Matrix T) (i j : Nat) : T :=
  M.m_elements.getD (i * M.m_columns + j) 0

/-! ## The mutating member functions with their receiver

`addRow` and `addColumn` return `void` and change the matrix they are called
on.  The functions above give the matrix after a call that returns.  The
functions below give, for every call, the outcome together with the receiver as
the call leaves it, also when the call fails: a statement that throws before
any member is written leaves the receiver as it was, and an access outside the
storage is reported with the receiver as the earlier statements left it. -/

/-- The loop `for (k = start; k < start + count; ++k) body` on a state that is
changed in place: when a pass fails, the state is the one the earlier passes
left. -/
def loopFromKeep {σ : Type} (body : Nat → σ → Except Failure σ) :
    Nat → Nat → σ → Except Failure Unit × σ
  | _, 0, s => (.ok (), s)
  | k, count + 1, s =>
    match body k s with
    | .ok s' => loopFromKeep body (k + 1) count s'
    | .error e => (.error e, s)

/-- The loop `for (size_t k = 0; k < n; ++k) body` on a state changed in place. -/
def forRangeKeep {σ : Type} (n : Nat) (body : Nat → σ → Except Failure σ) (s : σ) :
    Except Failure Unit × σ :=
  loopFromKeep body 0 n s

/-- `addRow(size_t row)` with its receiver: the range check, the insertion
into `m_elements`, then `m_rows += 1`. -/
def addRowInPlace [Zero T] (M : Matrix T) (row : Nat) : Except Failure Unit × Matrix T :=
  if row > M.m_rows then (.error .outsideRange, M)
  else
    match insertRange M.m_elements (row * M.m_columns + M.m_columns)
      (List.replicate M.m_columns 0) with
    | .error e => (.error e, M)
    | .ok elements => (.ok (), ⟨M.m_rows + 1, M.m_columns, elements⟩)

/-- `addRow(size_t row, std::initializer_list<T> values)` with its receiver. -/
def addRowValuesInPlace (M : Matrix T) (row : Nat) (values : List T) :
    Except Failure Unit × Matrix T :=
  if row > M.m_rows then (.error .outsideRange, M)
  else if values.length > M.m_columns then (.error .listTooBig, M)
  else
    match insertRange M.m_elements (row * M.m_columns + M.m_columns) values with
    | .error e => (.error e, M)
    | .ok elements => (.ok (), ⟨M.m_rows + 1, M.m_columns, elements⟩)

/-- `addColumn(size_t column)` with its receiver: the range check, one
insertion into `m_elements` for every row, then `m_columns += 1`. -/
def addColumnInPlace [Zero T] (M : Matrix T) (column : Nat) : Except Failure Unit × Matrix T :=
  if column > M.m_columns then (.error .outsideRange, M)
  else
    match forRangeKeep M.m_rows (fun i elements =>
      insertRange elements (i * (M.m_columns + 1) + column + 1) [0]) M.m_elements with
    | (.error e, elements) => (.error e, ⟨M.m_rows, M.m_columns, elements⟩)
    | (.ok _, elements) => (.ok (), ⟨M.m_rows, M.m_columns + 1, elements⟩)

/-- `addColumn(size_t column, std::initializer_list<T> values)` with its receiver. -/
def addColumnValuesInPlace (M : Matrix T) (column : Nat) (values : List T) :
    Except Failure Unit × Matrix T :=
  if column > M.m_columns then (.error .outsideRange, M)
  else if values.length > M.m_rows then (.error .listTooBig, M)
  else
    match forRangeKeep M.m_rows (fun i elements => do
      let v ← readValue values i
      insertRange elements (i * (M.m_columns + 1) + column + 1) [v]) M.m_elements with
    | (.error e, elements) => (.error e, ⟨M.m_rows, M.m_columns, elements⟩)
    | (.ok _, elements) => (.ok (), ⟨M.m_rows, M.m_columns + 1, elements⟩)

/-! ## Notions used in the statements -/

/-- `M` has shape `m × n`, satisfies the storage invariant and holds the entries `F`. -/
def Holds [Zero T] (M : Matrix T) (m n : Nat) (F : Nat → Nat → T) : Prop :=
  M.m_rows = m ∧ M.m_columns = n ∧ M.m_elements.length = m * n ∧
    ∀ i j, i < m → j < n → M.entry i j = F i j

/-- Entries after exchanging rows `i` and `j`. -/
def swapFn (F : Nat → Nat → T) (i j : Nat) : Nat → Nat → T :=
  fun a b => if a = i then F j b else if a = j then F i b else F a b

/-- Entries after dividing row `row` by `f`. -/
def divFn [Div T] (F : Nat → Nat → T) (row : Nat) (f : T) : Nat → Nat → T :=
  fun a b => if a = row then F a b / f else F a b

/-- Entries after subtracting from every other row its lead entry times row `row`. -/
def elimFn [Sub T] [Mul T] (F : Nat → Nat → T) (row lead : Nat) : Nat → Nat → T :=
  fun a b => if a = row then F a b else F a b - F a lead * F row b

/-- Entries after one pass of the body of the outer loop of `rref`. -/
def reduceFn [Zero T] [Sub T] [Mul T] [Div T] [DecidableEq T]
    (F : Nat → Nat → T) (row i lead : Nat) : Nat → Nat → T :=
  elimFn (if swapFn F i row row lead ≠ 0 then divFn (swapFn F i row) row (swapFn F i row row lead)
    else swapFn F i row) row lead

/-- The product of the row `x` with the column vector `v`, over the first `n` columns. -/
def dot {K : Type} [Field K] (n : Nat) (x v : Nat → K) : K := ∑ c ∈ Finset.range n, x c * v c

/-- The `m × n` entries `F` and `G` annihilate the same column vectors: their
rows span the same space. -/
def SameKernel {K : Type} [Field K] (m n : Nat) (F G : Nat → Nat → K) : Prop :=
  ∀ v : Nat → K, (∀ r, r < m → dot n (F r) v = 0) ↔ (∀ r, r < m → dot n (G r) v = 0)

/-- Rows `0 .. row-1` carry the pivots `c 0 < c 1 < ...`, all left of `lead`,
and the rows from `row` on are zero left of `lead`. -/
def EchelonUpTo {K : Type} [Field K] (m : Nat) (F : Nat → Nat → K) (c : Nat → Nat)
    (row lead : Nat) : Prop :=
  (∀ k, k < row → c k < lead ∧ F k (c k) = 1 ∧ (∀ j, j < c k → F k j = 0) ∧
    ∀ i, i < m → i ≠ k → F i (c k) = 0) ∧
  (∀ k k', k < k' → k' < row → c k < c k') ∧
  (∀ i, row ≤ i → i < m → ∀ j, j < lead → F i j = 0)

/-- Reduced row echelon form: `r` pivot rows with pivot columns
`c 0 < c 1 < ... < c (r-1)`; in row `k` the entries left of column `c k` are
zero and the entry in it is `1`, every other entry of column `c k` is zero, and
the rows from `r` on are zero. -/
def IsRREF {K : Type} [Field K] (M : Matrix K) : Prop :=
  ∃ (r : Nat) (c : Nat → Nat), r ≤ M.m_rows ∧
    (∀ k, k < r → c k < M.m_columns ∧ M.entry k (c k) = 1 ∧
      (∀ j, j < c k → M.entry k j = 0) ∧
      ∀ i, i < M.m_rows → i ≠ k → M.entry i (c k) = 0) ∧
    (∀ k k', k < k' → k' < r → c k < c k') ∧
    (∀ i, r ≤ i → i < M.m_rows → ∀ j, j < M.m_columns → M.entry i j = 0)

/-- The sum `f 0 + f 1 + ... + f (n-1)` accumulated from the left, starting at `0`. -/
def accum [Zero T] [Add T] (f : Nat → T) : Nat → T
  | 0 => 0
  | k + 1 => accum f k + f k

/-- Entries of the augmented matrix `[A | I]` built by `inverse`. -/
def augFn [Zero T] [One T] (F : Nat → Nat → T) (n : Nat) : Nat → Nat → T :=
  fun a b => if b < n then F a b else if b = a + n then 1 else 0

/-- The entries of `M` as an `m × n` matrix of Mathlib. -/
def toFin [Zero T] (M : Matrix T) (m n : Nat) : FinMatrix m n T := fun i j => M.entry i j

/-! ### Runs of `rref` on `int` that compute in the integers -/

/-- The value of an `int` as a rational number. -/
def ratOfInt (x : CInt) : ℚ := (x.val : ℚ)

/-- The matrix of the rational values of an `int` matrix. -/
def toRat (M : Matrix CInt) : Matrix ℚ := ⟨M.m_rows, M.m_columns, M.m_elements.map ratOfInt⟩

/-- The integer `z` is the value of an `int`. -/
def inInt (z : Int) : Bool := decide (-2147483648 ≤ z ∧ z < 2147483648)

/-- The pass of `rref` on the `int` matrix `M` that moves the pivot found at
`(i, lead)` to the row `row` computes in the integers: the pivot divides every
entry of its row and no quotient is `INT_MIN / -1`, and for every other row
`a` and every column `b` the product of the lead entry of row `a` with the
quotient in column `b`, and the difference of the entry `(a, b)` and that
product, are values of `int`.  The rows are those after the row swap. -/
def exactPass (M : Matrix CInt) (row i lead : Nat) : Bool :=
  (List.range M.m_columns).all (fun b =>
    decide ((M.entry i b).val % (M.entry i lead).val = 0) &&
    !DivOverflow.overflows (M.entry i b) (M.entry i lead) &&
    (List.range M.m_rows).all (fun a => a == row ||
      (inInt ((swapFn M.entry i row a lead).val * (M.entry i b / M.entry i lead).val) &&
        inInt ((swapFn M.entry i row a b).val -
          (swapFn M.entry i row a lead).val * (M.entry i b / M.entry i lead).val))))

/-- The outer loop of `rref` on the `int` matrix `M` from the state
`(row, lead)` computes in the integers: every pass of it does. -/
def exactRun : Nat → Matrix CInt → Nat → Nat → Bool
  | 0, _, _, _ => true
  | fuel + 1, M, row, lead =>
    if row < M.m_rows ∧ lead < M.m_columns then
      match pivotSearch M row (M.m_rows * M.m_columns) row lead with
      | .ok (some (i, lead)) =>
        exactPass M row i lead &&
          (match reduceAt M row i lead with
          | .ok M => exactRun fuel M (row + 1) (lead + 1)
          | .error _ => false)
      | _ => true
    else true

/-- The augmented matrix `[A | I]` of a matrix `A` with `n` rows. -/
def augmented [Zero T] [One T] (A : Matrix T) : Matrix T :=
  ⟨A.m_rows, 2 * A.m_rows, (List.range (A.m_rows * (2 * A.m_rows))).map (fun k =>
    augFn A.entry A.m_rows (k / (2 * A.m_rows)) (k % (2 * A.m_rows)))⟩

/-- The run of `inverse` on the `int` matrix `A` computes in the integers: the
reduction of `[A | I]` does. -/
def exactInverse (A : Matrix CInt) : Bool := exactRun A.m_rows (augmented A) 0 0

/-! ## Theorems -/

set_option linter.unusedSectionVars false

variable {K : Type} [Field K] [DecidableEq K]

/-! ### Loop rules -/

theorem loopFrom_inv {σ : Type} (body : Nat → σ → Except Failure σ) (Inv : Nat → σ → Prop) :
    ∀ (count k : Nat) (s : σ), Inv k s →
      (∀ j t, k ≤ j → j < k + count → Inv j t → ∃ t', body j t = .ok t' ∧ Inv (j + 1) t') →
      ∃ s', loopFrom body k count s = .ok s' ∧ Inv (k + count) s' := by
  intro count
  induction count with
  | zero => intro k s h _; exact ⟨s, rfl, h⟩
  | succ c ih =>
    intro k s h hstep
    obtain ⟨t, ht, hInv⟩ := hstep k s (Nat.le_refl k) (by omega) h
    obtain ⟨s', hs', hInv'⟩ := ih (k + 1) t hInv (fun j u hj hlt hu => hstep j u (by omega) (by omega) hu)
    refine ⟨s', ?_, ?_⟩
    · simp only [loopFrom, ht]; exact hs'
    · have : k + (c + 1) = k + 1 + c := by omega
      rw [this]; exact hInv'

theorem forRange_inv {σ : Type} (n : Nat) (body : Nat → σ → Except Failure σ) (s : σ)
    (Inv : Nat → σ → Prop) (h0 : Inv 0 s)
    (hstep : ∀ j t, j < n → Inv j t → ∃ t', body j t = .ok t' ∧ Inv (j + 1) t') :
    ∃ s', forRange n body s = .ok s' ∧ Inv n s' := by
  have := loopFrom_inv body Inv n 0 s h0 (fun j t _ hlt ht => hstep j t (by omega) ht)
  simpa [forRange] using this

/-- The invariant rule for a loop whose passes may fail: every pass either
keeps the invariant or stops with the failure `e`, and `E` then holds. -/
theorem loopFrom_inv_or {σ : Type} (body : Nat → σ → Except Failure σ) (Inv : Nat → σ → Prop)
    (e : Failure) (E : Prop) :
    ∀ (count k : Nat) (s : σ), Inv k s →
      (∀ j t, k ≤ j → j < k + count → Inv j t →
        (∃ t', body j t = .ok t' ∧ Inv (j + 1) t') ∨ (body j t = .error e ∧ E)) →
      (∃ s', loopFrom body k count s = .ok s' ∧ Inv (k + count) s') ∨
        (loopFrom body k count s = .error e ∧ E) := by
  intro count
  induction count with
  | zero => intro k s h _; exact Or.inl ⟨s, rfl, h⟩
  | succ c ih =>
    intro k s h hstep
    rcases hstep k s (Nat.le_refl k) (by omega) h with ⟨t, ht, hInv⟩ | ⟨herr, hE⟩
    · rcases ih (k + 1) t hInv (fun j u hj hlt hu => hstep j u (by omega) (by omega) hu)
        with ⟨s', hs', hInv'⟩ | ⟨herr, hE⟩
      · refine Or.inl ⟨s', ?_, ?_⟩
        · simp only [loopFrom, ht]; exact hs'
        · have : k + (c + 1) = k + 1 + c := by omega
          rw [this]; exact hInv'
      · refine Or.inr ⟨?_, hE⟩
        simp only [loopFrom, ht]; exact herr
    · refine Or.inr ⟨?_, hE⟩
      simp only [loopFrom, herr]

theorem forRange_inv_or {σ : Type} (n : Nat) (body : Nat → σ → Except Failure σ) (s : σ)
    (Inv : Nat → σ → Prop) (e : Failure) (E : Prop) (h0 : Inv 0 s)
    (hstep : ∀ j t, j < n → Inv j t →
      (∃ t', body j t = .ok t' ∧ Inv (j + 1) t') ∨ (body j t = .error e ∧ E)) :
    (∃ s', forRange n body s = .ok s' ∧ Inv n s') ∨ (forRange n body s = .error e ∧ E) := by
  have := loopFrom_inv_or body Inv e E n 0 s h0 (fun j t _ hlt ht => hstep j t (by omega) ht)
  simpa [forRange] using this

/-! ### Entries of a matrix with the storage invariant -/

theorem flat_lt {m n i j : Nat} (hi : i < m) (hj : j < n) : i * n + j < m * n := by
  calc i * n + j < i * n + n := by omega
    _ = (i + 1) * n := by ring
    _ ≤ m * n := Nat.mul_le_mul_right n hi

theorem flat_inj {n i j i' j' : Nat} (hj : j < n) (hj' : j' < n)
    (h : i * n + j = i' * n + j') : i = i' ∧ j = j' := by
  have h1 : (i * n + j) / n = i := by
    rw [Nat.mul_comm, Nat.mul_add_div (by omega), Nat.div_eq_of_lt hj]; rfl
  have h2 : (i' * n + j') / n = i' := by
    rw [Nat.mul_comm, Nat.mul_add_div (by omega), Nat.div_eq_of_lt hj']; rfl
  have hi : i = i' := by rw [← h1, ← h2, h]
  subst hi
  exact ⟨rfl, by omega⟩

theorem Holds.congr [Zero T] {M : Matrix T} {m n : Nat} {F G : Nat → Nat → T}
    (h : M.Holds m n F) (hFG : ∀ i j, i < m → j < n → F i j = G i j) : M.Holds m n G :=
  ⟨h.1, h.2.1, h.2.2.1, fun i j hi hj => (h.2.2.2 i j hi hj).trans (hFG i j hi hj)⟩

theorem Holds.valid [Zero T] {M : Matrix T} {m n : Nat} {F : Nat → Nat → T}
    (h : M.Holds m n F) : M.Valid := by
  unfold Valid; rw [h.1, h.2.1]; exact h.2.2.1

theorem holds_entry [Zero T] {M : Matrix T} (h : M.Valid) :
    M.Holds M.m_rows M.m_columns M.entry :=
  ⟨rfl, rfl, h, fun _ _ _ _ => rfl⟩

theorem Holds.get [Zero T] {M : Matrix T} {m n : Nat} {F : Nat → Nat → T}
    (h : M.Holds m n F) {i j : Nat} (hi : i < m) (hj : j < n) :
    M.get i j = .ok (F i j) := by
  obtain ⟨hr, hc, hl, hF⟩ := h
  have hlt : i * M.m_columns + j < M.m_elements.length := by
    rw [hl, hc]; exact flat_lt hi hj
  have hE := hF i j hi hj
  unfold entry at hE
  unfold Matrix.get
  rw [if_neg (by rw [hr, hc]; omega)]
  rw [List.getD_eq_getElem?_getD, List.getElem?_eq_getElem hlt] at hE
  rw [List.getElem?_eq_getElem hlt]
  simpa using hE

theorem Holds.put [Zero T] {M : Matrix T} {m n : Nat} {F : Nat → Nat → T}
    (h : M.Holds m n F) {i j : Nat} (hi : i < m) (hj : j < n) (x : T) :
    ∃ M', M.put i j x = .ok M' ∧
      M'.Holds m n (fun a b => if a = i ∧ b = j then x else F a b) := by
  obtain ⟨hr, hc, hl, hF⟩ := h
  have hlt : i * M.m_columns + j < M.m_elements.length := by
    rw [hl, hc]; exact flat_lt hi hj
  refine ⟨{ M with m_elements := M.m_elements.set (i * M.m_columns + j) x }, ?_, ?_⟩
  · unfold Matrix.put
    rw [if_neg (by rw [hr, hc]; omega), if_pos hlt]
  · refine ⟨hr, hc, by simpa using hl, ?_⟩
    intro a b ha hb
    have hab : a * M.m_columns + b < M.m_elements.length := by
      rw [hl, hc]; exact flat_lt ha hb
    have hE := hF a b ha hb
    unfold entry at hE ⊢
    simp only [List.getD_eq_getElem?_getD] at hE ⊢
    rw [List.getElem?_set]
    by_cases hab' : a = i ∧ b = j
    · obtain ⟨rfl, rfl⟩ := hab'
      simp [hlt]
    · rw [if_neg hab']
      have hne : ¬ (i * M.m_columns + j = a * M.m_columns + b) := by
        intro heq
        have := flat_inj (by rw [hc]; exact hj) (by rw [hc]; exact hb) heq
        exact hab' ⟨this.1.symm, this.2.symm⟩
      rw [if_neg hne]; exact hE

theorem bind_ok {α β : Type} (x : α) (f : α → Except Failure β) :
    (Except.ok x >>= f) = f x := rfl

/-! ### The loops of `swapRows` and `rref` -/

theorem swapRows_spec [Zero T] {M : Matrix T} {m n : Nat} {F : Nat → Nat → T}
    (h : M.Holds m n F) {i j : Nat} (hi : i < m) (hj : j < m) :
    ∃ M', M.swapRows i j = .ok M' ∧
      M'.Holds m n (fun a b => if a = i then F j b else if a = j then F i b else F a b) := by
  have key := forRange_inv n (fun column (M : Matrix T) => do
      let a ← M.get i column
      let b ← M.get j column
      let M ← M.put i column b
      M.put j column a) M
    (fun k M' => M'.Holds m n (fun a b =>
      if b < k then (if a = i then F j b else if a = j then F i b else F a b) else F a b))
    (h.congr (fun a b _ _ => by simp))
    (by
      intro k N hk hN
      obtain ⟨N1, hN1, hH1⟩ := hN.put hi hk (F j k)
      obtain ⟨N2, hN2, hH2⟩ := hH1.put hj hk (F i k)
      refine ⟨N2, ?_, hH2.congr ?_⟩
      · beta_reduce
        rw [hN.get hi hk, bind_ok, hN.get hj hk, bind_ok]
        simp only [Nat.lt_irrefl, if_false]
        rw [hN1, bind_ok, hN2]
      · intro a b ha hb
        beta_reduce
        by_cases hbk : b = k
        · subst hbk
          simp only [Nat.lt_irrefl, if_false, and_true, Nat.lt_succ_self, if_true]
          by_cases haj : a = j
          · subst haj; by_cases hai : a = i
            · subst hai; simp
            · simp [hai]
          · by_cases hai : a = i
            · subst hai; simp [haj]
            · simp [hai, haj]
        · have h1 : ¬ (a = j ∧ b = k) := fun hh => hbk hh.2
          have h2 : ¬ (a = i ∧ b = k) := fun hh => hbk hh.2
          have hiff : (b < k + 1) ↔ (b < k) := by omega
          simp only [hiff, h1, h2, if_false])
  obtain ⟨M', hM', hH⟩ := key
  refine ⟨M', ?_, hH.congr (fun a b _ hb => by simp [hb])⟩
  unfold swapRows; rw [h.2.1]; exact hM'

/-- The loop of `divideRow` on a row whose quotients by `f ≠ 0` all exist, and
the first failing division otherwise. -/
theorem divideRow_total [Zero T] [Div T] [DivOverflow T] [DecidableEq T] {M : Matrix T}
    {m n : Nat} {F : Nat → Nat → T} (h : M.Holds m n F) {row : Nat} (hrow : row < m) (f : T)
    (hf : f ≠ 0) :
    (∃ M', M.divideRow row f = .ok M' ∧
      M'.Holds m n (fun a b => if a = row then F a b / f else F a b) ∧
      ∀ b, b < n → DivOverflow.overflows (F row b) f = false) ∨
    (M.divideRow row f = .error .divisionOverflow ∧
      ∃ b, b < n ∧ DivOverflow.overflows (F row b) f = true) := by
  have key := forRange_inv_or n (fun column (M : Matrix T) => do
      let x ← M.get row column
      if f = 0 then .error .divisionByZero
      else if DivOverflow.overflows x f then .error .divisionOverflow
      else M.put row column (x / f)) M
    (fun k M' => M'.Holds m n (fun a b =>
      if b < k then (if a = row then F a b / f else F a b) else F a b) ∧
      ∀ b, b < k → DivOverflow.overflows (F row b) f = false)
    .divisionOverflow (∃ b, b < n ∧ DivOverflow.overflows (F row b) f = true)
    ⟨h.congr (fun a b _ _ => by simp), fun b hb => by omega⟩
    (by
      intro k N hk hN
      obtain ⟨hN, hprev⟩ := hN
      have hget : N.get row k = .ok (F row k) := by
        rw [hN.get hrow hk]; simp only [Nat.lt_irrefl, if_false]
      by_cases hov : DivOverflow.overflows (F row k) f = true
      · right
        refine ⟨?_, k, hk, hov⟩
        beta_reduce
        rw [hget, bind_ok, if_neg hf, if_pos hov]
      · left
        have hov' : DivOverflow.overflows (F row k) f = false := by
          cases hc : DivOverflow.overflows (F row k) f
          · rfl
          · exact absurd hc hov
        obtain ⟨N1, hN1, hH1⟩ := hN.put hrow hk (F row k / f)
        refine ⟨N1, ?_, hH1.congr ?_, ?_⟩
        · beta_reduce
          rw [hget, bind_ok, if_neg hf, if_neg hov]
          exact hN1
        · intro a b ha hb
          beta_reduce
          by_cases hbk : b = k
          · subst hbk
            by_cases har : a = row
            · subst har; simp
            · simp [har]
          · have h1 : ¬ (a = row ∧ b = k) := fun hh => hbk hh.2
            have hiff : (b < k + 1) ↔ (b < k) := by omega
            simp only [hiff, h1, if_false]
        · intro b hb
          by_cases hbk : b = k
          · rw [hbk]; exact hov'
          · exact hprev b (by omega))
  rcases key with ⟨M', hM', hH, hall⟩ | ⟨herr, hE⟩
  · refine Or.inl ⟨M', ?_, hH.congr (fun a b _ hb => by simp [hb]), hall⟩
    unfold divideRow; rw [h.2.1]; exact hM'
  · refine Or.inr ⟨?_, hE⟩
    unfold divideRow; rw [h.2.1]; exact herr

theorem divideRow_spec [Zero T] [Div T] [DivOverflow T] [DecidableEq T] {M : Matrix T}
    {m n : Nat} {F : Nat → Nat → T} (h : M.Holds m n F) {row : Nat} (hrow : row < m) (f : T)
    (hf : f ≠ 0) (hov : ∀ b, b < n → DivOverflow.overflows (F row b) f = false) :
    ∃ M', M.divideRow row f = .ok M' ∧
      M'.Holds m n (fun a b => if a = row then F a b / f else F a b) := by
  rcases divideRow_total h hrow f hf with ⟨M', hM', hH, _⟩ | ⟨_, b, hb, hb'⟩
  · exact ⟨M', hM', hH⟩
  · rw [hov b hb] at hb'; cases hb'

theorem subtractRow_spec [Zero T] [Sub T] [Mul T] {M : Matrix T} {m n : Nat}
    {F : Nat → Nat → T} (h : M.Holds m n F) {j row : Nat} (hj : j < m) (hrow : row < m)
    (hne : j ≠ row) (f : T) :
    ∃ M', M.subtractRow j row f = .ok M' ∧
      M'.Holds m n (fun a b => if a = j then F a b - f * F row b else F a b) := by
  have key := forRange_inv n (fun column (M : Matrix T) => do
      let p ← M.get row column
      let x ← M.get j column
      M.put j column (x - f * p)) M
    (fun k M' => M'.Holds m n (fun a b =>
      if b < k then (if a = j then F a b - f * F row b else F a b) else F a b))
    (h.congr (fun a b _ _ => by simp))
    (by
      intro k N hk hN
      obtain ⟨N1, hN1, hH1⟩ := hN.put hj hk (F j k - f * F row k)
      refine ⟨N1, ?_, hH1.congr ?_⟩
      · beta_reduce
        rw [hN.get hrow hk, bind_ok, hN.get hj hk, bind_ok]
        simp only [Nat.lt_irrefl, if_false]
        exact hN1
      · intro a b ha hb
        beta_reduce
        by_cases hbk : b = k
        · subst hbk
          by_cases har : a = j
          · subst har; simp
          · simp [har]
        · have h1 : ¬ (a = j ∧ b = k) := fun hh => hbk hh.2
          have hiff : (b < k + 1) ↔ (b < k) := by omega
          simp only [hiff, h1, if_false])
  obtain ⟨M', hM', hH⟩ := key
  refine ⟨M', ?_, hH.congr (fun a b _ hb => by simp [hb])⟩
  unfold subtractRow; rw [h.2.1]; exact hM'

theorem eliminate_spec [Zero T] [Sub T] [Mul T] {M : Matrix T} {m n : Nat}
    {F : Nat → Nat → T} (h : M.Holds m n F) {row lead : Nat} (hrow : row < m)
    (hlead : lead < n) :
    ∃ M', M.eliminate row lead = .ok M' ∧
      M'.Holds m n (fun a b => if a = row then F a b else F a b - F a lead * F row b) := by
  have key := forRange_inv m (fun j (M : Matrix T) =>
      if j = row then .ok M
      else do
        let f ← M.get j lead
        subtractRow M j row f) M
    (fun k M' => M'.Holds m n (fun a b =>
      if a < k then (if a = row then F a b else F a b - F a lead * F row b) else F a b))
    (h.congr (fun a b _ _ => by simp))
    (by
      intro k N hk hN
      by_cases hkr : k = row
      · refine ⟨N, by simp [hkr], hN.congr ?_⟩
        intro a b ha hb
        beta_reduce
        by_cases hak : a = k
        · subst hak; simp [hkr]
        · have hiff : (a < k + 1) ↔ (a < k) := by omega
          simp only [hiff]
      · obtain ⟨N1, hN1, hH1⟩ := subtractRow_spec hN hk hrow hkr (F k lead)
        refine ⟨N1, ?_, hH1.congr ?_⟩
        · beta_reduce
          rw [if_neg hkr, hN.get hk hlead, bind_ok]
          simp only [Nat.lt_irrefl, if_false]
          exact hN1
        · intro a b ha hb
          beta_reduce
          by_cases hak : a = k
          · subst hak
            simp only [Nat.lt_irrefl, if_false, if_true, Nat.lt_succ_self, if_neg hkr]
            by_cases hrk : row < a
            · simp [hrk, Ne.symm hkr]
            · simp [hrk]
          · have hiff : (a < k + 1) ↔ (a < k) := by omega
            simp only [hiff, hak, if_false])
  obtain ⟨M', hM', hH⟩ := key
  refine ⟨M', ?_, hH.congr (fun a b ha _ => by simp [ha])⟩
  unfold eliminate; rw [h.1]; exact hM'

theorem swapFn_row (F : Nat → Nat → T) (i row b : Nat) : swapFn F i row row b = F i b := by
  unfold swapFn
  by_cases h : row = i
  · simp [h]
  · simp [h]

/-- One pass of the body of `rref` at a pivot position `(i, lead)`: it returns
the entries `reduceFn`, unless the pivot is nonzero and the quotient of an
entry of its row by it does not exist. -/
theorem reduceAt_total [Zero T] [Sub T] [Mul T] [Div T] [DivOverflow T] [DecidableEq T]
    {M : Matrix T} {m n : Nat} {F : Nat → Nat → T} (h : M.Holds m n F)
    {row i lead : Nat} (hrow : row < m) (hi : i < m) (hlead : lead < n) :
    (∃ M', M.reduceAt row i lead = .ok M' ∧ M'.Holds m n (reduceFn F row i lead) ∧
      (F i lead ≠ 0 → ∀ b, b < n → DivOverflow.overflows (F i b) (F i lead) = false)) ∨
    (M.reduceAt row i lead = .error .divisionOverflow ∧ F i lead ≠ 0 ∧
      ∃ b, b < n ∧ DivOverflow.overflows (F i b) (F i lead) = true) := by
  obtain ⟨M1, hM1, hH1⟩ := swapRows_spec h hi hrow
  change M1.Holds m n (swapFn F i row) at hH1
  unfold reduceAt reduceFn
  rw [hM1, bind_ok, hH1.get hrow hlead, bind_ok]
  by_cases hx : swapFn F i row row lead ≠ 0
  · rw [if_pos hx, if_pos hx, bind_ok]
    rcases divideRow_total hH1 hrow (swapFn F i row row lead) hx with
      ⟨M2, hM2, hH2, hall⟩ | ⟨herr, b, hb, hov⟩
    · rw [hM2, bind_ok]
      obtain ⟨M3, hM3, hH3⟩ := eliminate_spec hH2 hrow hlead
      refine Or.inl ⟨M3, hM3, hH3, fun _ b hb => ?_⟩
      have := hall b hb
      rw [swapFn_row, swapFn_row] at this
      exact this
    · refine Or.inr ⟨?_, ?_, b, hb, ?_⟩
      · rw [herr]; rfl
      · rw [swapFn_row] at hx; exact hx
      · rw [swapFn_row, swapFn_row] at hov; exact hov
  · rw [if_neg hx, if_neg hx, bind_ok]
    obtain ⟨M3, hM3, hH3⟩ := eliminate_spec hH1 hrow hlead
    refine Or.inl ⟨M3, hM3, hH3, fun hp => ?_⟩
    rw [swapFn_row] at hx
    exact absurd hp hx

theorem reduceAt_spec [Zero T] [Sub T] [Mul T] [Div T] [DivOverflow T] [DecidableEq T]
    {M : Matrix T} {m n : Nat} {F : Nat → Nat → T} (h : M.Holds m n F)
    {row i lead : Nat} (hrow : row < m) (hi : i < m) (hlead : lead < n)
    (hov : ∀ b, b < n → DivOverflow.overflows (F i b) (F i lead) = false) :
    ∃ M', M.reduceAt row i lead = .ok M' ∧ M'.Holds m n (reduceFn F row i lead) := by
  rcases reduceAt_total h hrow hi hlead with ⟨M', hM', hH, _⟩ | ⟨_, _, b, hb, hb'⟩
  · exact ⟨M', hM', hH⟩
  · rw [hov b hb] at hb'; cases hb'

theorem pivotSearch_spec [Zero T] [DecidableEq T] {M : Matrix T} {m n : Nat}
    {F : Nat → Nat → T} (h : M.Holds m n F) {row lead0 : Nat} :
    ∀ (fuel i lead : Nat), row ≤ i → i < m → lead0 ≤ lead → lead < n →
      (n - 1 - lead) * m + (m - i) ≤ fuel →
      (∀ c, lead0 ≤ c → c < lead → ∀ r, row ≤ r → r < m → F r c = 0) →
      (∀ r, row ≤ r → r < i → F r lead = 0) →
      (M.pivotSearch row fuel i lead = .ok none ∧
        ∀ c, lead0 ≤ c → c < n → ∀ r, row ≤ r → r < m → F r c = 0) ∨
      ∃ i' lead', M.pivotSearch row fuel i lead = .ok (some (i', lead')) ∧
        row ≤ i' ∧ i' < m ∧ lead ≤ lead' ∧ lead' < n ∧ F i' lead' ≠ 0 ∧
        ∀ c, lead0 ≤ c → c < lead' → ∀ r, row ≤ r → r < m → F r c = 0 := by
  intro fuel
  induction fuel with
  | zero =>
    intro i lead _ hi _ _ hfuel _ _
    omega
  | succ fuel ih =>
    intro i lead hri hi hl0 hl hfuel hZ hcol
    unfold pivotSearch
    rw [h.get hi hl]
    simp only
    by_cases hx : F i lead = 0
    · rw [if_pos hx]
      have hcol' : ∀ r, row ≤ r → r < i + 1 → F r lead = 0 := by
        intro r hr hlt
        by_cases hri' : r = i
        · rw [hri']; exact hx
        · exact hcol r hr (by omega)
      by_cases hlast : i + 1 = M.m_rows
      · rw [if_pos hlast]
        have him : i + 1 = m := by rw [← h.1]; exact hlast
        have hZ' : ∀ c, lead0 ≤ c → c < lead + 1 → ∀ r, row ≤ r → r < m → F r c = 0 := by
          intro c hc hlt r hr hrm
          by_cases hcl : c = lead
          · rw [hcl]; exact hcol' r hr (by omega)
          · exact hZ c hc (by omega) r hr hrm
        by_cases hend : lead + 1 = M.m_columns
        · rw [if_pos hend]
          left
          refine ⟨rfl, ?_⟩
          intro c hc hcn
          exact hZ' c hc (by rw [← h.2.1, ← hend] at hcn; exact hcn)
        · rw [if_neg hend]
          have hln : lead + 1 < n := by
            have : lead + 1 ≠ n := by rw [← h.2.1]; exact hend
            omega
          have hfuel' : (n - 1 - (lead + 1)) * m + (m - row) ≤ fuel := by
            obtain ⟨q, hq⟩ : ∃ q, n - 1 - lead = q + 1 := ⟨n - 1 - lead - 1, by omega⟩
            have hq' : n - 1 - (lead + 1) = q := by omega
            rw [hq'] 
            rw [hq, Nat.succ_mul] at hfuel
            omega
          rcases ih row (lead + 1) (Nat.le_refl row) (by omega) (by omega) hln hfuel' hZ'
            (fun r hr hlt => by omega) with hnone | ⟨i', lead', hsome, h1, h2, h3, h4, h5, h6⟩
          · exact Or.inl hnone
          · exact Or.inr ⟨i', lead', hsome, h1, h2, by omega, h4, h5, h6⟩
      · rw [if_neg hlast]
        have him : i + 1 < m := by
          have : i + 1 ≠ m := by rw [← h.1]; exact hlast
          omega
        have hfuel' : (n - 1 - lead) * m + (m - (i + 1)) ≤ fuel := by omega
        exact ih (i + 1) lead (by omega) him hl0 hl hfuel' hZ hcol'
    · rw [if_neg hx]
      right
      exact ⟨i, lead, rfl, hri, hi, Nat.le_refl lead, hl, hx, hZ⟩

theorem pivotSearch_fuel {m n row lead : Nat} (hrow : row < m) (hlead : lead < n) :
    (n - 1 - lead) * m + (m - row) ≤ m * n := by
  have h1 : (n - 1 - lead) * m + m ≤ n * m := by
    rw [← Nat.succ_mul]
    exact Nat.mul_le_mul_right m (by omega)
  rw [Nat.mul_comm m n]
  omega

/-- The invariant rule of the outer loop of `rref`: a property `P` of the
cursor and the entries that every pass keeps leads to `Q` at each of the three
exits of the loop.  The loop returns, unless it stops at a division of an
entry by a nonzero pivot whose quotient does not exist. -/
theorem rrefLoop_inv_or [Zero T] [Sub T] [Mul T] [Div T] [DivOverflow T] [DecidableEq T]
    {m n : Nat}
    (P : Nat → Nat → (Nat → Nat → T) → Prop) (Q : (Nat → Nat → T) → Prop)
    (hdone : ∀ row lead F, P row lead F → ¬ (row < m ∧ lead < n) → Q F)
    (hnone : ∀ row lead F, P row lead F → row < m → lead < n →
      (∀ c, lead ≤ c → c < n → ∀ r, row ≤ r → r < m → F r c = 0) → Q F)
    (hstep : ∀ row lead F i lead', P row lead F → row < m → lead ≤ lead' → lead' < n →
      row ≤ i → i < m → F i lead' ≠ 0 →
      (∀ c, lead ≤ c → c < lead' → ∀ r, row ≤ r → r < m → F r c = 0) →
      (∀ b, b < n → DivOverflow.overflows (F i b) (F i lead') = false) →
      P (row + 1) (lead' + 1) (reduceFn F row i lead')) :
    ∀ (fuel : Nat) (M : Matrix T) (F : Nat → Nat → T) (row lead : Nat),
      M.Holds m n F → P row lead F → m - row ≤ fuel →
      (∃ M' F', rrefLoop fuel M row lead = .ok M' ∧ M'.Holds m n F' ∧ Q F') ∨
      (rrefLoop fuel M row lead = .error .divisionOverflow ∧
        ∃ x f : T, f ≠ 0 ∧ DivOverflow.overflows x f = true) := by
  intro fuel
  induction fuel with
  | zero =>
    intro M F row lead h hP hfuel
    have hcond : ¬ (row < M.m_rows ∧ lead < M.m_columns) := by rw [h.1]; omega
    refine Or.inl ⟨M, F, ?_, h, hdone row lead F hP (by omega)⟩
    unfold rrefLoop; rw [if_neg hcond]
  | succ fuel ih =>
    intro M F row lead h hP hfuel
    unfold rrefLoop
    by_cases hcond : row < M.m_rows ∧ lead < M.m_columns
    · rw [if_pos hcond]
      have hrow : row < m := by rw [← h.1]; exact hcond.1
      have hlead : lead < n := by rw [← h.2.1]; exact hcond.2
      have hf : (n - 1 - lead) * m + (m - row) ≤ M.m_rows * M.m_columns := by
        rw [h.1, h.2.1]; exact pivotSearch_fuel hrow hlead
      rcases pivotSearch_spec h (M.m_rows * M.m_columns) row lead (Nat.le_refl row) hrow
        (Nat.le_refl lead) hlead hf (fun c hc hlt => by omega) (fun r hr hlt => by omega)
        with ⟨hnone', hZ⟩ | ⟨i', lead', hsome, h1, h2, h3, h4, h5, h6⟩
      · rw [hnone']
        exact Or.inl ⟨M, F, rfl, h, hnone row lead F hP hrow hlead hZ⟩
      · rw [hsome]
        rcases reduceAt_total h hrow h2 h4 (i := i') with
          ⟨M1, hM1, hH1, hall⟩ | ⟨herr, hp, b, _, hov⟩
        · simp only [hM1]
          exact ih M1 _ (row + 1) (lead' + 1) hH1
            (hstep row lead F i' lead' hP hrow h3 h4 h1 h2 h5 h6 (hall h5)) (by omega)
        · simp only [herr]
          exact Or.inr ⟨trivial, _, _, hp, hov⟩
    · rw [if_neg hcond]
      refine Or.inl ⟨M, F, rfl, h, hdone row lead F hP ?_⟩
      rw [h.1, h.2.1] at hcond; exact hcond

/-- The invariant rule of the outer loop of `rref` for an element type in
which every quotient by a nonzero divisor exists. -/
theorem rrefLoop_inv [Zero T] [Sub T] [Mul T] [Div T] [DivOverflow T] [DecidableEq T]
    {m n : Nat}
    (hov : ∀ x f : T, f ≠ 0 → DivOverflow.overflows x f = false)
    (P : Nat → Nat → (Nat → Nat → T) → Prop) (Q : (Nat → Nat → T) → Prop)
    (hdone : ∀ row lead F, P row lead F → ¬ (row < m ∧ lead < n) → Q F)
    (hnone : ∀ row lead F, P row lead F → row < m → lead < n →
      (∀ c, lead ≤ c → c < n → ∀ r, row ≤ r → r < m → F r c = 0) → Q F)
    (hstep : ∀ row lead F i lead', P row lead F → row < m → lead ≤ lead' → lead' < n →
      row ≤ i → i < m → F i lead' ≠ 0 →
      (∀ c, lead ≤ c → c < lead' → ∀ r, row ≤ r → r < m → F r c = 0) →
      P (row + 1) (lead' + 1) (reduceFn F row i lead')) :
    ∀ (fuel : Nat) (M : Matrix T) (F : Nat → Nat → T) (row lead : Nat),
      M.Holds m n F → P row lead F → m - row ≤ fuel →
      ∃ M' F', rrefLoop fuel M row lead = .ok M' ∧ M'.Holds m n F' ∧ Q F' := by
  intro fuel M F row lead h hP hfuel
  rcases rrefLoop_inv_or P Q hdone hnone
    (fun row lead F i lead' a1 a2 a3 a4 a5 a6 a7 a8 _ =>
      hstep row lead F i lead' a1 a2 a3 a4 a5 a6 a7 a8) fuel M F row lead h hP hfuel with
    hok | ⟨_, x, f, hf, hxf⟩
  · exact hok
  · rw [hov x f hf] at hxf; cases hxf

/-- Whatever the element type, `rref` on a matrix with the storage invariant
returns a matrix of the same shape with the storage invariant, unless it stops
at a division of an entry by a nonzero pivot whose quotient does not exist. No
other failure occurs. -/
theorem rref_total [Zero T] [Sub T] [Mul T] [Div T] [DivOverflow T] [DecidableEq T]
    (M : Matrix T) (h : M.Valid) :
    (∃ M', M.rref = .ok M' ∧ M'.m_rows = M.m_rows ∧ M'.m_columns = M.m_columns ∧ M'.Valid) ∨
    (M.rref = .error .divisionOverflow ∧
      ∃ x f : T, f ≠ 0 ∧ DivOverflow.overflows x f = true) := by
  rcases rrefLoop_inv_or (m := M.m_rows) (n := M.m_columns)
    (fun _ _ _ => True) (fun _ => True)
    (fun _ _ _ _ _ => trivial) (fun _ _ _ _ _ _ _ => trivial)
    (fun _ _ _ _ _ _ _ _ _ _ _ _ _ _ => trivial) M.m_rows M M.entry 0 0 (holds_entry h) trivial
    (by omega) with ⟨M', F', hM', hH, _⟩ | herr
  · exact Or.inl ⟨M', hM', hH.1, hH.2.1, hH.valid⟩
  · exact Or.inr herr

/-- For an element type in which every quotient by a nonzero divisor exists,
`rref` on a matrix with the storage invariant returns a matrix of the same
shape with the storage invariant. -/
theorem rref_ok [Zero T] [Sub T] [Mul T] [Div T] [DivOverflow T] [DecidableEq T]
    (hov : ∀ x f : T, f ≠ 0 → DivOverflow.overflows x f = false) (M : Matrix T)
    (h : M.Valid) :
    ∃ M', M.rref = .ok M' ∧ M'.m_rows = M.m_rows ∧ M'.m_columns = M.m_columns ∧ M'.Valid := by
  rcases rref_total M h with hok | ⟨_, x, f, hf, hxf⟩
  · exact hok
  · rw [hov x f hf] at hxf; cases hxf

/-! ### Row operations over a field -/

theorem dot_congr {n : Nat} {x y v : Nat → K} (h : ∀ c, c < n → x c = y c) :
    dot n x v = dot n y v := by
  unfold dot
  exact Finset.sum_congr rfl (fun c hc => by rw [h c (Finset.mem_range.mp hc)])

theorem dot_div (n : Nat) (x v : Nat → K) (f : K) :
    dot n (fun b => x b / f) v = dot n x v / f := by
  unfold dot
  rw [Finset.sum_div]
  exact Finset.sum_congr rfl (fun c _ => by ring)

theorem dot_sub_mul (n : Nat) (x y v : Nat → K) (t : K) :
    dot n (fun b => x b - t * y b) v = dot n x v - t * dot n y v := by
  unfold dot
  rw [Finset.mul_sum, ← Finset.sum_sub_distrib]
  exact Finset.sum_congr rfl (fun c _ => by ring)

/-- The closed form of one pass of `rref` on a nonzero pivot. -/
theorem reduceFn_eq [Zero T] [Sub T] [Mul T] [Div T] [DecidableEq T]
    (F : Nat → Nat → T) (row i lead : Nat) (hp : F i lead ≠ 0) (a b : Nat) :
    reduceFn F row i lead a b =
      if a = row then F i b / F i lead
      else swapFn F i row a b - swapFn F i row a lead * (F i b / F i lead) := by
  unfold reduceFn
  have hx : swapFn F i row row lead ≠ 0 := by rw [swapFn_row]; exact hp
  rw [if_pos hx]
  unfold elimFn divFn
  by_cases ha : a = row
  · simp [ha, swapFn_row]
  · simp [ha, swapFn_row]

theorem sameKernel_refl (m n : Nat) (F : Nat → Nat → K) : SameKernel m n F F :=
  fun _ => Iff.rfl

theorem sameKernel_trans {m n : Nat} {F G H : Nat → Nat → K} (h1 : SameKernel m n F G)
    (h2 : SameKernel m n G H) : SameKernel m n F H :=
  fun v => (h1 v).trans (h2 v)

theorem sameKernel_congr {m n : Nat} {F G G' : Nat → Nat → K} (h : SameKernel m n F G)
    (hG : ∀ i j, i < m → j < n → G i j = G' i j) : SameKernel m n F G' := by
  intro v
  rw [h v]
  constructor
  · intro hz r hr
    rw [← dot_congr (fun c hc => hG r c hr hc)]; exact hz r hr
  · intro hz r hr
    rw [dot_congr (fun c hc => hG r c hr hc)]; exact hz r hr

theorem swapFn_dot (n : Nat) (F : Nat → Nat → K) (i row a : Nat) (v : Nat → K) :
    dot n (swapFn F i row a) v =
      if a = i then dot n (F row) v else if a = row then dot n (F i) v else dot n (F a) v := by
  unfold swapFn
  by_cases h1 : a = i
  · simp [h1]
  · by_cases h2 : a = row
    · subst h2; simp [h1]
    · simp [h1, h2]

theorem reduceFn_sameKernel {m n : Nat} (F : Nat → Nat → K) {row i lead : Nat}
    (hrow : row < m) (hi : i < m) (hp : F i lead ≠ 0) :
    SameKernel m n F (reduceFn F row i lead) := by
  have hdot : ∀ a v, dot n (reduceFn F row i lead a) v =
      if a = row then dot n (F i) v / F i lead
      else dot n (swapFn F i row a) v - swapFn F i row a lead * (dot n (F i) v / F i lead) := by
    intro a v
    by_cases ha : a = row
    · rw [if_pos ha, ← dot_div]
      exact dot_congr (fun c _ => by rw [reduceFn_eq F row i lead hp, if_pos ha])
    · rw [if_neg ha, ← dot_div, ← dot_sub_mul]
      exact dot_congr (fun c _ => by rw [reduceFn_eq F row i lead hp, if_neg ha])
  intro v
  constructor
  · intro hz a ha
    rw [hdot]
    have hsw : dot n (swapFn F i row a) v = 0 := by
      rw [swapFn_dot]
      split_ifs
      · exact hz row hrow
      · exact hz i hi
      · exact hz a ha
    by_cases har : a = row
    · rw [if_pos har, hz i hi]; simp
    · rw [if_neg har, hsw, hz i hi]; simp
  · intro hz
    have hi0 : dot n (F i) v = 0 := by
      have := hz row hrow
      rw [hdot, if_pos rfl] at this
      rcases div_eq_zero_iff.mp this with h0 | h0
      · exact h0
      · exact absurd h0 hp
    have hsw : ∀ a, a < m → dot n (swapFn F i row a) v = 0 := by
      intro a ha
      by_cases har : a = row
      · have hfun : swapFn F i row row = F i := funext (swapFn_row F i row)
        rw [har, hfun]; exact hi0
      · have := hz a ha
        rw [hdot, if_neg har, hi0] at this
        simpa using this
    intro r hr
    by_cases hri : r = i
    · rw [hri]; exact hi0
    · by_cases hrr : r = row
      · have := hsw i hi
        rw [swapFn_dot, if_pos rfl] at this
        rw [hrr]; exact this
      · have := hsw r hr
        rw [swapFn_dot, if_neg hri, if_neg hrr] at this
        exact this

theorem reduceFn_echelon {m : Nat} (F : Nat → Nat → K) (c : Nat → Nat)
    {row lead i lead' : Nat} (hE : EchelonUpTo m F c row lead) (hrow : row < m)
    (hle : lead ≤ lead') (hri : row ≤ i) (hi : i < m) (hp : F i lead' ≠ 0)
    (hZ : ∀ b, lead ≤ b → b < lead' → ∀ r, row ≤ r → r < m → F r b = 0) :
    EchelonUpTo m (reduceFn F row i lead') (fun k => if k = row then lead' else c k)
      (row + 1) (lead' + 1) := by
  obtain ⟨hpiv, hmono, hzero⟩ := hE
  -- the rows from `row` on are zero left of `lead'`
  have hlow : ∀ r, row ≤ r → r < m → ∀ b, b < lead' → F r b = 0 := by
    intro r hr hrm b hb
    by_cases hbl : b < lead
    · exact hzero r hr hrm b hbl
    · exact hZ b (by omega) hb r hr hrm
  have hswlow : ∀ a, row ≤ a → a < m → ∀ b, b < lead' → swapFn F i row a b = 0 := by
    intro a ha ham b hb
    unfold swapFn
    split_ifs
    · exact hlow row (Nat.le_refl row) hrow b hb
    · exact hlow i hri hi b hb
    · exact hlow a ha ham b hb
  have hswup : ∀ a, a < row → ∀ b, swapFn F i row a b = F a b := by
    intro a ha b
    unfold swapFn
    rw [if_neg (by omega), if_neg (by omega)]
  have hG := reduceFn_eq F row i lead' hp
  -- left of `lead'` the pass changes nothing but the exchange of the rows
  have hleft : ∀ a b, a ≠ row → b < lead' → reduceFn F row i lead' a b = swapFn F i row a b := by
    intro a b ha hb
    rw [hG, if_neg ha, hlow i hri hi b hb]; simp
  have hrowleft : ∀ b, b < lead' → reduceFn F row i lead' row b = 0 := by
    intro b hb
    rw [hG, if_pos rfl, hlow i hri hi b hb]; simp
  have hcol : ∀ a, a ≠ row → reduceFn F row i lead' a lead' = 0 := by
    intro a ha
    rw [hG, if_neg ha, div_self hp]; simp
  refine ⟨?_, ?_, ?_⟩
  · intro k hk
    by_cases hkr : k = row
    · subst hkr
      simp only [if_true]
      refine ⟨Nat.lt_succ_self _, ?_, hrowleft, fun a _ ha => hcol a ha⟩
      rw [hG, if_pos rfl, div_self hp]
    · have hk' : k < row := by omega
      obtain ⟨h1, h2, h3, h4⟩ := hpiv k hk'
      simp only [if_neg hkr]
      have hck : c k < lead' := by omega
      refine ⟨by omega, ?_, ?_, ?_⟩
      · rw [hleft k (c k) hkr hck, hswup k hk', h2]
      · intro j hj
        rw [hleft k j hkr (by omega), hswup k hk', h3 j hj]
      · intro a ham hak
        by_cases har : a = row
        · rw [har]; exact hrowleft (c k) hck
        · rw [hleft a (c k) har hck]
          by_cases halt : a < row
          · rw [hswup a halt]; exact h4 a ham hak
          · exact hswlow a (by omega) ham (c k) hck
  · intro k k' hkk hk'
    by_cases hk'r : k' = row
    · have hk : k < row := by omega
      simp only [if_neg (Nat.ne_of_lt hk), if_pos hk'r]
      have := (hpiv k hk).1
      omega
    · have h1 : k' < row := by omega
      have h2 : k ≠ row := by omega
      simp only [if_neg h2, if_neg hk'r]
      exact hmono k k' hkk h1
  · intro a ha ham b hb
    have har : a ≠ row := by omega
    by_cases hbl : b = lead'
    · rw [hbl]; exact hcol a har
    · rw [hleft a b har (by omega)]
      exact hswlow a (by omega) ham b (by omega)

/-- Over a field `rref` returns a matrix of the same shape in reduced row
echelon form whose rows annihilate the same vectors as the rows of the input. -/
theorem rref_correct (M : Matrix K) (h : M.Valid) :
    ∃ M', M.rref = .ok M' ∧ M'.m_rows = M.m_rows ∧ M'.m_columns = M.m_columns ∧ M'.Valid ∧
      M'.IsRREF ∧ SameKernel M.m_rows M.m_columns M.entry M'.entry := by
  obtain ⟨M', F', hM', hH, hQ⟩ := rrefLoop_inv (m := M.m_rows) (n := M.m_columns)
    (fun _ _ _ => rfl)
    (fun row lead F => row ≤ M.m_rows ∧ lead ≤ M.m_columns ∧
      SameKernel M.m_rows M.m_columns M.entry F ∧ ∃ c, EchelonUpTo M.m_rows F c row lead)
    (fun F => SameKernel M.m_rows M.m_columns M.entry F ∧
      ∃ (r : Nat) (c : Nat → Nat), r ≤ M.m_rows ∧
        (∀ k, k < r → c k < M.m_columns ∧ F k (c k) = 1 ∧ (∀ j, j < c k → F k j = 0) ∧
          ∀ i, i < M.m_rows → i ≠ k → F i (c k) = 0) ∧
        (∀ k k', k < k' → k' < r → c k < c k') ∧
        (∀ i, r ≤ i → i < M.m_rows → ∀ j, j < M.m_columns → F i j = 0))
    (by
      intro row lead F ⟨hr, hl, hS, c, hpiv, hmono, hzero⟩ hcond
      refine ⟨hS, row, c, hr, ?_, hmono, ?_⟩
      · intro k hk
        obtain ⟨h1, h2, h3, h4⟩ := hpiv k hk
        exact ⟨by omega, h2, h3, h4⟩
      · intro i hi him j hj
        exact hzero i hi him j (by omega))
    (by
      intro row lead F ⟨hr, hl, hS, c, hpiv, hmono, hzero⟩ hrow hlead hZ
      refine ⟨hS, row, c, hr, ?_, hmono, ?_⟩
      · intro k hk
        obtain ⟨h1, h2, h3, h4⟩ := hpiv k hk
        exact ⟨by omega, h2, h3, h4⟩
      · intro i hi him j hj
        by_cases hjl : j < lead
        · exact hzero i hi him j hjl
        · exact hZ j (by omega) hj i hi him)
    (by
      intro row lead F i lead' ⟨hr, hl, hS, c, hE⟩ hrow hle hlead' hri hi hp hZ
      exact ⟨hrow, hlead', sameKernel_trans hS (reduceFn_sameKernel F hrow hi hp), _,
        reduceFn_echelon F c hE hrow hle hri hi hp hZ⟩)
    M.m_rows M M.entry 0 0 (holds_entry h)
    ⟨Nat.zero_le _, Nat.zero_le _, sameKernel_refl _ _ _, fun _ => 0,
      fun k hk => absurd hk (Nat.not_lt_zero k), fun k k' _ hk' => absurd hk' (Nat.not_lt_zero k'),
      fun i _ _ j hj => absurd hj (Nat.not_lt_zero j)⟩
    (by omega)
  obtain ⟨hS, r, c, hr, hpiv, hmono, hzero⟩ := hQ
  have hent : ∀ i j, i < M.m_rows → j < M.m_columns → F' i j = M'.entry i j :=
    fun i j hi hj => (hH.2.2.2 i j hi hj).symm
  refine ⟨M', hM', hH.1, hH.2.1, hH.valid, ⟨r, c, ?_, ?_, hmono, ?_⟩, sameKernel_congr hS hent⟩
  · rw [hH.1]; exact hr
  · intro k hk
    obtain ⟨h1, h2, h3, h4⟩ := hpiv k hk
    have hkm : k < M.m_rows := by omega
    rw [hH.1, hH.2.1]
    refine ⟨h1, ?_, ?_, ?_⟩
    · rw [← hent k (c k) hkm h1]; exact h2
    · intro j hj
      rw [← hent k j hkm (by omega)]; exact h3 j hj
    · intro i hi hik
      rw [← hent i (c k) hi h1]; exact h4 i hi hik
  · intro i hi him j hj
    rw [hH.1] at him
    rw [hH.2.1] at hj
    rw [← hent i j him hj]; exact hzero i hi him j hj

/-! ### Double loops, `operator*` and `inverse` -/

/-- A double loop over `i < m`, `j < p` whose body sets the entry `(i, j)` to
`val i j` fills the block `m × p` with `val` and leaves the rest as it was. -/
theorem fill_inv [Zero T] {rows cols m p : Nat}
    (body : Nat → Nat → Matrix T → Except Failure (Matrix T)) (val G0 : Nat → Nat → T)
    (R0 : Matrix T) (h0 : R0.Holds rows cols G0)
    (hbody : ∀ i j R G, i < m → j < p → R.Holds rows cols G → G i j = G0 i j →
      ∃ R', body i j R = .ok R' ∧
        R'.Holds rows cols (fun a b => if a = i ∧ b = j then val i j else G a b)) :
    ∃ R', forRange m (fun i R => forRange p (fun j R => body i j R) R) R0 = .ok R' ∧
      R'.Holds rows cols (fun a b => if a < m ∧ b < p then val a b else G0 a b) := by
  refine forRange_inv m _ R0
    (fun i R => R.Holds rows cols (fun a b => if a < i ∧ b < p then val a b else G0 a b))
    (h0.congr (fun a b _ _ => by simp)) ?_
  intro i R hi hR
  have inner := forRange_inv p (fun j R => body i j R) R
    (fun j R => R.Holds rows cols
      (fun a b => if (a < i ∧ b < p) ∨ (a = i ∧ b < j) then val a b else G0 a b))
    (hR.congr (fun a b _ _ => by simp))
    (by
      intro j N hj hN
      obtain ⟨N', hN', hH'⟩ := hbody i j N _ hi hj hN (by
        have : ¬ ((i < i ∧ j < p) ∨ (i = i ∧ j < j)) := by omega
        rw [if_neg this])
      refine ⟨N', hN', hH'.congr ?_⟩
      intro a b _ _
      beta_reduce
      by_cases hab : a = i ∧ b = j
      · obtain ⟨rfl, rfl⟩ := hab
        have : (a < a ∧ b < p) ∨ (a = a ∧ b < b + 1) := by omega
        rw [if_pos ⟨rfl, rfl⟩, if_pos this]
      · have hiff : ((a < i ∧ b < p) ∨ (a = i ∧ b < j + 1)) ↔ ((a < i ∧ b < p) ∨ (a = i ∧ b < j)) := by
          omega
        simp only [hab, if_false, hiff])
  obtain ⟨R', hR', hH'⟩ := inner
  refine ⟨R', hR', hH'.congr ?_⟩
  intro a b _ _
  have hiff : ((a < i ∧ b < p) ∨ (a = i ∧ b < p)) ↔ (a < i + 1 ∧ b < p) := by omega
  simp only [hiff]

theorem holds_mk3 [Zero T] (rows columns : Nat) (value : T) :
    (mk3 rows columns value).Holds rows columns (fun _ _ => value) := by
  refine ⟨rfl, rfl, by simp [mk3], ?_⟩
  intro i j hi hj
  have := flat_lt hi hj
  simp [mk3, entry, List.getElem?_replicate, this]

theorem holds_mk2 [Zero T] (rows columns : Nat) :
    (mk2 rows columns : Matrix T).Holds rows columns (fun _ _ => 0) :=
  holds_mk3 rows columns 0

/-- `operator*` on matrices with the storage invariant and matching shapes:
the entry `(i, j)` of the product is the accumulated sum of `A(i,k) * B(k,j)`. -/
theorem mul_spec [Zero T] [Add T] [Mul T] {A B : Matrix T} {m n p : Nat}
    {F G : Nat → Nat → T} (hA : A.Holds m n F) (hB : B.Holds n p G) (hmp : m = p) :
    ∃ R, A.mul B = .ok R ∧
      R.Holds m p (fun i j => accum (fun k => F i k * G k j) n) := by
  unfold mul
  rw [if_neg (by rw [hA.1, hA.2.1, hB.1, hB.2.1]; omega), hA.1, hA.2.1, hB.2.1]
  obtain ⟨R, hR, hH⟩ := fill_inv (m := m) (p := p)
    (fun i j result => forRange n (fun k result => do
          let a ← A.get i k
          let b ← B.get k j
          let r ← result.get i j
          result.put i j (r + a * b)) result)
    (fun i j => accum (fun k => F i k * G k j) n) (fun _ _ => (0 : T))
    (mk2 m p) (holds_mk2 m p)
    (by
      intro i j R H hi hj hR hij
      have inner := forRange_inv n (fun k (result : Matrix T) => do
          let a ← A.get i k
          let b ← B.get k j
          let r ← result.get i j
          result.put i j (r + a * b)) R
        (fun k R' => R'.Holds m p (fun a b =>
          if a = i ∧ b = j then accum (fun k => F i k * G k j) k else H a b))
        (hR.congr (fun a b _ _ => by
          by_cases hab : a = i ∧ b = j
          · obtain ⟨rfl, rfl⟩ := hab
            simp [accum, hij]
          · simp [hab]))
        (by
          intro k N hk hN
          obtain ⟨N', hN', hH'⟩ := hN.put hi hj
            (accum (fun k => F i k * G k j) k + F i k * G k j)
          refine ⟨N', ?_, hH'.congr ?_⟩
          · beta_reduce
            rw [hA.get hi hk, bind_ok, hB.get hk hj, bind_ok, hN.get hi hj, bind_ok]
            simp only [and_self, if_true]
            exact hN'
          · intro a b _ _
            beta_reduce
            by_cases hab : a = i ∧ b = j
            · simp [hab, accum]
            · simp [hab])
      exact inner)
  refine ⟨R, hR, hH.congr ?_⟩
  intro a b ha hb
  simp [ha, hb]

/-- The first and the last phase of `inverse` on a square matrix: the
augmented matrix `[A | I]` is built; when `rref` returns on it, the right half
is copied out, and when `rref` fails on it, `inverse` fails in the same way. -/
theorem inverse_build [Zero T] [One T] [Sub T] [Mul T] [Div T] [DivOverflow T]
    [DecidableEq T] {M : Matrix T} {n : Nat} {F : Nat → Nat → T} (h : M.Holds n n F) :
    ∃ tmp : Matrix T, tmp.Holds n (2 * n) (augFn F n) ∧
      (∀ tmp' : Matrix T, tmp.rref = .ok tmp' → tmp'.m_rows = n → tmp'.m_columns = 2 * n →
        tmp'.Valid →
        ∃ inv : Matrix T, M.inverse = .ok inv ∧
          inv.Holds n n (fun a b => tmp'.entry a (b + n))) ∧
      (∀ e, tmp.rref = .error e → M.inverse = .error e) := by
  -- building the augmented matrix
  obtain ⟨tmp, htmp, hH⟩ := forRange_inv n (fun row (tmp : Matrix T) => do
      let tmp ← forRange n (fun column tmp => do
        let x ← M.get row column
        tmp.put row column x) tmp
      tmp.put row (row + n) 1) (mk3 n (2 * n) (0 : T))
    (fun i R => R.Holds n (2 * n) (fun a b => if a < i then augFn F n a b else 0))
    ((holds_mk3 n (2 * n) 0).congr (fun a b _ _ => by simp))
    (by
      intro i R hi hR
      obtain ⟨R1, hR1, hH1⟩ := forRange_inv n (fun column (tmp : Matrix T) => do
          let x ← M.get i column
          tmp.put i column x) R
        (fun j R' => R'.Holds n (2 * n) (fun a b =>
          if a = i ∧ b < j then F a b else if a < i then augFn F n a b else 0))
        (hR.congr (fun a b _ _ => by simp))
        (by
          intro j N hj hN
          obtain ⟨N', hN', hH'⟩ := hN.put hi (show j < 2 * n by omega) (F i j)
          refine ⟨N', ?_, hH'.congr ?_⟩
          · beta_reduce
            rw [h.get hi hj, bind_ok]; exact hN'
          · intro a b _ _
            beta_reduce
            by_cases hab : a = i ∧ b = j
            · obtain ⟨rfl, rfl⟩ := hab
              rw [if_pos ⟨rfl, rfl⟩, if_pos ⟨rfl, Nat.lt_succ_self b⟩]
            · have hiff : (a = i ∧ b < j + 1) ↔ (a = i ∧ b < j) := by omega
              simp only [hab, if_false, hiff])
      obtain ⟨R2, hR2, hH2⟩ := hH1.put hi (show i + n < 2 * n by omega) 1
      refine ⟨R2, ?_, hH2.congr ?_⟩
      · beta_reduce
        rw [hR1, bind_ok]; exact hR2
      · intro a b ha hb
        beta_reduce
        unfold augFn
        by_cases hai : a = i
        · subst hai
          by_cases hb1 : b = a + n
          · have h1 : ¬ b < n := by omega
            simp [hb1]
          · by_cases hbn : b < n
            · simp [hb1, hbn]
            · simp [hb1, hbn]
        · have h1 : ¬ (a = i ∧ b = i + n) := fun hh => hai hh.1
          have h2 : ¬ (a = i ∧ b < n) := fun hh => hai hh.1
          have hiff : (a < i + 1) ↔ (a < i) := by omega
          simp only [h1, h2, if_false, hiff])
  have hH' : tmp.Holds n (2 * n) (augFn F n) := hH.congr (fun a b ha _ => by simp [ha])
  refine ⟨tmp, hH', ?_, ?_⟩
  swap
  · intro e he
    unfold inverse
    rw [if_neg (by rw [h.1, h.2.1]; simp), h.1, htmp, bind_ok, he]
    rfl
  intro tmp' htmp' hr hc hV
  have hG : tmp'.Holds n (2 * n) tmp'.entry := by
    have := holds_entry hV
    rw [hr, hc] at this; exact this
  -- copying the right half out
  obtain ⟨inv, hinv, hHinv⟩ := fill_inv (m := n) (p := n)
    (fun row column (inv : Matrix T) => do
        let x ← tmp'.get row (column + n)
        inv.put row column x)
    (fun a b => tmp'.entry a (b + n)) (fun _ _ => (0 : T)) (mk2 n n) (holds_mk2 n n)
    (by
      intro i j R G hi hj hR _
      obtain ⟨R', hR', hH'⟩ := hR.put hi hj (tmp'.entry i (j + n))
      refine ⟨R', ?_, hH'⟩
      beta_reduce
      rw [hG.get hi (show j + n < 2 * n by omega), bind_ok]; exact hR')
  refine ⟨inv, ?_, hHinv.congr (fun a b ha hb => by simp [ha, hb])⟩
  unfold inverse
  rw [if_neg (by rw [h.1, h.2.1]; simp), h.1, htmp, bind_ok, htmp', bind_ok]
  exact hinv

/-- The three phases of `inverse` on a square matrix, for an element type in
which every quotient by a nonzero divisor exists: the augmented matrix
`[A | I]` is built, `rref` runs on it, and the right half is copied out. -/
theorem inverse_spec [Zero T] [One T] [Sub T] [Mul T] [Div T] [DivOverflow T] [DecidableEq T]
    (hov : ∀ x f : T, f ≠ 0 → DivOverflow.overflows x f = false)
    {M : Matrix T} {n : Nat} {F : Nat → Nat → T} (h : M.Holds n n F) :
    ∃ tmp tmp' inv : Matrix T, tmp.Holds n (2 * n) (augFn F n) ∧ tmp.rref = .ok tmp' ∧
      tmp'.m_rows = n ∧ tmp'.m_columns = 2 * n ∧ tmp'.Valid ∧
      M.inverse = .ok inv ∧ inv.Holds n n (fun a b => tmp'.entry a (b + n)) := by
  obtain ⟨tmp, hH, hcopy, _⟩ := inverse_build h
  obtain ⟨tmp', htmp', hr, hc, hV⟩ := rref_ok hov tmp hH.valid
  rw [hH.1] at hr
  rw [hH.2.1] at hc
  obtain ⟨inv, hinv, hHinv⟩ := hcopy tmp' htmp' hr hc hV
  exact ⟨tmp, tmp', inv, hH, htmp', hr, hc, hV, hinv, hHinv⟩

/-- Whatever the element type, `inverse` on a square matrix with the storage
invariant returns a matrix of the same shape with the storage invariant,
unless the reduction stops at a division of an entry by a nonzero pivot whose
quotient does not exist. No other failure occurs. -/
theorem inverse_total [Zero T] [One T] [Sub T] [Mul T] [Div T] [DivOverflow T]
    [DecidableEq T] {M : Matrix T} {n : Nat} {F : Nat → Nat → T} (h : M.Holds n n F) :
    (∃ inv : Matrix T, M.inverse = .ok inv ∧ inv.m_rows = n ∧ inv.m_columns = n ∧
      inv.Valid) ∨
    (M.inverse = .error .divisionOverflow ∧
      ∃ x f : T, f ≠ 0 ∧ DivOverflow.overflows x f = true) := by
  obtain ⟨tmp, hH, hcopy, hfail⟩ := inverse_build h
  rcases rref_total tmp hH.valid with ⟨tmp', htmp', hr, hc, hV⟩ | ⟨herr, hE⟩
  · rw [hH.1] at hr
    rw [hH.2.1] at hc
    obtain ⟨inv, hinv, hHinv⟩ := hcopy tmp' htmp' hr hc hV
    exact Or.inl ⟨inv, hinv, hHinv.1, hHinv.2.1, hHinv.valid⟩
  · exact Or.inr ⟨hfail _ herr, hE⟩

/-! ### The algebra of Gauss-Jordan inversion -/

theorem dot_split (n : Nat) (x v : Nat → K) :
    dot (2 * n) x v = dot n x v + dot n (fun c => x (n + c)) (fun c => v (n + c)) := by
  unfold dot
  rw [two_mul, Finset.sum_range_add]

theorem dot_indicator {n j : Nat} (hj : j < n) (x : Nat → K) :
    dot n x (fun c => if c = j then 1 else 0) = x j := by
  unfold dot
  simp [Finset.sum_ite_eq', hj]

theorem indicator_dot {n r : Nat} (hr : r < n) (v : Nat → K) :
    dot n (fun c => if c = r then 1 else 0) v = v r := by
  unfold dot
  simp [Finset.sum_ite_eq', hr]

theorem dot_neg (n : Nat) (x y : Nat → K) : dot n x (fun c => -(y c)) = -dot n x y := by
  unfold dot
  rw [← Finset.sum_neg_distrib]
  exact Finset.sum_congr rfl (fun c _ => by ring)

theorem dot_zero (n : Nat) (x : Nat → K) : dot n x (fun _ => 0) = 0 := by
  unfold dot
  simp

theorem dot_congr_right {n : Nat} {x v w : Nat → K} (h : ∀ c, c < n → v c = w c) :
    dot n x v = dot n x w := by
  unfold dot
  exact Finset.sum_congr rfl (fun c hc => by rw [h c (Finset.mem_range.mp hc)])

/-- The left half of a matrix row-equivalent to `[A | I]` is its right half times `A`. -/
theorem aug_left_eq {n : Nat} {F G : Nat → Nat → K}
    (hS : SameKernel n (2 * n) (augFn F n) G) {r j : Nat} (hr : r < n) (hj : j < n) :
    G r j = dot n (fun c => G r (n + c)) (fun c => F c j) := by
  let v : Nat → K := fun c => if c < n then (if c = j then 1 else 0) else -(F (c - n) j)
  have hv1 : ∀ c, c < n → v c = if c = j then 1 else 0 := fun c hc => by
    simp only [v, if_pos hc]
  have hv2 : ∀ c, c < n → v (n + c) = -(F c j) := fun c _ => by
    have h1 : ¬ (n + c < n) := by omega
    have h2 : n + c - n = c := by omega
    simp only [v, if_neg h1, h2]
  have haug : ∀ a, a < n → dot (2 * n) (augFn F n a) v = 0 := by
    intro a ha
    rw [dot_split, dot_congr_right hv1, dot_congr_right hv2,
      dot_congr (y := F a) (fun c hc => by simp only [augFn, if_pos hc]), dot_indicator hj,
      dot_congr (y := fun c => if c = a then 1 else 0) (fun c _ => by
        have h1 : ¬ (n + c < n) := by omega
        have h2 : (n + c = a + n) ↔ (c = a) := by omega
        simp only [augFn, if_neg h1, h2]),
      indicator_dot ha]
    ring
  have hG := (hS v).mp haug r hr
  rw [dot_split, dot_congr_right hv1, dot_congr_right hv2, dot_indicator hj, dot_neg] at hG
  exact add_neg_eq_zero.mp hG

/-- The right half of a matrix row-equivalent to `[A | I]` annihilates no vector but zero. -/
theorem aug_right_kernel {n : Nat} {F G : Nat → Nat → K}
    (hS : SameKernel n (2 * n) (augFn F n) G) (y : Nat → K)
    (hy : ∀ r, r < n → dot n (fun c => G r (n + c)) y = 0) : ∀ c, c < n → y c = 0 := by
  let v : Nat → K := fun c => if c < n then 0 else y (c - n)
  have hv1 : ∀ c, c < n → v c = 0 := fun c hc => by simp only [v, if_pos hc]
  have hv2 : ∀ c, c < n → v (n + c) = y c := fun c _ => by
    have h1 : ¬ (n + c < n) := by omega
    have h2 : n + c - n = c := by omega
    simp only [v, if_neg h1, h2]
  have hG : ∀ r, r < n → dot (2 * n) (G r) v = 0 := by
    intro r hr
    rw [dot_split, dot_congr_right hv1, dot_congr_right hv2, dot_zero, hy r hr, add_zero]
  intro a ha
  have haug := (hS v).mpr hG a ha
  rw [dot_split, dot_congr_right hv1, dot_congr_right hv2, dot_zero,
    dot_congr (y := fun c => if c = a then 1 else 0) (fun c _ => by
      have h1 : ¬ (n + c < n) := by omega
      have h2 : (n + c = a + n) ↔ (c = a) := by omega
      simp only [augFn, if_neg h1, h2]),
    indicator_dot ha, zero_add] at haug
  exact haug

theorem mono_le {n : Nat} {c : Nat → Nat} (hmono : ∀ k k', k < k' → k' < n → c k < c k') :
    ∀ k, k < n → k ≤ c k := by
  intro k
  induction k with
  | zero => intro _; exact Nat.zero_le _
  | succ k ih =>
    intro hk
    have := ih (by omega)
    have := hmono k (k + 1) (Nat.lt_succ_self k) hk
    omega

theorem mono_add_le {n : Nat} {c : Nat → Nat} (hmono : ∀ k k', k < k' → k' < n → c k < c k')
    (k : Nat) : ∀ d, k + d < n → c k + d ≤ c (k + d) := by
  intro d
  induction d with
  | zero => intro _; exact Nat.le_refl _
  | succ d ih =>
    intro hk
    have := ih (by omega)
    have := hmono (k + d) (k + (d + 1)) (by omega) hk
    omega

/-- Strictly increasing pivot columns `c 0 < ... < c (n-1)` below `n` are `0, ..., n-1`. -/
theorem mono_eq {n : Nat} {c : Nat → Nat} (hmono : ∀ k k', k < k' → k' < n → c k < c k')
    (hlt : ∀ k, k < n → c k < n) : ∀ k, k < n → c k = k := by
  intro k hk
  have h1 := mono_le hmono k hk
  have h2 := mono_add_le hmono k (n - 1 - k) (by omega)
  have h3 := hlt (k + (n - 1 - k)) (by omega)
  omega

theorem dot_eq_sum_fin (n : Nat) (x v : Nat → K) :
    dot n x v = ∑ k : Fin n, x k * v k := by
  unfold dot
  rw [Finset.sum_range]

/-- Linear algebra of Gauss-Jordan inversion: if `G` is in reduced row echelon
form and row-equivalent to `[A | I]` with `A` nonsingular, then `A` times the
right half of `G` is the identity. -/
theorem aug_rref_inverse {n : Nat} {F G : Nat → Nat → K}
    (hS : SameKernel n (2 * n) (augFn F n) G) (r : Nat) (c : Nat → Nat) (hr : r ≤ n)
    (hpiv : ∀ k, k < r → c k < 2 * n ∧ G k (c k) = 1 ∧ (∀ j, j < c k → G k j = 0) ∧
      ∀ i, i < n → i ≠ k → G i (c k) = 0)
    (hmono : ∀ k k', k < k' → k' < r → c k < c k')
    (hzero : ∀ i, r ≤ i → i < n → ∀ j, j < 2 * n → G i j = 0)
    (hdet : Matrix.det (fun i j => F i j : FinMatrix n n K) ≠ 0) :
    (∀ i j, i < n → j < n → G i j = if i = j then 1 else 0) ∧
    ∀ i j, i < n → j < n → dot n (F i) (fun k => G k (n + j)) = if i = j then 1 else 0 := by
  let A : FinMatrix n n K := fun i j => F i j
  let L : FinMatrix n n K := fun i j => G i j
  let R : FinMatrix n n K := fun i j => G i (n + j)
  have hLRA : L = R * A := by
    ext i j
    rw [Matrix.mul_apply]
    show G i j = ∑ k : Fin n, G i (n + k) * F k j
    rw [aug_left_eq hS i.isLt j.isLt, dot_eq_sum_fin]
  have hdetR : R.det ≠ 0 := by
    intro h0
    obtain ⟨v, hv, hRv⟩ := Matrix.exists_mulVec_eq_zero_iff.mpr h0
    apply hv
    let y : Nat → K := fun c => if h : c < n then v ⟨c, h⟩ else 0
    have hy : ∀ a, a < n → dot n (fun c => G a (n + c)) y = 0 := by
      intro a ha
      rw [dot_eq_sum_fin]
      have := congrFun hRv ⟨a, ha⟩
      rw [Matrix.mulVec, Matrix.dotProduct] at this
      simpa [y, R] using this
    funext k
    have := aug_right_kernel hS y hy k k.isLt
    simpa [y] using this
  have hdetL : L.det ≠ 0 := by
    rw [hLRA, Matrix.det_mul]
    exact mul_ne_zero hdetR hdet
  -- every row of the left half is nonzero
  have hrow : ∀ i, i < n → ¬ ∀ j, j < n → G i j = 0 := by
    intro i hi hall
    exact hdetL (Matrix.det_eq_zero_of_row_eq_zero ⟨i, hi⟩ (fun j => hall j j.isLt))
  have hrn : r = n := by
    by_contra hne
    exact hrow r (by omega) (fun j hj => hzero r (Nat.le_refl r) (by omega) j (by omega))
  subst hrn
  have hclt : ∀ k, k < r → c k < r := by
    intro k hk
    by_contra hge
    exact hrow k hk (fun j hj => (hpiv k hk).2.2.1 j (by omega))
  have hck := mono_eq hmono hclt
  have hLone : ∀ i j, i < r → j < r → G i j = if i = j then 1 else 0 := by
    intro i j hi hj
    obtain ⟨_, h1, _, h4⟩ := hpiv j hj
    rw [hck j hj] at h1 h4
    by_cases hij : i = j
    · rw [if_pos hij, hij]; exact h1
    · rw [if_neg hij]; exact h4 i hi hij
  refine ⟨hLone, ?_⟩
  have hL1 : L = 1 := by
    ext i j
    show G i j = _
    rw [hLone i j i.isLt j.isLt, Matrix.one_apply]
    simp [Fin.ext_iff]
  have hAR : A * R = 1 := by
    rw [Matrix.mul_eq_one_comm, ← hLRA, hL1]
  intro i j hi hj
  have := congrFun (congrFun hAR ⟨i, hi⟩) ⟨j, hj⟩
  rw [Matrix.mul_apply, Matrix.one_apply] at this
  rw [dot_eq_sum_fin]
  simpa [A, R, Fin.ext_iff] using this

theorem accum_eq_dot (n : Nat) (x v : Nat → K) : accum (fun k => x k * v k) n = dot n x v := by
  unfold dot
  induction n with
  | zero => simp [accum]
  | succ n ih => rw [accum, ih, Finset.sum_range_succ]

/-! ### Row and column insertion -/

theorem getD_insert (l vs : List T) (q idx : Nat) (d : T) (hq : q ≤ l.length) :
    (l.take q ++ vs ++ l.drop q).getD idx d =
      if idx < q then l.getD idx d
      else if idx < q + vs.length then vs.getD (idx - q) d
      else l.getD (idx - vs.length) d := by
  have hlen : (l.take q).length = q := List.length_take_of_le hq
  simp only [List.getD_eq_getElem?_getD]
  by_cases h1 : idx < q
  · rw [if_pos h1, List.append_assoc, List.getElem?_append_left (by rw [hlen]; exact h1),
      List.getElem?_take_of_lt h1]
  · rw [if_neg h1]
    by_cases h2 : idx < q + vs.length
    · rw [if_pos h2, List.getElem?_append_left (by rw [List.length_append, hlen]; exact h2),
        List.getElem?_append_right (by rw [hlen]; omega), hlen]
    · rw [if_neg h2, List.getElem?_append_right (by rw [List.length_append, hlen]; omega),
        List.getElem?_drop, List.length_append, hlen]
      congr 2
      omega

theorem insertRange_ok (l vs : List T) (q : Nat) (hq : q ≤ l.length) :
    insertRange l q vs = .ok (l.take q ++ vs ++ l.drop q) := by
  unfold insertRange; rw [if_pos hq]

theorem length_insert (l vs : List T) (q : Nat) (hq : q ≤ l.length) :
    (l.take q ++ vs ++ l.drop q).length = l.length + vs.length := by
  simp only [List.length_append, List.length_take_of_le hq, List.length_drop]
  omega

/-- `addRow(row, values)` with a full row of values and `row < m_rows`: the
values become row `row + 1`, the rows up to `row` stay and the later rows move
down by one. -/
theorem addRowValues_spec [Zero T] {M : Matrix T} {m n : Nat} {F : Nat → Nat → T}
    (h : M.Holds m n F) {row : Nat} (hrow : row < m) (values : List T)
    (hlen : values.length = n) :
    ∃ M', M.addRowValues row values = .ok M' ∧
      M'.Holds (m + 1) n (fun a b =>
        if a ≤ row then F a b else if a = row + 1 then values.getD b 0 else F (a - 1) b) := by
  obtain ⟨hr, hc, hl, hF⟩ := h
  have hq : row * n + n ≤ M.m_elements.length := by
    rw [hl]
    have := Nat.mul_le_mul_right n (show row + 1 ≤ m from hrow)
    rw [Nat.succ_mul] at this; exact this
  refine ⟨⟨m + 1, n, M.m_elements.take (row * n + n) ++ values ++ M.m_elements.drop (row * n + n)⟩,
    ?_, rfl, rfl, ?_, ?_⟩
  · unfold addRowValues
    rw [if_neg (by rw [hr]; omega), if_neg (by rw [hc, hlen]; omega), hc, insertRange_ok _ _ _ hq,
      bind_ok, hr]
  · show List.length (_ ++ _ ++ _) = _
    rw [length_insert _ _ _ hq, hl, hlen, Nat.succ_mul]
  · intro a b ha hb
    show List.getD (_ ++ _ ++ _) (a * n + b) 0 = _
    rw [getD_insert _ _ _ _ _ hq, hlen]
    beta_reduce
    have hEnt : ∀ a' b', a' < m → b' < n → M.m_elements.getD (a' * n + b') 0 = F a' b' := by
      intro a' b' ha' hb'
      have := hF a' b' ha' hb'
      unfold entry at this
      rw [hc] at this; exact this
    by_cases h1 : a ≤ row
    · have hlt : a * n + b < row * n + n := by
        have := Nat.mul_le_mul_right n h1
        omega
      rw [if_pos hlt, if_pos h1]
      exact hEnt a b (by omega) hb
    · rw [if_neg h1]
      have hge : row * n + n ≤ a * n := by
        have := Nat.mul_le_mul_right n (show row + 1 ≤ a by omega)
        rw [Nat.succ_mul] at this; exact this
      rw [if_neg (by omega)]
      by_cases h2 : a = row + 1
      · have e : a * n = row * n + n := by rw [h2, Nat.succ_mul]
        rw [if_pos (by omega), if_pos h2]
        congr 1
        omega
      · have hge2 : row * n + n + n ≤ a * n := by
          have := Nat.mul_le_mul_right n (show row + 2 ≤ a by omega)
          rw [show row + 2 = (row + 1) + 1 from rfl, Nat.succ_mul, Nat.succ_mul] at this
          exact this
        rw [if_neg (by omega), if_neg h2]
        obtain ⟨a', rfl⟩ : ∃ a', a = a' + 1 := ⟨a - 1, by omega⟩
        have e : (a' + 1) * n + b - n = a' * n + b := by rw [Nat.succ_mul]; omega
        rw [e]
        exact hEnt a' b (by omega) hb

/-- `addRow(row)` inserts what `addRow(row, values)` inserts for a row of zeros. -/
theorem addRow_eq_addRowValues [Zero T] (M : Matrix T) (row : Nat) :
    M.addRow row = M.addRowValues row (List.replicate M.m_columns 0) := by
  unfold addRow addRowValues
  simp

/-- The loop of `addColumn`: one element inserted into every row of the
row-major storage, after position `column` of that row. -/
theorem addColumn_loop [Zero T] {m n column : Nat} (l : List T) (hl : l.length = m * n)
    (hcol : column < n) (vals : Nat → T) (body : Nat → List T → Except Failure (List T))
    (hbody : ∀ i L, i < m → body i L = insertRange L (i * (n + 1) + column + 1) [vals i]) :
    ∃ L, forRange m body l = .ok L ∧ L.length = m * (n + 1) ∧
      ∀ a b, a < m → b < n + 1 → L.getD (a * (n + 1) + b) 0 =
        if b ≤ column then l.getD (a * n + b) 0
        else if b = column + 1 then vals a else l.getD (a * n + b - 1) 0 := by
  obtain ⟨L, hL, hlen, hnew, _⟩ := forRange_inv m body l
    (fun i L => L.length = m * n + i ∧
      (∀ a b, a < i → b < n + 1 → L.getD (a * (n + 1) + b) 0 =
        if b ≤ column then l.getD (a * n + b) 0
        else if b = column + 1 then vals a else l.getD (a * n + b - 1) 0) ∧
      ∀ idx, i * (n + 1) ≤ idx → L.getD idx 0 = l.getD (idx - i) 0)
    ⟨by simpa using hl, fun a b ha _ => absurd ha (Nat.not_lt_zero a), fun idx _ => by simp⟩
    (by
      intro i L hi ⟨hlen, hnew, hold⟩
      have hflat : i * n + column < m * n := flat_lt hi hcol
      have hq : i * (n + 1) + column + 1 ≤ L.length := by
        rw [hlen, Nat.mul_succ]; omega
      refine ⟨_, by rw [hbody i L hi, insertRange_ok _ _ _ hq], ?_, ?_, ?_⟩
      · rw [length_insert _ _ _ hq, hlen]; rfl
      · intro a b ha hb
        rw [getD_insert _ _ _ _ _ hq]
        by_cases hai : a < i
        · have h1 : a * (n + 1) + b < i * (n + 1) + column + 1 := by
            have := flat_lt hai hb
            omega
          rw [if_pos h1]
          exact hnew a b hai hb
        · have hai' : a = i := by omega
          subst hai'
          by_cases hb1 : b ≤ column
          · rw [if_pos (by omega), if_pos hb1, hold _ (by omega)]
            congr 1
            rw [Nat.mul_succ]; omega
          · rw [if_neg (by omega), if_neg hb1]
            by_cases hb2 : b = column + 1
            · rw [if_pos (by simp; omega), if_pos hb2]
              have : a * (n + 1) + b - (a * (n + 1) + column + 1) = 0 := by omega
              rw [this]; rfl
            · rw [if_neg (by simp; omega), if_neg hb2, hold _ (by simp; omega)]
              congr 1
              simp only [List.length_singleton]
              rw [Nat.mul_succ]; omega
      · intro idx hidx
        rw [getD_insert _ _ _ _ _ hq]
        have h0 : (i + 1) * (n + 1) = i * (n + 1) + n + 1 := by rw [Nat.succ_mul]; omega
        rw [if_neg (by omega), if_neg (by simp; omega), hold _ (by simp; omega)]
        congr 1
        simp only [List.length_singleton]
        omega)
  exact ⟨L, hL, by rw [hlen, Nat.mul_succ], hnew⟩

/-- `addColumn(column, values)` with one value for every row and
`column < m_columns`: the values become column `column + 1`, the columns up to
`column` stay and the later columns move right by one. -/
theorem addColumnValues_spec [Zero T] {M : Matrix T} {m n : Nat} {F : Nat → Nat → T}
    (h : M.Holds m n F) {column : Nat} (hcol : column < n) (values : List T)
    (hlen : values.length = m) :
    ∃ M', M.addColumnValues column values = .ok M' ∧
      M'.Holds m (n + 1) (fun a b =>
        if b ≤ column then F a b else if b = column + 1 then values.getD a 0 else F a (b - 1)) := by
  obtain ⟨hr, hc, hl, hF⟩ := h
  obtain ⟨L, hL, hLlen, hLget⟩ := addColumn_loop M.m_elements hl hcol (fun a => values.getD a 0)
    (fun i elements => do
      let v ← readValue values i
      insertRange elements (i * (n + 1) + column + 1) [v])
    (by
      intro i L hi
      have : readValue values i = .ok (values.getD i 0) := by
        unfold readValue
        rw [List.getD_eq_getElem?_getD, List.getElem?_eq_getElem (by rw [hlen]; exact hi)]
        rfl
      beta_reduce
      rw [this, bind_ok])
  refine ⟨⟨m, n + 1, L⟩, ?_, rfl, rfl, hLlen, ?_⟩
  · unfold addColumnValues
    rw [if_neg (by rw [hc]; omega), if_neg (by rw [hr, hlen]; omega), hr, hc, hL, bind_ok]
  · intro a b ha hb
    show L.getD (a * (n + 1) + b) 0 = _
    rw [hLget a b ha hb]
    have hEnt : ∀ a' b', a' < m → b' < n → M.m_elements.getD (a' * n + b') 0 = F a' b' := by
      intro a' b' ha' hb'
      have := hF a' b' ha' hb'
      unfold entry at this
      rw [hc] at this; exact this
    beta_reduce
    by_cases hb1 : b ≤ column
    · rw [if_pos hb1, if_pos hb1]; exact hEnt a b ha (by omega)
    · rw [if_neg hb1, if_neg hb1]
      by_cases hb2 : b = column + 1
      · rw [if_pos hb2, if_pos hb2]
      · rw [if_neg hb2, if_neg hb2]
        have e : a * n + b - 1 = a * n + (b - 1) := by omega
        rw [e]; exact hEnt a (b - 1) ha (by omega)

/-- `addColumn(column)` with `column < m_columns`: a column of zeros becomes
column `column + 1`. -/
theorem addColumn_spec [Zero T] {M : Matrix T} {m n : Nat} {F : Nat → Nat → T}
    (h : M.Holds m n F) {column : Nat} (hcol : column < n) :
    ∃ M', M.addColumn column = .ok M' ∧
      M'.Holds m (n + 1) (fun a b =>
        if b ≤ column then F a b else if b = column + 1 then 0 else F a (b - 1)) := by
  obtain ⟨hr, hc, hl, hF⟩ := h
  obtain ⟨L, hL, hLlen, hLget⟩ := addColumn_loop M.m_elements hl hcol (fun _ => (0 : T))
    (fun i elements => insertRange elements (i * (n + 1) + column + 1) [0])
    (fun i L _ => rfl)
  refine ⟨⟨m, n + 1, L⟩, ?_, rfl, rfl, hLlen, ?_⟩
  · unfold addColumn
    rw [if_neg (by rw [hc]; omega), hr, hc, hL, bind_ok]
  · intro a b ha hb
    show L.getD (a * (n + 1) + b) 0 = _
    rw [hLget a b ha hb]
    have hEnt : ∀ a' b', a' < m → b' < n → M.m_elements.getD (a' * n + b') 0 = F a' b' := by
      intro a' b' ha' hb'
      have := hF a' b' ha' hb'
      unfold entry at this
      rw [hc] at this; exact this
    beta_reduce
    by_cases hb1 : b ≤ column
    · rw [if_pos hb1, if_pos hb1]; exact hEnt a b ha (by omega)
    · rw [if_neg hb1, if_neg hb1]
      by_cases hb2 : b = column + 1
      · rw [if_pos hb2, if_pos hb2]
      · rw [if_neg hb2, if_neg hb2]
        have e : a * n + b - 1 = a * n + (b - 1) := by omega
        rw [e]; exact hEnt a (b - 1) ha (by omega)

/-- What `addRow(row, values)` with a full row of values and `row < m_rows`
does, read through `operator()`. -/
theorem addRowValues_get [Zero T] (M : Matrix T) (hV : M.Valid) (row : Nat)
    (hrow : row < M.m_rows) (values : List T) (hlen : values.length = M.m_columns) :
    ∃ M' : Matrix T, M.addRowValues row values = .ok M' ∧
      M'.m_rows = M.m_rows + 1 ∧ M'.m_columns = M.m_columns ∧ M'.Valid ∧
      (∀ i j, i ≤ row → j < M.m_columns → M'.get i j = M.get i j) ∧
      (∀ j, j < M.m_columns → M'.get (row + 1) j = .ok (values.getD j 0)) ∧
      (∀ k j, row < k → k < M.m_rows → j < M.m_columns → M'.get (k + 1) j = M.get k j) := by
  have hM := holds_entry hV
  obtain ⟨M', hM', hH⟩ := addRowValues_spec hM hrow values hlen
  refine ⟨M', hM', hH.1, hH.2.1, hH.valid, ?_, ?_, ?_⟩
  · intro i j hi hj
    rw [hH.get (show i < M.m_rows + 1 by omega) hj, hM.get (show i < M.m_rows by omega) hj,
      if_pos hi]
  · intro j hj
    rw [hH.get (show row + 1 < M.m_rows + 1 by omega) hj, if_neg (by omega), if_pos rfl]
  · intro k j hk hkm hj
    rw [hH.get (show k + 1 < M.m_rows + 1 by omega) hj, hM.get hkm hj, if_neg (by omega),
      if_neg (by omega)]
    rfl

/-- What `addColumn(column, values)` with one value for every row and
`column < m_columns` does, read through `operator()`. -/
theorem addColumnValues_get [Zero T] (M : Matrix T) (hV : M.Valid) (column : Nat)
    (hcol : column < M.m_columns) (values : List T) (hlen : values.length = M.m_rows) :
    ∃ M' : Matrix T, M.addColumnValues column values = .ok M' ∧
      M'.m_rows = M.m_rows ∧ M'.m_columns = M.m_columns + 1 ∧ M'.Valid ∧
      (∀ i j, i < M.m_rows → j ≤ column → M'.get i j = M.get i j) ∧
      (∀ i, i < M.m_rows → M'.get i (column + 1) = .ok (values.getD i 0)) ∧
      (∀ i k, i < M.m_rows → column < k → k < M.m_columns → M'.get i (k + 1) = M.get i k) := by
  have hM := holds_entry hV
  obtain ⟨M', hM', hH⟩ := addColumnValues_spec hM hcol values hlen
  refine ⟨M', hM', hH.1, hH.2.1, hH.valid, ?_, ?_, ?_⟩
  · intro i j hi hj
    rw [hH.get hi (show j < M.m_columns + 1 by omega), hM.get hi (show j < M.m_columns by omega),
      if_pos hj]
  · intro i hi
    rw [hH.get hi (show column + 1 < M.m_columns + 1 by omega), if_neg (by omega), if_pos rfl]
  · intro i k hi hk hkn
    rw [hH.get hi (show k + 1 < M.m_columns + 1 by omega), hM.get hi hkn, if_neg (by omega),
      if_neg (by omega)]
    rfl

/-- What `addColumn(column)` with `column < m_columns` does, read through `operator()`. -/
theorem addColumn_get [Zero T] (M : Matrix T) (hV : M.Valid) (column : Nat)
    (hcol : column < M.m_columns) :
    ∃ M' : Matrix T, M.addColumn column = .ok M' ∧
      M'.m_rows = M.m_rows ∧ M'.m_columns = M.m_columns + 1 ∧ M'.Valid ∧
      (∀ i j, i < M.m_rows → j ≤ column → M'.get i j = M.get i j) ∧
      (∀ i, i < M.m_rows → M'.get i (column + 1) = .ok 0) ∧
      (∀ i k, i < M.m_rows → column < k → k < M.m_columns → M'.get i (k + 1) = M.get i k) := by
  have hM := holds_entry hV
  obtain ⟨M', hM', hH⟩ := addColumn_spec hM hcol
  refine ⟨M', hM', hH.1, hH.2.1, hH.valid, ?_, ?_, ?_⟩
  · intro i j hi hj
    rw [hH.get hi (show j < M.m_columns + 1 by omega), hM.get hi (show j < M.m_columns by omega),
      if_pos hj]
  · intro i hi
    rw [hH.get hi (show column + 1 < M.m_columns + 1 by omega), if_neg (by omega), if_pos rfl]
  · intro i k hi hk hkn
    rw [hH.get hi (show k + 1 < M.m_columns + 1 by omega), hM.get hi hkn, if_neg (by omega),
      if_neg (by omega)]
    rfl

theorem getD_replicate_zero [Zero T] (n j : Nat) : (List.replicate n (0 : T)).getD j 0 = 0 := by
  rw [List.getD_eq_getElem?_getD, List.getElem?_replicate]
  by_cases h : j < n
  · rw [if_pos h]; rfl
  · rw [if_neg h]; rfl

/-- What `addRow(row)` with `row < m_rows` does, read through `operator()`. -/
theorem addRow_get [Zero T] (M : Matrix T) (hV : M.Valid) (row : Nat)
    (hrow : row < M.m_rows) :
    ∃ M' : Matrix T, M.addRow row = .ok M' ∧
      M'.m_rows = M.m_rows + 1 ∧ M'.m_columns = M.m_columns ∧ M'.Valid ∧
      (∀ i j, i ≤ row → j < M.m_columns → M'.get i j = M.get i j) ∧
      (∀ j, j < M.m_columns → M'.get (row + 1) j = .ok 0) ∧
      (∀ k j, row < k → k < M.m_rows → j < M.m_columns → M'.get (k + 1) j = M.get k j) := by
  obtain ⟨M', hM', h1, h2, h3, h4, h5, h6⟩ :=
    addRowValues_get M hV row hrow (List.replicate M.m_columns 0) (by simp)
  refine ⟨M', by rw [addRow_eq_addRowValues]; exact hM', h1, h2, h3, h4, ?_, h6⟩
  intro j hj
  rw [h5 j hj, getD_replicate_zero]

/-- For an element type in which every quotient by a nonzero divisor exists,
`inverse` on a square matrix with the storage invariant returns a square matrix
of the same size with the storage invariant. -/
theorem inverse_ok [Zero T] [One T] [Sub T] [Mul T] [Div T] [DivOverflow T] [DecidableEq T]
    (hov : ∀ x f : T, f ≠ 0 → DivOverflow.overflows x f = false) (M : Matrix T)
    (hV : M.Valid) (hsq : M.m_rows = M.m_columns) :
    ∃ B : Matrix T, M.inverse = .ok B ∧ B.m_rows = M.m_rows ∧ B.m_columns = M.m_rows ∧
      B.Valid := by
  have hM : M.Holds M.m_rows M.m_rows M.entry := by
    have := holds_entry hV
    rw [← hsq] at this; exact this
  obtain ⟨_, _, B, _, _, _, _, _, hB, hH⟩ := inverse_spec hov hM
  exact ⟨B, hB, hH.1, hH.2.1, hH.valid⟩

theorem getD_of_getElem? [Zero T] {values : List T} {j : Nat} {v : T}
    (h : values[j]? = some v) : values.getD j 0 = v := by
  rw [List.getD_eq_getElem?_getD, h]; rfl

/-! ### The storage invariant after a returning operation -/

/-- The invariant rule for a loop whose body may fail: if the loop returns,
an invariant kept by every returning pass holds at the end. -/
theorem loopFrom_of_ok {σ : Type} (body : Nat → σ → Except Failure σ) (Inv : Nat → σ → Prop) :
    ∀ (count k : Nat) (s s' : σ), Inv k s →
      (∀ j t t', k ≤ j → j < k + count → Inv j t → body j t = .ok t' → Inv (j + 1) t') →
      loopFrom body k count s = .ok s' → Inv (k + count) s' := by
  intro count
  induction count with
  | zero =>
    intro k s s' h _ hs
    simp only [loopFrom] at hs
    cases hs; exact h
  | succ c ih =>
    intro k s s' h hstep hs
    simp only [loopFrom] at hs
    cases hb : body k s with
    | error e => rw [hb] at hs; cases hs
    | ok t =>
      rw [hb] at hs
      have := ih (k + 1) t s' (hstep k s t (Nat.le_refl k) (by omega) h hb)
        (fun j u u' hj hlt hu hbu => hstep j u u' (by omega) (by omega) hu hbu) hs
      have e : k + (c + 1) = k + 1 + c := by omega
      rw [e]; exact this

theorem forRange_of_ok {σ : Type} (n : Nat) (body : Nat → σ → Except Failure σ) (s s' : σ)
    (Inv : Nat → σ → Prop) (h0 : Inv 0 s)
    (hstep : ∀ j t t', j < n → Inv j t → body j t = .ok t' → Inv (j + 1) t')
    (hs : forRange n body s = .ok s') : Inv n s' := by
  have := loopFrom_of_ok body Inv n 0 s s' h0
    (fun j t t' _ hlt ht hb => hstep j t t' (by omega) ht hb) hs
  simpa using this

theorem put_shape {M M' : Matrix T} {i j : Nat} {x : T} (h : M.put i j x = .ok M') :
    M'.m_rows = M.m_rows ∧ M'.m_columns = M.m_columns ∧
      M'.m_elements.length = M.m_elements.length := by
  unfold Matrix.put at h
  split_ifs at h
  cases h
  simp

/-- A sequence of two steps that returns: the first step returned too. -/
theorem ok_of_bind_ok {α β : Type} (step : Except Failure α) (rest : α → Except Failure β)
    (b : β) : (step >>= rest) = Except.ok b → ∃ a, rest a = Except.ok b ∧ step = Except.ok a := by
  intro h
  rcases step with e | a
  · exact Except.noConfusion h
  · exact ⟨a, h, rfl⟩

/-- The product of two sizes that does not reach `2^64`. -/
theorem sizeMul_eq {a b : Nat} (h : a * b < 18446744073709551616) : sizeMul a b = a * b :=
  Nat.mod_eq_of_lt h

/-- All three constructors establish the storage invariant, the list
constructor where the product `rows * columns` does not wrap. -/
theorem constructors_valid [Zero T] (rows columns : Nat) (value : T) (values : List T)
    (hsize : rows * columns < 18446744073709551616) :
    (mk2 rows columns : Matrix T).Valid ∧ (mk3 rows columns value).Valid ∧
      ∀ M : Matrix T, ofList rows columns values = .ok M → M.Valid := by
  refine ⟨by simp [mk2, Valid], by simp [mk3, Valid], ?_⟩
  intro M h
  unfold ofList at h
  rw [sizeMul_eq hsize] at h
  split_ifs at h with hlt
  cases h
  simp only [Valid, List.length_append, List.length_drop, List.length_replicate]
  omega

/-- A returning `swapRows` keeps the shape and the storage invariant. -/
theorem swapRows_valid {M M' : Matrix T} (i j : Nat) (hV : M.Valid)
    (h : M.swapRows i j = .ok M') :
    M'.m_rows = M.m_rows ∧ M'.m_columns = M.m_columns ∧ M'.Valid := by
  have key := forRange_of_ok M.m_columns _ M M'
    (fun _ N => N.m_rows = M.m_rows ∧ N.m_columns = M.m_columns ∧
      N.m_elements.length = M.m_elements.length) ⟨rfl, rfl, rfl⟩
    (by
      intro k N N' _ ⟨h1, h2, h3⟩ hb
      obtain ⟨a, hb, _⟩ := ok_of_bind_ok _ _ _ hb
      obtain ⟨b, hb, _⟩ := ok_of_bind_ok _ _ _ hb
      obtain ⟨N1, hb, hN1⟩ := ok_of_bind_ok _ _ _ hb
      have s1 := put_shape hN1
      have s2 := put_shape hb
      exact ⟨by rw [s2.1, s1.1, h1], by rw [s2.2.1, s1.2.1, h2], by rw [s2.2.2, s1.2.2, h3]⟩) h
  obtain ⟨h1, h2, h3⟩ := key
  refine ⟨h1, h2, ?_⟩
  unfold Valid at hV ⊢
  rw [h1, h2, h3]; exact hV

theorem insertRange_length {l l' xs : List T} {q : Nat} (h : insertRange l q xs = .ok l') :
    l'.length = l.length + xs.length := by
  unfold insertRange at h
  split_ifs at h with hq
  cases h
  exact length_insert l xs q hq

/-- A returning `addRow(row)` keeps the storage invariant. -/
theorem addRow_valid [Zero T] {M M' : Matrix T} (row : Nat) (hV : M.Valid)
    (h : M.addRow row = .ok M') : M'.Valid := by
  unfold addRow at h
  split_ifs at h
  obtain ⟨l, h, hl⟩ := ok_of_bind_ok _ _ _ h
  cases h
  have := insertRange_length hl
  unfold Valid at hV ⊢
  simp only [List.length_replicate] at this
  rw [this, hV, Nat.succ_mul]

/-- A returning `addRow(row, values)` with a full row of values keeps the
storage invariant. -/
theorem addRowValues_valid {M M' : Matrix T} (row : Nat) (values : List T) (hV : M.Valid)
    (hlen : values.length = M.m_columns) (h : M.addRowValues row values = .ok M') :
    M'.Valid := by
  unfold addRowValues at h
  split_ifs at h
  obtain ⟨l, h, hl⟩ := ok_of_bind_ok _ _ _ h
  cases h
  have := insertRange_length hl
  unfold Valid at hV ⊢
  rw [this, hV, hlen, Nat.succ_mul]

/-- A returning `addColumn(column)` keeps the storage invariant. -/
theorem addColumn_valid [Zero T] {M M' : Matrix T} (column : Nat) (hV : M.Valid)
    (h : M.addColumn column = .ok M') : M'.Valid := by
  unfold addColumn at h
  split_ifs at h
  obtain ⟨l, h, hl⟩ := ok_of_bind_ok _ _ _ h
  cases h
  have key := forRange_of_ok M.m_rows _ M.m_elements l
    (fun k L => L.length = M.m_elements.length + k) rfl
    (by
      intro k L L' _ hL hb
      rw [insertRange_length hb, hL]; rfl) hl
  unfold Valid at hV ⊢
  show l.length = M.m_rows * (M.m_columns + 1)
  rw [key, hV, Nat.mul_succ]

/-- A returning `addColumn(column, values)` keeps the storage invariant. -/
theorem addColumnValues_valid {M M' : Matrix T} (column : Nat) (values : List T)
    (hV : M.Valid) (h : M.addColumnValues column values = .ok M') : M'.Valid := by
  unfold addColumnValues at h
  split_ifs at h
  obtain ⟨l, h, hl⟩ := ok_of_bind_ok _ _ _ h
  cases h
  have key := forRange_of_ok M.m_rows _ M.m_elements l
    (fun k L => L.length = M.m_elements.length + k) rfl
    (by
      intro k L L' _ hL hb
      obtain ⟨v, hb, _⟩ := ok_of_bind_ok _ _ _ hb
      rw [insertRange_length hb, hL]; rfl) hl
  unfold Valid at hV ⊢
  show l.length = M.m_rows * (M.m_columns + 1)
  rw [key, hV, Nat.mul_succ]

/-- `addRow(row)` throws exactly when `row > m_rows`. -/
theorem addRow_outsideRange_iff [Zero T] (M : Matrix T) (row : Nat) :
    M.addRow row = .error .outsideRange ↔ row > M.m_rows := by
  unfold addRow
  by_cases h : row > M.m_rows
  · simp [h]
  · rw [if_neg h]
    constructor
    · intro hb
      unfold insertRange at hb
      split_ifs at hb <;> cases hb
    · intro h'; exact absurd h' h

/-- `addRow(m_rows)` on a matrix with columns computes an iterator past `end()`. -/
theorem addRow_at_rows [Zero T] (M : Matrix T) (hV : M.Valid) (hc : 0 < M.m_columns) :
    M.addRow M.m_rows = .error .undefinedBehaviour := by
  unfold addRow insertRange
  rw [if_neg (by omega), if_neg (by unfold Valid at hV; rw [hV]; omega)]
  rfl

/-! ### Addition and transposition -/

/-- Two storages of the same shape with the same entries are the same list. -/
theorem elements_eq_of_entries [Zero T] {l l' : List T} {m n : Nat} (hl : l.length = m * n)
    (hl' : l'.length = m * n)
    (h : ∀ i j, i < m → j < n → l.getD (i * n + j) 0 = l'.getD (i * n + j) 0) : l = l' := by
  apply List.ext_getElem (hl.trans hl'.symm)
  intro k h1 h2
  have hk : k < m * n := by rw [← hl]; exact h1
  have hn : 0 < n := by
    rcases Nat.eq_zero_or_pos n with h0 | h0
    · rw [h0, Nat.mul_zero] at hk; exact absurd hk (Nat.not_lt_zero k)
    · exact h0
  have hi : k / n < m := Nat.div_lt_of_lt_mul (by rw [Nat.mul_comm]; exact hk)
  have hj : k % n < n := Nat.mod_lt k hn
  have hkk : k / n * n + k % n = k := by rw [Nat.mul_comm]; exact Nat.div_add_mod k n
  have := h (k / n) (k % n) hi hj
  rw [hkk, List.getD_eq_getElem?_getD, List.getD_eq_getElem?_getD,
    List.getElem?_eq_getElem h1, List.getElem?_eq_getElem h2] at this
  simpa using this

/-- A matrix is determined by its shape and entries. -/
theorem Holds.unique [Zero T] {M M' : Matrix T} {m n : Nat} {F : Nat → Nat → T}
    (h : M.Holds m n F) (h' : M'.Holds m n F) : M = M' := by
  obtain ⟨hr, hc, hl, hF⟩ := h
  obtain ⟨hr', hc', hl', hF'⟩ := h'
  have hel : M.m_elements = M'.m_elements := by
    apply elements_eq_of_entries hl hl'
    intro i j hi hj
    have e1 := hF i j hi hj
    have e2 := hF' i j hi hj
    unfold entry at e1 e2
    rw [hc] at e1
    rw [hc'] at e2
    rw [e1, e2]
  cases M
  cases M'
  simp only at hr hc hr' hc' hel
  subst hr hc hr' hc' hel
  rfl

/-- `operator+` on matrices of one shape with the storage invariant: the
entry `(i, j)` of the sum is the sum of the two entries. -/
theorem add_spec [Zero T] [Add T] {A B : Matrix T} {m n : Nat} {F G : Nat → Nat → T}
    (hA : A.Holds m n F) (hB : B.Holds m n G) :
    ∃ R, A.add B = .ok R ∧ R.Holds m n (fun i j => F i j + G i j) := by
  unfold add
  rw [if_neg (by rw [hA.1, hA.2.1, hB.1, hB.2.1]; simp), hA.1, hA.2.1]
  obtain ⟨R, hR, hH⟩ := fill_inv (m := m) (p := n)
    (fun i j (result : Matrix T) => do
        let a ← A.get i j
        let b ← B.get i j
        result.put i j (a + b))
    (fun i j => F i j + G i j) (fun _ _ => (0 : T)) (mk2 m n) (holds_mk2 m n)
    (by
      intro i j R H hi hj hR _
      obtain ⟨R', hR', hH'⟩ := hR.put hi hj (F i j + G i j)
      refine ⟨R', ?_, hH'⟩
      beta_reduce
      rw [hA.get hi hj, bind_ok, hB.get hi hj, bind_ok]; exact hR')
  exact ⟨R, hR, hH.congr (fun a b ha hb => by simp [ha, hb])⟩

/-- `transpose()` on a matrix with the storage invariant: the entry `(j, i)`
of the result is the entry `(i, j)` of the matrix. -/
theorem transpose_spec [Zero T] {M : Matrix T} {m n : Nat} {F : Nat → Nat → T}
    (h : M.Holds m n F) :
    ∃ R, M.transpose = .ok R ∧ R.Holds n m (fun a b => F b a) := by
  unfold transpose
  rw [h.1, h.2.1]
  obtain ⟨R, hR, hH⟩ := forRange_inv m
    (fun i (result : Matrix T) => forRange n (fun j result => do
        let x ← M.get i j
        result.put j i x) result) (mk2 n m)
    (fun i R => R.Holds n m (fun a b => if b < i then F b a else 0))
    ((holds_mk2 n m).congr (fun a b _ _ => by simp))
    (by
      intro i R hi hR
      obtain ⟨R', hR', hH'⟩ := forRange_inv n (fun j (result : Matrix T) => do
          let x ← M.get i j
          result.put j i x) R
        (fun j R' => R'.Holds n m (fun a b =>
          if b = i ∧ a < j then F b a else if b < i then F b a else 0))
        (hR.congr (fun a b _ _ => by simp))
        (by
          intro j N hj hN
          obtain ⟨N', hN', hH'⟩ := hN.put hj hi (F i j)
          refine ⟨N', ?_, hH'.congr ?_⟩
          · beta_reduce
            rw [h.get hi hj, bind_ok]; exact hN'
          · intro a b _ _
            beta_reduce
            by_cases hab : a = j ∧ b = i
            · obtain ⟨rfl, rfl⟩ := hab
              rw [if_pos ⟨rfl, rfl⟩, if_pos ⟨rfl, Nat.lt_succ_self a⟩]
            · have hiff : (b = i ∧ a < j + 1) ↔ (b = i ∧ a < j) := by omega
              simp only [hab, if_false, hiff])
      refine ⟨R', hR', hH'.congr ?_⟩
      intro a b ha hb
      beta_reduce
      by_cases hbi : b = i
      · subst hbi
        simp [ha]
      · have h1 : ¬ (b = i ∧ a < n) := fun hh => hbi hh.1
        have hiff : (b < i + 1) ↔ (b < i) := by omega
        simp only [h1, if_false, hiff])
  exact ⟨R, hR, hH.congr (fun a b _ hb => by simp [hb])⟩

/-! ### Element access and the list constructor -/

/-- `operator()` in range on a matrix with the storage invariant: the flat
index lies in the storage and the element stored there is returned. -/
theorem get_in_range (M : Matrix T) (hV : M.Valid) {row column : Nat} (hr : row < M.m_rows)
    (hc : column < M.m_columns) :
    ∃ h : row * M.m_columns + column < M.m_elements.length,
      M.get row column = .ok (M.m_elements.get ⟨row * M.m_columns + column, h⟩) := by
  have h : row * M.m_columns + column < M.m_elements.length := by
    unfold Valid at hV; rw [hV]; exact flat_lt hr hc
  refine ⟨h, ?_⟩
  unfold Matrix.get
  rw [if_neg (by omega), List.getElem?_eq_getElem h]
  rfl

/-- `operator()` throws exactly when the row or the column is out of range. -/
theorem get_outsideRange_iff (M : Matrix T) (row column : Nat) :
    M.get row column = .error .outsideRange ↔ row ≥ M.m_rows ∨ column ≥ M.m_columns := by
  unfold Matrix.get
  by_cases h : row ≥ M.m_rows ∨ column ≥ M.m_columns
  · simp [h]
  · rw [if_neg h]
    constructor
    · intro hb
      cases hg : M.m_elements[row * M.m_columns + column]? with
      | none => rw [hg] at hb; cases hb
      | some x => rw [hg] at hb; cases hb
    · intro h'; exact absurd h' h

/-- A write through `operator()` throws exactly when the row or the column is
out of range. -/
theorem put_outsideRange_iff (M : Matrix T) (row column : Nat) (x : T) :
    M.put row column x = .error .outsideRange ↔ row ≥ M.m_rows ∨ column ≥ M.m_columns := by
  unfold Matrix.put
  by_cases h : row ≥ M.m_rows ∨ column ≥ M.m_columns
  · simp [h]
  · rw [if_neg h]
    constructor
    · intro hb
      split_ifs at hb
      cases hb
    · intro h'; exact absurd h' h

/-- A write through `operator()` in range on a matrix with the storage
invariant replaces the element at the flat index. -/
theorem put_in_range (M : Matrix T) (hV : M.Valid) {row column : Nat} (hr : row < M.m_rows)
    (hc : column < M.m_columns) (x : T) :
    M.put row column x =
      .ok ⟨M.m_rows, M.m_columns, M.m_elements.set (row * M.m_columns + column) x⟩ := by
  have h : row * M.m_columns + column < M.m_elements.length := by
    unfold Valid at hV; rw [hV]; exact flat_lt hr hc
  unfold Matrix.put
  rw [if_neg (by omega), if_pos h]

/-- What `operator()` returns is what the storage holds at the flat index. -/
theorem get_of_getElem? (M : Matrix T) {row column : Nat} {v : T} (hr : row < M.m_rows)
    (hc : column < M.m_columns) (h : M.m_elements[row * M.m_columns + column]? = some v) :
    M.get row column = .ok v := by
  unfold Matrix.get
  rw [if_neg (by omega), h]

/-- The storage built by the list constructor: the values, then zeros. -/
theorem ofList_elements [Zero T] (size : Nat) (values : List T) (hlen : values.length ≤ size) :
    (values ++ (List.replicate size (0 : T)).drop values.length).length = size ∧
    (∀ (k : Nat) (v : T), values[k]? = some v →
      (values ++ (List.replicate size (0 : T)).drop values.length)[k]? = some v) ∧
    (∀ k : Nat, values.length ≤ k → k < size →
      (values ++ (List.replicate size (0 : T)).drop values.length)[k]? = some 0) := by
  refine ⟨?_, ?_, ?_⟩
  · simp only [List.length_append, List.length_drop, List.length_replicate]
    omega
  · intro k v hv
    have hk : k < values.length := (List.getElem?_eq_some.mp hv).1
    rw [List.getElem?_append_left hk]; exact hv
  · intro k hk hks
    rw [List.getElem?_append_right hk, List.getElem?_drop, List.getElem?_replicate,
      if_pos (by omega)]

theorem accum_eq_sum {S : Type} [AddCommMonoid S] (f : Nat → S) (n : Nat) :
    accum f n = ∑ k ∈ Finset.range n, f k := by
  induction n with
  | zero => simp [accum]
  | succ n ih => rw [accum, ih, Finset.sum_range_succ]

theorem CInt.add_comm (a b : CInt) : a + b = b + a := by
  show CInt.ofInt (a.val + b.val) = CInt.ofInt (b.val + a.val)
  rw [Int.add_comm]

/-! ### Lead columns without a pivot -/

/-- One evaluation of the condition of the pivot search. -/
theorem pivotSearch_succ [Zero T] [DecidableEq T] (M : Matrix T) (row fuel i lead : Nat) :
    M.pivotSearch row (fuel + 1) i lead =
      match M.get i lead with
      | .error e => .error e
      | .ok x =>
        if x = 0 then
          if i + 1 = M.m_rows then
            if lead + 1 = M.m_columns then .ok none
            else M.pivotSearch row fuel row (lead + 1)
          else M.pivotSearch row fuel (i + 1) lead
        else .ok (some (i, lead)) := rfl

/-- With fuel enough for the entries still to be looked at, the pivot search
does not depend on the fuel. -/
theorem pivotSearch_fuel_irrel [Zero T] [DecidableEq T] {M : Matrix T} {m n : Nat}
    {F : Nat → Nat → T} (h : M.Holds m n F) {row : Nat} (hrow : row < m) :
    ∀ (fuel fuel' i lead : Nat), i < m → lead < n →
      (n - 1 - lead) * m + (m - i) ≤ fuel → (n - 1 - lead) * m + (m - i) ≤ fuel' →
      M.pivotSearch row fuel i lead = M.pivotSearch row fuel' i lead := by
  intro fuel
  induction fuel with
  | zero => intro fuel' i lead hi _ hf _; omega
  | succ fuel ih =>
    intro fuel' i lead hi hl hf hf'
    obtain ⟨g, rfl⟩ : ∃ g, fuel' = g + 1 := ⟨fuel' - 1, by omega⟩
    rw [pivotSearch_succ, pivotSearch_succ, h.get hi hl]
    simp only
    by_cases hx : F i lead = 0
    · rw [if_pos hx, if_pos hx]
      by_cases hlast : i + 1 = M.m_rows
      · rw [if_pos hlast, if_pos hlast]
        by_cases hend : lead + 1 = M.m_columns
        · rw [if_pos hend, if_pos hend]
        · rw [if_neg hend, if_neg hend]
          have hln : lead + 1 < n := by
            have : lead + 1 ≠ n := by rw [← h.2.1]; exact hend
            omega
          obtain ⟨q, hq⟩ : ∃ q, n - 1 - lead = q + 1 := ⟨n - 1 - lead - 1, by omega⟩
          have hq' : n - 1 - (lead + 1) = q := by omega
          rw [hq, Nat.succ_mul] at hf hf'
          exact ih g row (lead + 1) hrow hln (by rw [hq']; omega) (by rw [hq']; omega)
      · rw [if_neg hlast, if_neg hlast]
        have him : i + 1 < m := by
          have : i + 1 ≠ m := by rw [← h.1]; exact hlast
          omega
        exact ih g (i + 1) lead him hl (by omega) (by omega)
    · rw [if_neg hx, if_neg hx]

/-- A lead column without a nonzero entry from row `i` on is left for the next
column, and the search starts again at the row cursor `row`. -/
theorem pivotSearch_skip [Zero T] [DecidableEq T] {M : Matrix T} {m n : Nat}
    {F : Nat → Nat → T} (h : M.Holds m n F) {row lead : Nat} (hlead : lead + 1 < n) :
    ∀ (d i fuel : Nat), i + d = m → 0 < d →
      (∀ r, i ≤ r → r < m → F r lead = 0) →
      M.pivotSearch row (fuel + d) i lead = M.pivotSearch row fuel row (lead + 1) := by
  intro d
  induction d with
  | zero => intro i fuel _ hd; omega
  | succ d ih =>
    intro i fuel him _ hz
    have hi : i < m := by omega
    rw [show fuel + (d + 1) = (fuel + d) + 1 from rfl, pivotSearch_succ,
      h.get hi (show lead < n by omega)]
    simp only
    rw [if_pos (hz i (Nat.le_refl i) hi)]
    by_cases hlast : i + 1 = M.m_rows
    · rw [if_pos hlast, if_neg (by rw [h.2.1]; omega)]
      have : d = 0 := by rw [h.1] at hlast; omega
      rw [this, Nat.add_zero]
    · rw [if_neg hlast]
      have hd : 0 < d := by
        have : i + 1 ≠ m := by rw [← h.1]; exact hlast
        omega
      exact ih (i + 1) fuel (by omega) hd (fun r hr hrm => hz r (by omega) hrm)

/-- When the last column has no nonzero entry from row `i` on, the search ends
and `rref` returns. -/
theorem pivotSearch_exhausted [Zero T] [DecidableEq T] {M : Matrix T} {m n : Nat}
    {F : Nat → Nat → T} (h : M.Holds m n F) {row lead : Nat} (hlead : lead + 1 = n) :
    ∀ (d i fuel : Nat), i + d = m → 0 < d →
      (∀ r, i ≤ r → r < m → F r lead = 0) →
      M.pivotSearch row (fuel + d) i lead = .ok none := by
  intro d
  induction d with
  | zero => intro i fuel _ hd; omega
  | succ d ih =>
    intro i fuel him _ hz
    have hi : i < m := by omega
    rw [show fuel + (d + 1) = (fuel + d) + 1 from rfl, pivotSearch_succ,
      h.get hi (show lead < n by omega)]
    simp only
    rw [if_pos (hz i (Nat.le_refl i) hi)]
    by_cases hlast : i + 1 = M.m_rows
    · rw [if_pos hlast, if_pos (by rw [h.2.1]; exact hlead)]
    · rw [if_neg hlast]
      have hd : 0 < d := by
        have : i + 1 ≠ m := by rw [← h.1]; exact hlast
        omega
      exact ih (i + 1) fuel (by omega) hd (fun r hr hrm => hz r (by omega) hrm)

/-- The outer loop of `rref` at a lead column without a nonzero entry from the
row cursor on: the loop goes on as from the next column, the row cursor is the
same. -/
theorem rrefLoop_skip [Zero T] [Sub T] [Mul T] [Div T] [DivOverflow T] [DecidableEq T]
    {M : Matrix T}
    {m n : Nat} {F : Nat → Nat → T} (h : M.Holds m n F) {row lead : Nat} (hrow : row < m)
    (hlead : lead + 1 < n) (hz : ∀ r, row ≤ r → r < m → F r lead = 0) (fuel : Nat) :
    rrefLoop fuel M row lead = rrefLoop fuel M row (lead + 1) := by
  have hc1 : row < M.m_rows ∧ lead < M.m_columns := by rw [h.1, h.2.1]; omega
  have hc2 : row < M.m_rows ∧ lead + 1 < M.m_columns := by rw [h.1, h.2.1]; omega
  cases fuel with
  | zero =>
    unfold rrefLoop
    rw [if_pos hc1, if_pos hc2]
  | succ fuel =>
    have hfuel : m - row ≤ m * n := by
      have : m * 1 ≤ m * n := Nat.mul_le_mul_left m (by omega)
      omega
    have e1 : M.pivotSearch row (m * n) row lead =
        M.pivotSearch row (m * n - (m - row)) row (lead + 1) := by
      have : M.pivotSearch row (m * n - (m - row) + (m - row)) row lead =
          M.pivotSearch row (m * n - (m - row)) row (lead + 1) :=
        pivotSearch_skip h hlead (m - row) row (m * n - (m - row)) (by omega) (by omega) hz
      rw [show m * n - (m - row) + (m - row) = m * n by omega] at this
      exact this
    have hbound : (n - 1 - (lead + 1)) * m + (m - row) ≤ m * n - (m - row) := by
      obtain ⟨q, hq⟩ : ∃ q, n = q + 1 := ⟨n - 1, by omega⟩
      have h1 : (n - 1 - (lead + 1)) * m + m ≤ q * m := by
        rw [← Nat.succ_mul]
        exact Nat.mul_le_mul_right m (by omega)
      have h2 : m * n = q * m + m := by rw [hq, Nat.mul_succ, Nat.mul_comm]
      omega
    have e2 : M.pivotSearch row (m * n - (m - row)) row (lead + 1) =
        M.pivotSearch row (m * n) row (lead + 1) :=
      pivotSearch_fuel_irrel h hrow _ _ row (lead + 1) hrow hlead hbound
        (pivotSearch_fuel hrow hlead)
    unfold rrefLoop
    rw [if_pos hc1, if_pos hc2, h.1, h.2.1, e1, e2]

/-- The outer loop of `rref` when the last column has no nonzero entry from the
row cursor on: `rref` returns with the matrix as it is. -/
theorem rrefLoop_exhausted [Zero T] [Sub T] [Mul T] [Div T] [DivOverflow T] [DecidableEq T]
    {M : Matrix T}
    {m n : Nat} {F : Nat → Nat → T} (h : M.Holds m n F) {row lead : Nat} (hrow : row < m)
    (hlead : lead + 1 = n) (hz : ∀ r, row ≤ r → r < m → F r lead = 0) (fuel : Nat) :
    rrefLoop (fuel + 1) M row lead = .ok M := by
  have hc1 : row < M.m_rows ∧ lead < M.m_columns := by rw [h.1, h.2.1]; omega
  have hfuel : m - row ≤ m * n := by
    have : m * 1 ≤ m * n := Nat.mul_le_mul_left m (by omega)
    omega
  have e1 : M.pivotSearch row (m * n) row lead = .ok none := by
    have : M.pivotSearch row (m * n - (m - row) + (m - row)) row lead = .ok none :=
      pivotSearch_exhausted h hlead (m - row) row (m * n - (m - row)) (by omega)
        (by omega) hz
    rw [show m * n - (m - row) + (m - row) = m * n by omega] at this
    exact this
  unfold rrefLoop
  rw [if_pos hc1, h.1, h.2.1, e1]

/-! ### The receiver of a mutating member function -/

/-- The loop on a state changed in place returns what the loop on values
returns, and fails with the failure it fails with. -/
theorem loopFromKeep_agree {σ : Type} (body : Nat → σ → Except Failure σ) :
    ∀ (count k : Nat) (s : σ),
      (∀ s', loopFrom body k count s = .ok s' → loopFromKeep body k count s = (.ok (), s')) ∧
      (∀ e, loopFrom body k count s = .error e → (loopFromKeep body k count s).1 = .error e) := by
  intro count
  induction count with
  | zero =>
    intro k s
    refine ⟨fun s' h => ?_, fun e h => ?_⟩
    · simp only [loopFrom] at h
      cases h; rfl
    · simp only [loopFrom] at h
      cases h
  | succ c ih =>
    intro k s
    cases hb : body k s with
    | error e0 =>
      refine ⟨fun s' h => ?_, fun e h => ?_⟩
      · simp only [loopFrom, hb] at h
        cases h
      · simp only [loopFrom, hb] at h
        simp only [loopFromKeep, hb]
        cases h; rfl
    | ok t =>
      refine ⟨fun s' h => ?_, fun e h => ?_⟩
      · simp only [loopFrom, hb] at h
        simp only [loopFromKeep, hb]
        exact (ih (k + 1) t).1 s' h
      · simp only [loopFrom, hb] at h
        simp only [loopFromKeep, hb]
        exact (ih (k + 1) t).2 e h

/-- A failure of the loop on a state changed in place is a failure of one pass. -/
theorem loopFromKeep_error {σ : Type} (body : Nat → σ → Except Failure σ) (e : Failure) :
    ∀ (count k : Nat) (s : σ), (loopFromKeep body k count s).1 = .error e →
      ∃ j t, body j t = .error e := by
  intro count
  induction count with
  | zero =>
    intro k s h
    simp only [loopFromKeep] at h
    cases h
  | succ c ih =>
    intro k s h
    cases hb : body k s with
    | error e0 =>
      simp only [loopFromKeep, hb] at h
      cases h
      exact ⟨k, s, hb⟩
    | ok t =>
      simp only [loopFromKeep, hb] at h
      exact ih (k + 1) t h

/-- The loop on a state changed in place: outcome and state are those of a
loop that returns. -/
theorem loopFromKeep_ok {σ : Type} (body : Nat → σ → Except Failure σ) :
    ∀ (count k : Nat) (s s' : σ) (u : Unit), loopFromKeep body k count s = (.ok u, s') →
      loopFrom body k count s = .ok s' := by
  intro count
  induction count with
  | zero =>
    intro k s s' u h
    simp only [loopFromKeep] at h
    simp only [loopFrom]
    cases h; rfl
  | succ c ih =>
    intro k s s' u h
    cases hb : body k s with
    | error e0 =>
      simp only [loopFromKeep, hb] at h
      cases h
    | ok t =>
      simp only [loopFromKeep, hb] at h
      simp only [loopFrom, hb]
      exact ih (k + 1) t s' u h

theorem insertRange_error {l xs : List T} {q : Nat} {e : Failure}
    (h : insertRange l q xs = .error e) : e = .undefinedBehaviour := by
  unfold insertRange at h
  split_ifs at h
  cases h; rfl

theorem readValue_error {values : List T} {i : Nat} {e : Failure}
    (h : readValue values i = .error e) : e = .undefinedBehaviour := by
  unfold readValue at h
  cases hv : values[i]? with
  | none => rw [hv] at h; cases h; rfl
  | some v => rw [hv] at h; cases h

/-- `addRow(row)` with its receiver agrees with `addRow(row)`: the failures are
the same, and a call that returns leaves the matrix `addRow` gives. -/
theorem addRowInPlace_agree [Zero T] (M : Matrix T) (row : Nat) :
    (∀ M', M.addRow row = .ok M' ↔ M.addRowInPlace row = (.ok (), M')) ∧
    (∀ e, M.addRow row = .error e ↔ (M.addRowInPlace row).1 = .error e) := by
  unfold addRow addRowInPlace
  by_cases hg : row > M.m_rows
  · simp [hg]
  · rw [if_neg hg, if_neg hg]
    cases hi : insertRange M.m_elements (row * M.m_columns + M.m_columns)
        (List.replicate M.m_columns 0) with
    | error e0 =>
      refine ⟨fun M' => ⟨fun h => (by cases h), fun h => (by cases h)⟩, fun e => ?_⟩
      exact ⟨fun h => (by cases h; rfl), fun h => (by cases h; rfl)⟩
    | ok l =>
      refine ⟨fun M' => ?_, fun e => ⟨fun h => (by cases h), fun h => (by cases h)⟩⟩
      exact ⟨fun h => (by cases h; rfl), fun h => (by cases h; rfl)⟩

/-- `addRow(row, values)` with its receiver agrees with `addRow(row, values)`. -/
theorem addRowValuesInPlace_agree (M : Matrix T) (row : Nat) (values : List T) :
    (∀ M', M.addRowValues row values = .ok M' ↔ M.addRowValuesInPlace row values = (.ok (), M')) ∧
    (∀ e, M.addRowValues row values = .error e ↔
      (M.addRowValuesInPlace row values).1 = .error e) := by
  unfold addRowValues addRowValuesInPlace
  by_cases hg : row > M.m_rows
  · simp [hg]
  · rw [if_neg hg, if_neg hg]
    by_cases hv : values.length > M.m_columns
    · simp [hv]
    · rw [if_neg hv, if_neg hv]
      cases hi : insertRange M.m_elements (row * M.m_columns + M.m_columns) values with
      | error e0 =>
        refine ⟨fun M' => ⟨fun h => (by cases h), fun h => (by cases h)⟩, fun e => ?_⟩
        exact ⟨fun h => (by cases h; rfl), fun h => (by cases h; rfl)⟩
      | ok l =>
        refine ⟨fun M' => ?_, fun e => ⟨fun h => (by cases h), fun h => (by cases h)⟩⟩
        exact ⟨fun h => (by cases h; rfl), fun h => (by cases h; rfl)⟩

/-- `addColumn(column)` with its receiver agrees with `addColumn(column)`. -/
theorem addColumnInPlace_agree [Zero T] (M : Matrix T) (column : Nat) :
    (∀ M', M.addColumn column = .ok M' ↔ M.addColumnInPlace column = (.ok (), M')) ∧
    (∀ e, M.addColumn column = .error e ↔ (M.addColumnInPlace column).1 = .error e) := by
  unfold addColumn addColumnInPlace forRange forRangeKeep
  by_cases hg : column > M.m_columns
  · simp [hg]
  · rw [if_neg hg, if_neg hg]
    cases hl : loopFrom (fun i elements =>
        insertRange elements (i * (M.m_columns + 1) + column + 1) [0]) 0 M.m_rows
        M.m_elements with
    | error e0 =>
      have hk := (loopFromKeep_agree _ M.m_rows 0 M.m_elements).2 e0 hl
      cases hp : loopFromKeep (fun i elements =>
          insertRange elements (i * (M.m_columns + 1) + column + 1) [0]) 0 M.m_rows
          M.m_elements with
      | mk r st =>
        rw [hp] at hk
        simp only at hk
        subst hk
        refine ⟨fun M' => ⟨fun h => (by cases h), fun h => (by cases h)⟩, fun e => ?_⟩
        exact ⟨fun h => (by cases h; rfl), fun h => (by cases h; rfl)⟩
    | ok l =>
      have hk := (loopFromKeep_agree _ M.m_rows 0 M.m_elements).1 l hl
      rw [hk]
      refine ⟨fun M' => ?_, fun e => ⟨fun h => (by cases h), fun h => (by cases h)⟩⟩
      exact ⟨fun h => (by cases h; rfl), fun h => (by cases h; rfl)⟩

/-- `addColumn(column, values)` with its receiver agrees with
`addColumn(column, values)`. -/
theorem addColumnValuesInPlace_agree (M : Matrix T) (column : Nat) (values : List T) :
    (∀ M', M.addColumnValues column values = .ok M' ↔
      M.addColumnValuesInPlace column values = (.ok (), M')) ∧
    (∀ e, M.addColumnValues column values = .error e ↔
      (M.addColumnValuesInPlace column values).1 = .error e) := by
  unfold addColumnValues addColumnValuesInPlace forRange forRangeKeep
  by_cases hg : column > M.m_columns
  · simp [hg]
  · rw [if_neg hg, if_neg hg]
    by_cases hv : values.length > M.m_rows
    · simp [hv]
    · rw [if_neg hv, if_neg hv]
      cases hl : loopFrom (fun i elements => do
          let v ← readValue values i
          insertRange elements (i * (M.m_columns + 1) + column + 1) [v]) 0 M.m_rows
          M.m_elements with
      | error e0 =>
        have hk := (loopFromKeep_agree _ M.m_rows 0 M.m_elements).2 e0 hl
        cases hp : loopFromKeep (fun i elements => do
            let v ← readValue values i
            insertRange elements (i * (M.m_columns + 1) + column + 1) [v]) 0 M.m_rows
            M.m_elements with
        | mk r st =>
          rw [hp] at hk
          simp only at hk
          subst hk
          refine ⟨fun M' => ⟨fun h => (by cases h), fun h => (by cases h)⟩, fun e => ?_⟩
          exact ⟨fun h => (by cases h; rfl), fun h => (by cases h; rfl)⟩
      | ok l =>
        have hk := (loopFromKeep_agree _ M.m_rows 0 M.m_elements).1 l hl
        rw [hk]
        refine ⟨fun M' => ?_, fun e => ⟨fun h => (by cases h), fun h => (by cases h)⟩⟩
        exact ⟨fun h => (by cases h; rfl), fun h => (by cases h; rfl)⟩

/-- A thrown `addRow(row)` leaves the receiver as it was. -/
theorem addRowInPlace_thrown [Zero T] (M : Matrix T) (row : Nat) (e : Failure)
    (h : (M.addRowInPlace row).1 = .error e) : (M.addRowInPlace row).2 = M := by
  unfold addRowInPlace at h ⊢
  by_cases hg : row > M.m_rows
  · rw [if_pos hg]
  · rw [if_neg hg] at h ⊢
    cases hi : insertRange M.m_elements (row * M.m_columns + M.m_columns)
        (List.replicate M.m_columns 0) with
    | error e0 => rfl
    | ok l => rw [hi] at h; cases h

/-- A thrown `addRow(row, values)` leaves the receiver as it was. -/
theorem addRowValuesInPlace_thrown (M : Matrix T) (row : Nat) (values : List T) (e : Failure)
    (h : (M.addRowValuesInPlace row values).1 = .error e) :
    (M.addRowValuesInPlace row values).2 = M := by
  unfold addRowValuesInPlace at h ⊢
  by_cases hg : row > M.m_rows
  · rw [if_pos hg]
  · rw [if_neg hg] at h ⊢
    by_cases hv : values.length > M.m_columns
    · rw [if_pos hv]
    · rw [if_neg hv] at h ⊢
      cases hi : insertRange M.m_elements (row * M.m_columns + M.m_columns) values with
      | error e0 => rfl
      | ok l => rw [hi] at h; cases h

/-- A thrown `addColumn(column)` comes from the range check and leaves the
receiver as it was. -/
theorem addColumnInPlace_thrown [Zero T] (M : Matrix T) (column : Nat) (e : Failure)
    (he : e ≠ .undefinedBehaviour) (h : (M.addColumnInPlace column).1 = .error e) :
    column > M.m_columns ∧ M.addColumnInPlace column = (.error .outsideRange, M) := by
  unfold addColumnInPlace at h ⊢
  by_cases hg : column > M.m_columns
  · rw [if_pos hg]; exact ⟨hg, rfl⟩
  · rw [if_neg hg] at h
    exfalso
    cases hp : forRangeKeep M.m_rows (fun i elements =>
        insertRange elements (i * (M.m_columns + 1) + column + 1) [0]) M.m_elements with
    | mk r st =>
      rw [hp] at h
      cases r with
      | ok u => cases h
      | error e0 =>
        simp only at h
        cases h
        have h1 : (forRangeKeep M.m_rows (fun i elements =>
            insertRange elements (i * (M.m_columns + 1) + column + 1) [0]) M.m_elements).1 =
            .error e := by rw [hp]
        obtain ⟨j, t, hb⟩ := loopFromKeep_error _ e M.m_rows 0 M.m_elements h1
        exact he (insertRange_error hb)

/-- A thrown `addColumn(column, values)` comes from one of the two checks and
leaves the receiver as it was. -/
theorem addColumnValuesInPlace_thrown (M : Matrix T) (column : Nat) (values : List T)
    (e : Failure) (he : e ≠ .undefinedBehaviour)
    (h : (M.addColumnValuesInPlace column values).1 = .error e) :
    (column > M.m_columns ∨ values.length > M.m_rows) ∧
      (M.addColumnValuesInPlace column values).2 = M := by
  unfold addColumnValuesInPlace at h ⊢
  by_cases hg : column > M.m_columns
  · rw [if_pos hg]; exact ⟨Or.inl hg, rfl⟩
  · rw [if_neg hg] at h ⊢
    by_cases hv : values.length > M.m_rows
    · rw [if_pos hv]; exact ⟨Or.inr hv, rfl⟩
    · rw [if_neg hv] at h
      exfalso
      cases hp : forRangeKeep M.m_rows (fun i elements => do
          let v ← readValue values i
          insertRange elements (i * (M.m_columns + 1) + column + 1) [v]) M.m_elements with
      | mk r st =>
        rw [hp] at h
        cases r with
        | ok u => cases h
        | error e0 =>
          simp only at h
          cases h
          have h1 : (forRangeKeep M.m_rows (fun i elements => do
              let v ← readValue values i
              insertRange elements (i * (M.m_columns + 1) + column + 1) [v]) M.m_elements).1 =
              .error e := by rw [hp]
          obtain ⟨j, t, hb⟩ := loopFromKeep_error _ e M.m_rows 0 M.m_elements h1
          cases hr : readValue values j with
          | error e1 =>
            rw [hr] at hb
            cases hb
            exact he (readValue_error hr)
          | ok v =>
            rw [hr] at hb
            exact he (insertRange_error hb)

/-! ### Runs of `rref` on `int` that compute in the integers -/


theorem wrap32_of_inRange {z : Int} (h : -2147483648 ≤ z ∧ z < 2147483648) : wrap32 z = z := by
  unfold wrap32; omega

theorem wrap32_add_wrap32 (a b : Int) : wrap32 (wrap32 a + wrap32 b) = wrap32 (a + b) := by
  unfold wrap32; omega

theorem CInt.ext_val {a b : CInt} (h : a.val = b.val) : a = b := by
  cases a; cases b; cases h; rfl

theorem CInt.val_zero : (0 : CInt).val = 0 := rfl

theorem CInt.val_one : (1 : CInt).val = 1 := rfl

theorem CInt.val_add (a b : CInt) : (a + b).val = wrap32 (a.val + b.val) := rfl

theorem CInt.val_sub (a b : CInt) : (a - b).val = wrap32 (a.val - b.val) := rfl

theorem CInt.val_mul (a b : CInt) : (a * b).val = wrap32 (a.val * b.val) := rfl

theorem CInt.val_div (a b : CInt) : (a / b).val = wrap32 (Int.tdiv a.val b.val) := rfl

theorem CInt.val_ofInt (z : Int) : (CInt.ofInt z).val = wrap32 z := rfl

theorem CInt.overflows_iff (x f : CInt) :
    DivOverflow.overflows x f = true ↔ x.val = -2147483648 ∧ f.val = -1 := by
  show decide (x.val = -2147483648 ∧ f.val = -1) = true ↔ _
  simp

theorem ratOfInt_zero : ratOfInt 0 = 0 := by
  unfold ratOfInt; rw [CInt.val_zero]; simp

theorem ratOfInt_one : ratOfInt 1 = 1 := by
  unfold ratOfInt; rw [CInt.val_one]; simp

theorem ratOfInt_inj {a b : CInt} (h : ratOfInt a = ratOfInt b) : a = b := by
  unfold ratOfInt at h
  exact CInt.ext_val (Int.cast_injective h)

theorem ratOfInt_eq_zero {a : CInt} : ratOfInt a = 0 ↔ a = 0 := by
  constructor
  · intro h
    rw [← ratOfInt_zero] at h
    exact ratOfInt_inj h
  · intro h; rw [h, ratOfInt_zero]

/-- An exact quotient of two `int`s other than `INT_MIN / -1` is the quotient
of the rational numbers. -/
theorem ratOfInt_div {x f : CInt} (hf : f ≠ 0) (hdvd : x.val % f.val = 0)
    (hov : DivOverflow.overflows x f = false) : ratOfInt (x / f) = ratOfInt x / ratOfInt f := by
  have hf0 : f.val ≠ 0 := by
    intro h
    apply hf
    apply CInt.ext_val
    rw [h, CInt.val_zero]
  obtain ⟨q, hq⟩ : f.val ∣ x.val := Int.dvd_of_emod_eq_zero hdvd
  have htq : Int.tdiv x.val f.val = q := by
    rw [hq]; exact Int.mul_tdiv_cancel_left q hf0
  have hnov : ¬ (x.val = -2147483648 ∧ f.val = -1) := by
    intro h
    have := (CInt.overflows_iff x f).mpr h
    rw [hov] at this; cases this
  have hxr := x.inRange
  have habs : q.natAbs ≤ x.val.natAbs := by
    rw [hq, Int.natAbs_mul]
    have : 1 ≤ f.val.natAbs := Int.natAbs_pos.mpr hf0
    exact Nat.le_mul_of_pos_left _ this
  have hqr : -2147483648 ≤ q ∧ q < 2147483648 := by
    constructor
    · omega
    · by_contra hge
      have hq2 : q = 2147483648 := by omega
      have hx2 : x.val = -2147483648 := by omega
      apply hnov
      refine ⟨hx2, ?_⟩
      rw [hq2, hx2] at hq
      omega
  unfold ratOfInt
  rw [CInt.val_div, htq, wrap32_of_inRange hqr, hq]
  have hfq : (f.val : ℚ) ≠ 0 := Int.cast_ne_zero.mpr hf0
  push_cast
  field_simp

/-- A difference `x - g * q` of `int`s whose product and difference are values
of `int` is the difference of the rational numbers. -/
theorem ratOfInt_sub_mul {x g q : CInt} (h1 : inInt (g.val * q.val) = true)
    (h2 : inInt (x.val - g.val * q.val) = true) :
    ratOfInt (x - g * q) = ratOfInt x - ratOfInt g * ratOfInt q := by
  unfold inInt at h1 h2
  have h1' := of_decide_eq_true h1
  have h2' := of_decide_eq_true h2
  unfold ratOfInt
  rw [CInt.val_sub, CInt.val_mul, wrap32_of_inRange h1', wrap32_of_inRange h2']
  push_cast
  rfl

/-- The sum accumulated by `operator*` on `int` is the wrapped sum of the
integer products. -/
theorem accum_int (f g : Nat → CInt) (n : Nat) :
    accum (fun k => f k * g k) n =
      CInt.ofInt (∑ k ∈ Finset.range n, (f k).val * (g k).val) := by
  apply CInt.ext_val
  induction n with
  | zero => simp [accum, CInt.val_zero, CInt.val_ofInt, wrap32]
  | succ n ih =>
    rw [accum, CInt.val_add, ih, CInt.val_mul, CInt.val_ofInt, CInt.val_ofInt,
      Finset.sum_range_succ]
    unfold wrap32; omega

theorem toRat_entry (M : Matrix CInt) (i j : Nat) :
    M.toRat.entry i j = ratOfInt (M.entry i j) := by
  unfold entry toRat
  simp only [List.getD_eq_getElem?_getD, List.getElem?_map]
  cases M.m_elements[i * M.m_columns + j]? with
  | none => simp [ratOfInt_zero]
  | some x => simp

theorem Holds.toRat {M : Matrix CInt} {m n : Nat} {F : Nat → Nat → CInt}
    (h : M.Holds m n F) : M.toRat.Holds m n (fun a b => ratOfInt (F a b)) := by
  refine ⟨h.1, h.2.1, ?_, ?_⟩
  · show (M.m_elements.map ratOfInt).length = m * n
    rw [List.length_map]; exact h.2.2.1
  · intro i j hi hj
    rw [toRat_entry, h.2.2.2 i j hi hj]

theorem toRat_get (M : Matrix CInt) (i j : Nat) :
    M.toRat.get i j = (match M.get i j with
      | .ok x => .ok (ratOfInt x)
      | .error e => .error e) := by
  unfold Matrix.get
  rw [show M.toRat.m_rows = M.m_rows from rfl, show M.toRat.m_columns = M.m_columns from rfl,
    show M.toRat.m_elements = M.m_elements.map ratOfInt from rfl]
  by_cases hb : i ≥ M.m_rows ∨ j ≥ M.m_columns
  · rw [if_pos hb, if_pos hb]
  · rw [if_neg hb, if_neg hb, List.getElem?_map]
    cases M.m_elements[i * M.m_columns + j]? with
    | none => rfl
    | some x => rfl

/-- The pivot search takes the same course on an `int` matrix and on the matrix
of its rational values. -/
theorem toRat_pivotSearch (M : Matrix CInt) (row : Nat) :
    ∀ fuel i lead, M.toRat.pivotSearch row fuel i lead = M.pivotSearch row fuel i lead := by
  intro fuel
  induction fuel with
  | zero => intro i lead; rfl
  | succ fuel ih =>
    intro i lead
    rw [pivotSearch_succ, pivotSearch_succ, toRat_get]
    cases hg : M.get i lead with
    | error e => rfl
    | ok x =>
      simp only
      show (if ratOfInt x = 0 then
          if i + 1 = M.m_rows then
            if lead + 1 = M.m_columns then Except.ok none
            else M.toRat.pivotSearch row fuel row (lead + 1)
          else M.toRat.pivotSearch row fuel (i + 1) lead
        else Except.ok (some (i, lead))) = _
      by_cases hx : x = 0
      · rw [if_pos (ratOfInt_eq_zero.mpr hx), if_pos hx, ih, ih]
      · rw [if_neg (fun h => hx (ratOfInt_eq_zero.mp h)), if_neg hx]

/-- What the check of one pass says. -/
theorem exactPass_spec {M : Matrix CInt} {row i lead : Nat}
    (h : exactPass M row i lead = true) (b : Nat) (hb : b < M.m_columns) :
    (M.entry i b).val % (M.entry i lead).val = 0 ∧
    DivOverflow.overflows (M.entry i b) (M.entry i lead) = false ∧
    ∀ a, a < M.m_rows → a ≠ row →
      inInt ((swapFn M.entry i row a lead).val * (M.entry i b / M.entry i lead).val) = true ∧
      inInt ((swapFn M.entry i row a b).val -
        (swapFn M.entry i row a lead).val * (M.entry i b / M.entry i lead).val) = true := by
  unfold exactPass at h
  rw [List.all_eq_true] at h
  have hb' := h b (List.mem_range.mpr hb)
  rw [Bool.and_eq_true, Bool.and_eq_true, List.all_eq_true] at hb'
  obtain ⟨⟨h1, h2⟩, h3⟩ := hb'
  refine ⟨of_decide_eq_true h1, by simpa using h2, ?_⟩
  intro a ha har
  have ha' := h3 a (List.mem_range.mpr ha)
  rw [Bool.or_eq_true, Bool.and_eq_true] at ha'
  rcases ha' with h4 | h4
  · exact absurd (beq_iff_eq.mp h4) har
  · exact h4

theorem swapFn_ratOfInt (F : Nat → Nat → CInt) (i j a b : Nat) :
    swapFn (fun a b => ratOfInt (F a b)) i j a b = ratOfInt (swapFn F i j a b) := by
  unfold swapFn
  split_ifs <;> rfl

/-- A pass of `rref` that computes in the integers returns on the `int` matrix,
and on the matrix of the rational values it returns the rational values of
that result. -/
theorem reduceAt_toRat {M : Matrix CInt} (hV : M.Valid) {row i lead : Nat}
    (hrow : row < M.m_rows) (hi : i < M.m_rows) (hlead : lead < M.m_columns)
    (hp : M.entry i lead ≠ 0) (hex : exactPass M row i lead = true) :
    ∃ M' : Matrix CInt, M.reduceAt row i lead = .ok M' ∧
      M.toRat.reduceAt row i lead = .ok M'.toRat ∧ M'.Valid ∧ M'.m_rows = M.m_rows ∧
      M'.m_columns = M.m_columns := by
  have h := holds_entry hV
  obtain ⟨M', hM', hH'⟩ := reduceAt_spec h hrow hi hlead
    (fun b hb => (exactPass_spec hex b hb).2.1)
  obtain ⟨N, hN, hHN⟩ := reduceAt_spec h.toRat hrow hi hlead (fun _ _ => rfl)
  have hpQ : ratOfInt (M.entry i lead) ≠ 0 := fun h0 => hp (ratOfInt_eq_zero.mp h0)
  have hNM : N = M'.toRat := by
    refine Holds.unique hHN (hH'.toRat.congr ?_)
    intro a b ha hb
    obtain ⟨hdvd, hov, hrest⟩ := exactPass_spec hex b hb
    rw [reduceFn_eq M.entry row i lead hp,
      reduceFn_eq (fun a b => ratOfInt (M.entry a b)) row i lead hpQ]
    by_cases har : a = row
    · rw [if_pos har, if_pos har]
      exact ratOfInt_div hp hdvd hov
    · rw [if_neg har, if_neg har]
      obtain ⟨h1, h2⟩ := hrest a ha har
      rw [ratOfInt_sub_mul h1 h2, ratOfInt_div hp hdvd hov, swapFn_ratOfInt, swapFn_ratOfInt]
  rw [hNM] at hN
  exact ⟨M', hM', hN, hH'.valid, hH'.1, hH'.2.1⟩

/-- A run of the outer loop of `rref` that computes in the integers returns on
the `int` matrix, and on the matrix of the rational values it returns the
rational values of that result. -/
theorem rrefLoop_toRat :
    ∀ (fuel : Nat) (M : Matrix CInt) (row lead : Nat), M.Valid →
      exactRun fuel M row lead = true → M.m_rows - row ≤ fuel →
      ∃ M' : Matrix CInt, rrefLoop fuel M row lead = .ok M' ∧
        rrefLoop fuel M.toRat row lead = .ok M'.toRat ∧ M'.Valid ∧ M'.m_rows = M.m_rows ∧
        M'.m_columns = M.m_columns := by
  intro fuel
  induction fuel with
  | zero =>
    intro M row lead hV _ hfuel
    have hcond : ¬ (row < M.m_rows ∧ lead < M.m_columns) := by omega
    refine ⟨M, ?_, ?_, hV, rfl, rfl⟩
    · unfold rrefLoop; rw [if_neg hcond]
    · unfold rrefLoop
      rw [show M.toRat.m_rows = M.m_rows from rfl,
        show M.toRat.m_columns = M.m_columns from rfl, if_neg hcond]
  | succ fuel ih =>
    intro M row lead hV hex hfuel
    have h := holds_entry hV
    unfold rrefLoop
    unfold exactRun at hex
    rw [show M.toRat.m_rows = M.m_rows from rfl, show M.toRat.m_columns = M.m_columns from rfl,
      toRat_pivotSearch]
    by_cases hcond : row < M.m_rows ∧ lead < M.m_columns
    · rw [if_pos hcond, if_pos hcond]
      rw [if_pos hcond] at hex
      have hf : (M.m_columns - 1 - lead) * M.m_rows + (M.m_rows - row) ≤
          M.m_rows * M.m_columns := pivotSearch_fuel hcond.1 hcond.2
      rcases pivotSearch_spec h (M.m_rows * M.m_columns) row lead (Nat.le_refl row) hcond.1
        (Nat.le_refl lead) hcond.2 hf (fun c hc hlt => by omega) (fun r hr hlt => by omega)
        with ⟨hnone', _⟩ | ⟨i', lead', hsome, h1, h2, h3, h4, h5, h6⟩
      · rw [hnone']
        exact ⟨M, rfl, rfl, hV, rfl, rfl⟩
      · rw [hsome]
        rw [hsome] at hex
        simp only [Bool.and_eq_true] at hex
        obtain ⟨hpass, hrest⟩ := hex
        obtain ⟨M1, hM1, hQ1, hV1, hr1, hc1⟩ := reduceAt_toRat hV hcond.1 h2 h4 h5 hpass
        rw [hM1] at hrest
        simp only [hM1, hQ1]
        obtain ⟨M2, hM2, hQ2, hV2, hr2, hc2⟩ :=
          ih M1 (row + 1) (lead' + 1) hV1 hrest (by omega)
        exact ⟨M2, hM2, hQ2, hV2, by omega, by omega⟩
    · rw [if_neg hcond, if_neg hcond]
      exact ⟨M, rfl, rfl, hV, rfl, rfl⟩

/-- Over a field, when `rref` returns `tmp'` on the augmented matrix `[A | I]`
of a nonsingular `A`, the rows of `A` times the columns of the right half of
`tmp'` are the rows of the identity. -/
theorem inverse_dot_identity {A tmp tmp' : Matrix K} {n : Nat}
    (htmp : tmp.Holds n (2 * n) (augFn A.entry n)) (hrref : tmp.rref = .ok tmp')
    (hdet : (A.toFin n n).det ≠ 0) :
    ∀ i j, i < n → j < n →
      dot n (A.entry i) (fun k => tmp'.entry k (n + j)) = if i = j then 1 else 0 := by
  obtain ⟨M', hM', hr, hc, _, ⟨r, c, hrn, hpiv, hmono, hzero⟩, hS⟩ :=
    rref_correct tmp htmp.valid
  rw [hrref] at hM'
  cases hM'
  rw [htmp.1, htmp.2.1] at hS
  rw [htmp.1] at hr
  rw [htmp.2.1] at hc
  rw [hr] at hrn hpiv hzero
  rw [hc] at hpiv hzero
  have hS' : SameKernel n (2 * n) (augFn A.entry n) tmp'.entry := by
    intro v
    rw [← hS v]
    constructor
    · intro hz a ha
      rw [dot_congr (fun c hc => htmp.2.2.2 a c ha hc)]; exact hz a ha
    · intro hz a ha
      rw [← dot_congr (fun c hc => htmp.2.2.2 a c ha hc)]; exact hz a ha
  exact (aug_rref_inverse hS' r c hrn hpiv hmono hzero hdet).2

/-- The matrix `augmented A` has the entries of `[A | I]`. -/
theorem augmented_holds [Zero T] [One T] (A : Matrix T) :
    (augmented A).Holds A.m_rows (2 * A.m_rows) (augFn A.entry A.m_rows) := by
  refine ⟨rfl, rfl, by simp [augmented], ?_⟩
  intro i j hi hj
  have hlt := flat_lt hi hj
  have hpos : 0 < 2 * A.m_rows := by omega
  have hdiv : (i * (2 * A.m_rows) + j) / (2 * A.m_rows) = i := by
    rw [Nat.mul_comm i, Nat.mul_add_div hpos, Nat.div_eq_of_lt hj]; rfl
  have hmod : (i * (2 * A.m_rows) + j) % (2 * A.m_rows) = j := by
    rw [Nat.mul_comm i, Nat.mul_add_mod, Nat.mod_eq_of_lt hj]
  unfold entry
  show (List.map _ (List.range _)).getD (i * (2 * A.m_rows) + j) 0 = _
  rw [List.getD_eq_getElem?_getD, List.getElem?_map, List.getElem?_range hlt]
  show augFn _ _ _ _ = _
  rw [hdiv, hmod]
  rfl

theorem augFn_ratOfInt (F : Nat → Nat → CInt) (n a b : Nat) :
    ratOfInt (augFn F n a b) = augFn (fun a b => ratOfInt (F a b)) n a b := by
  unfold augFn
  split_ifs
  · rfl
  · exact ratOfInt_one
  · exact ratOfInt_zero

/-- The run of `inverse` on an `int` matrix that computes in the integers, on
a nonsingular matrix: `inverse` returns, and the integer sums of the products
of a row of `A` with a column of the result are the entries of the identity. -/
theorem inverse_exact {A : Matrix CInt} {n : Nat} (hA : A.Holds n n A.entry)
    (hdet : (A.toRat.toFin n n).det ≠ 0) (hexact : exactInverse A = true) :
    ∃ B : Matrix CInt, A.inverse = .ok B ∧ B.Holds n n B.entry ∧
      ∀ i j, i < n → j < n →
        (∑ k ∈ Finset.range n, (A.entry i k).val * (B.entry k j).val) =
          if i = j then 1 else 0 := by
  obtain ⟨tmp, hH, hcopy, _⟩ := inverse_build hA
  have haug : augmented A = tmp := by
    have := augmented_holds A
    rw [hA.1] at this
    exact this.unique hH
  unfold exactInverse at hexact
  rw [haug, hA.1] at hexact
  obtain ⟨tmp', hrref, hrrefQ, hV', hr, hc⟩ :=
    rrefLoop_toRat n tmp 0 0 hH.valid hexact (by rw [hH.1]; omega)
  rw [hH.1] at hr
  rw [hH.2.1] at hc
  have hrref' : tmp.rref = .ok tmp' := by
    unfold rref; rw [hH.1]; exact hrref
  have hrrefQ' : tmp.toRat.rref = .ok tmp'.toRat := by
    unfold rref
    rw [show tmp.toRat.m_rows = tmp.m_rows from rfl, hH.1]; exact hrrefQ
  obtain ⟨B, hinv, hB⟩ := hcopy tmp' hrref' hr hc hV'
  have hHQ : tmp.toRat.Holds n (2 * n) (augFn A.toRat.entry n) := by
    refine hH.toRat.congr ?_
    intro a b _ _
    rw [augFn_ratOfInt]
    unfold augFn
    simp only [toRat_entry]
  have hdot := inverse_dot_identity hHQ hrrefQ' hdet
  have hBe : B.Holds n n B.entry := by
    have := holds_entry hB.valid
    rw [hB.1, hB.2.1] at this; exact this
  refine ⟨B, hinv, hBe, ?_⟩
  intro i j hi hj
  have h1 := hdot i j hi hj
  unfold dot at h1
  have h2 : (((∑ k ∈ Finset.range n, (A.entry i k).val * (B.entry k j).val : Int)) : ℚ) =
      ((if i = j then 1 else 0 : Int) : ℚ) := by
    rw [Int.cast_sum]
    have h3 : ((if i = j then 1 else 0 : Int) : ℚ) = if i = j then 1 else 0 := by
      split_ifs <;> simp
    rw [h3, ← h1]
    refine Finset.sum_congr rfl (fun k hk => ?_)
    have hk' : k < n := Finset.mem_range.mp hk
    beta_reduce
    rw [toRat_entry, toRat_entry, hB.2.2.2 k j hk' hj, Nat.add_comm n j, Int.cast_mul]
    rfl
  exact Int.cast_injective h2

/-! ## The claims -/

/-- C1. Over a field, for every nonsingular `n × n` matrix `A` with the storage
invariant, `inverse` succeeds and returns an `n × n` matrix `B`, whose entries
are the right half of `rref` applied to the augmented matrix `[A | I]`, and
`A * B` is the `n × n` identity matrix. -/
theorem inverse_mul_eq_identity (A : Matrix K) (n : Nat) (hrows : A.m_rows = n)
    (hcols : A.m_columns = n) (hV : A.Valid) (hdet : (A.toFin n n).det ≠ 0) :
    ∃ B : Matrix K, A.inverse = .ok B ∧ B.m_rows = n ∧ B.m_columns = n ∧ B.Valid ∧
      (∃ tmp tmp' : Matrix K, tmp.Holds n (2 * n) (augFn A.entry n) ∧ tmp.rref = .ok tmp' ∧
        ∀ i j, i < n → j < n → B.get i j = tmp'.get i (j + n)) ∧
      ∃ P : Matrix K, A.mul B = .ok P ∧ P.m_rows = n ∧ P.m_columns = n ∧ P.Valid ∧
        ∀ i j, i < n → j < n → P.get i j = .ok (if i = j then 1 else 0) := by
  have hA : A.Holds n n A.entry := by
    have := holds_entry hV
    rw [hrows, hcols] at this; exact this
  obtain ⟨tmp, tmp', B, htmp, hrref, hr, hc, hV', hinv, hB⟩ := inverse_spec (fun _ _ _ => rfl) hA
  have htmp'H : tmp'.Holds n (2 * n) tmp'.entry := by
    have := holds_entry hV'
    rw [hr, hc] at this; exact this
  -- the reduction is correct over a field
  obtain ⟨M', hM', _, _, _, ⟨r, c, hrn, hpiv, hmono, hzero⟩, hS⟩ := rref_correct tmp htmp.valid
  rw [hrref] at hM'
  cases hM'
  rw [htmp.1, htmp.2.1] at hS
  rw [hr] at hrn hpiv hzero
  rw [hc] at hpiv hzero
  have hS' : SameKernel n (2 * n) (augFn A.entry n) tmp'.entry := by
    intro v
    rw [← hS v]
    constructor
    · intro hz a ha
      rw [dot_congr (fun c hc => htmp.2.2.2 a c ha hc)]; exact hz a ha
    · intro hz a ha
      rw [← dot_congr (fun c hc => htmp.2.2.2 a c ha hc)]; exact hz a ha
  obtain ⟨_, hprod⟩ := aug_rref_inverse hS' r c hrn hpiv hmono hzero hdet
  obtain ⟨P, hP, hPH⟩ := mul_spec hA hB rfl
  refine ⟨B, hinv, hB.1, hB.2.1, hB.valid, ⟨tmp, tmp', htmp, hrref, ?_⟩,
    P, hP, hPH.1, hPH.2.1, hPH.valid, ?_⟩
  · intro i j hi hj
    rw [hB.get hi hj, htmp'H.get hi (show j + n < 2 * n by omega)]
  · intro i j hi hj
    rw [hPH.get hi hj, accum_eq_dot,
      dot_congr_right (w := fun k => tmp'.entry k (n + j)) (fun k _ => by rw [Nat.add_comm])]
    rw [hprod i j hi hj]

theorem inverse_mul_eq_identity_witness :
    (⟨2, 2, [2, 1, 1, 1]⟩ : Matrix ℚ).Valid ∧
    ((⟨2, 2, [2, 1, 1, 1]⟩ : Matrix ℚ).toFin 2 2).det ≠ 0 ∧
    ∃ B : Matrix ℚ, (⟨2, 2, [2, 1, 1, 1]⟩ : Matrix ℚ).inverse = .ok B ∧
      B.m_rows = 2 ∧ B.m_columns = 2 ∧ B.Valid ∧
      (∃ tmp tmp' : Matrix ℚ,
        tmp.Holds 2 (2 * 2) (augFn (⟨2, 2, [2, 1, 1, 1]⟩ : Matrix ℚ).entry 2) ∧
        tmp.rref = .ok tmp' ∧
        ∀ i j, i < 2 → j < 2 → B.get i j = tmp'.get i (j + 2)) ∧
      ∃ P : Matrix ℚ, (⟨2, 2, [2, 1, 1, 1]⟩ : Matrix ℚ).mul B = .ok P ∧
        P.m_rows = 2 ∧ P.m_columns = 2 ∧ P.Valid ∧
        ∀ i j, i < 2 → j < 2 → P.get i j = .ok (if i = j then 1 else 0) :=
  have hdet : ((⟨2, 2, [2, 1, 1, 1]⟩ : Matrix ℚ).toFin 2 2).det ≠ 0 := by
    rw [Matrix.det_fin_two]
    simp [toFin, entry]
    norm_num
  ⟨by decide, hdet, inverse_mul_eq_identity ⟨2, 2, [2, 1, 1, 1]⟩ 2 rfl rfl (by decide) hdet⟩

/-- C2, counterexample. The integer matrix `[[2,1],[1,1]]` has the integer
inverse `[[1,-1],[-1,2]]`, but `inverse` returns `[[0,0],[0,1]]` for it, and the
product with that is `[[0,1],[0,1]]`, not the identity. -/
theorem inverse_int_counterexample :
    (⟨2, 2, [2, 1, 1, 1]⟩ : Matrix CInt).mul ⟨2, 2, [1, -1, -1, 2]⟩ = .ok ⟨2, 2, [1, 0, 0, 1]⟩ ∧
    (⟨2, 2, [1, -1, -1, 2]⟩ : Matrix CInt).mul ⟨2, 2, [2, 1, 1, 1]⟩ = .ok ⟨2, 2, [1, 0, 0, 1]⟩ ∧
    (⟨2, 2, [2, 1, 1, 1]⟩ : Matrix CInt).inverse = .ok ⟨2, 2, [0, 0, 0, 1]⟩ ∧
    (⟨2, 2, [2, 1, 1, 1]⟩ : Matrix CInt).mul ⟨2, 2, [0, 0, 0, 1]⟩ = .ok ⟨2, 2, [0, 1, 0, 1]⟩ ∧
    (⟨2, 2, [0, 1, 0, 1]⟩ : Matrix CInt) ≠ ⟨2, 2, [1, 0, 0, 1]⟩ :=
  ⟨rfl, rfl, rfl, rfl, by decide⟩

/-- C2, amended. For the integer instantiation, for every square nonsingular
matrix `A` with the storage invariant on which the reduction of `[A | I]`
computes in the integers (in every pass the pivot divides every entry of its
row, and no quotient, product or difference leaves the range of `int`),
`inverse` succeeds and returns an `n × n` matrix `B`, and `A * B` is the
`n × n` identity matrix.  On the tested matrix `[[1,0,5],[2,1,6],[3,4,0]]` it
returns `[[-24,20,-5],[18,-15,4],[5,-4,1]]`, and the product of the two is the
`3 × 3` identity. -/
theorem inverse_int_exact :
    (∀ (A : Matrix CInt) (n : Nat), A.m_rows = n → A.m_columns = n → A.Valid →
      (A.toRat.toFin n n).det ≠ 0 → exactInverse A = true →
      ∃ B : Matrix CInt, A.inverse = .ok B ∧ B.m_rows = n ∧ B.m_columns = n ∧ B.Valid ∧
        ∃ P : Matrix CInt, A.mul B = .ok P ∧ P.m_rows = n ∧ P.m_columns = n ∧ P.Valid ∧
          ∀ i j, i < n → j < n → P.get i j = .ok (if i = j then 1 else 0)) ∧
    (⟨3, 3, [1, 0, 5, 2, 1, 6, 3, 4, 0]⟩ : Matrix CInt).inverse =
      .ok ⟨3, 3, [-24, 20, -5, 18, -15, 4, 5, -4, 1]⟩ ∧
    (⟨3, 3, [1, 0, 5, 2, 1, 6, 3, 4, 0]⟩ : Matrix CInt).mul
        ⟨3, 3, [-24, 20, -5, 18, -15, 4, 5, -4, 1]⟩ =
      .ok ⟨3, 3, [1, 0, 0, 0, 1, 0, 0, 0, 1]⟩ := by
  refine ⟨?_, rfl, rfl⟩
  intro A n hrows hcols hV hdet hexact
  have hA : A.Holds n n A.entry := by
    have := holds_entry hV
    rw [hrows, hcols] at this; exact this
  obtain ⟨B, hinv, hB, hsum⟩ := inverse_exact hA hdet hexact
  obtain ⟨P, hP, hPH⟩ := mul_spec hA hB rfl
  refine ⟨B, hinv, hB.1, hB.2.1, hB.valid, P, hP, hPH.1, hPH.2.1, hPH.valid, ?_⟩
  intro i j hi hj
  rw [hPH.get hi hj, accum_int, hsum i j hi hj]
  by_cases hij : i = j
  · rw [if_pos hij, if_pos hij]; rfl
  · rw [if_neg hij, if_neg hij]; rfl

theorem inverse_int_exact_witness :
    (⟨2, 2, [0, -1, 1, 3]⟩ : Matrix CInt).Valid ∧
    ((⟨2, 2, [0, -1, 1, 3]⟩ : Matrix CInt).toRat.toFin 2 2).det ≠ 0 ∧
    exactInverse ⟨2, 2, [0, -1, 1, 3]⟩ = true ∧
    (⟨2, 2, [0, -1, 1, 3]⟩ : Matrix CInt).inverse = .ok ⟨2, 2, [3, 1, -1, 0]⟩ ∧
    ∃ B : Matrix CInt, (⟨2, 2, [0, -1, 1, 3]⟩ : Matrix CInt).inverse = .ok B ∧
      B.m_rows = 2 ∧ B.m_columns = 2 ∧ B.Valid ∧
      ∃ P : Matrix CInt, (⟨2, 2, [0, -1, 1, 3]⟩ : Matrix CInt).mul B = .ok P ∧
        P.m_rows = 2 ∧ P.m_columns = 2 ∧ P.Valid ∧
        ∀ i j, i < 2 → j < 2 → P.get i j = .ok (if i = j then 1 else 0) :=
  have hdet : ((⟨2, 2, [0, -1, 1, 3]⟩ : Matrix CInt).toRat.toFin 2 2).det ≠ 0 := by
    rw [Matrix.det_fin_two]
    have h0 : ratOfInt 0 = 0 := ratOfInt_zero
    have h1 : ratOfInt 1 = 1 := ratOfInt_one
    have h3 : ratOfInt 3 = 3 := by
      show (((3 : CInt).val : Int) : ℚ) = 3
      rw [show (3 : CInt).val = 3 from rfl]; rfl
    have hm : ratOfInt (-1) = -1 := by
      show (((-1 : CInt).val : Int) : ℚ) = -1
      rw [show (-1 : CInt).val = -1 from rfl]; simp
    simp [toFin, entry, toRat, h0, h1, h3, hm]
  ⟨by decide, hdet, rfl, rfl,
    inverse_int_exact.1 ⟨2, 2, [0, -1, 1, 3]⟩ 2 rfl rfl (by decide) hdet rfl⟩

/-- C3. Over a field, `rref` of a matrix with the storage invariant returns a
matrix of the same shape in reduced row echelon form: pivot columns
`c 0 < ... < c (r-1)`, the first nonzero entry of row `k < r` is a `1` in
column `c k` and the only nonzero entry of that column, and the rows from `r`
on are zero. -/
theorem rref_isRREF (M : Matrix K) (hV : M.Valid) :
    ∃ M' : Matrix K, M.rref = .ok M' ∧ M'.m_rows = M.m_rows ∧ M'.m_columns = M.m_columns ∧
      M'.Valid ∧ M'.IsRREF := by
  obtain ⟨M', h1, h2, h3, h4, h5, _⟩ := rref_correct M hV
  exact ⟨M', h1, h2, h3, h4, h5⟩

theorem rref_isRREF_witness :
    (⟨2, 3, [0, 2, 4, 0, 1, 5]⟩ : Matrix ℚ).Valid ∧
    ∃ M' : Matrix ℚ, (⟨2, 3, [0, 2, 4, 0, 1, 5]⟩ : Matrix ℚ).rref = .ok M' ∧
      M'.m_rows = 2 ∧ M'.m_columns = 3 ∧ M'.Valid ∧ M'.IsRREF :=
  ⟨by decide, rref_isRREF ⟨2, 3, [0, 2, 4, 0, 1, 5]⟩ (by decide)⟩

/-- C4, failing input. `addRow(0, {7})` on the `2 × 3` matrix
`[[1,2,3],[4,5,6]]` is accepted, inserts the single value and counts one row
more: seven elements are stored for a `3 × 3` shape. -/
theorem addRowValues_short_breaks_invariant :
    (⟨2, 3, [1, 2, 3, 4, 5, 6]⟩ : Matrix CInt).Valid ∧
    (⟨2, 3, [1, 2, 3, 4, 5, 6]⟩ : Matrix CInt).addRowValues 0 [7] =
      .ok ⟨3, 3, [1, 2, 3, 7, 4, 5, 6]⟩ ∧
    ¬ (⟨3, 3, [1, 2, 3, 7, 4, 5, 6]⟩ : Matrix CInt).Valid :=
  ⟨by decide, rfl, by decide⟩

/-- C5, counterexample. `addRow(0)` on `[[1,2,3],[4,5,6]]` gives
`[[1,2,3],[0,0,0],[4,5,6]]`: the new row is at index 1, not at index 0. -/
theorem addRow_zero_counterexample :
    (⟨2, 3, [1, 2, 3, 4, 5, 6]⟩ : Matrix CInt).addRow 0 =
      .ok ⟨3, 3, [1, 2, 3, 0, 0, 0, 4, 5, 6]⟩ ∧
    (⟨3, 3, [1, 2, 3, 0, 0, 0, 4, 5, 6]⟩ : Matrix CInt) ≠ ⟨3, 3, [0, 0, 0, 1, 2, 3, 4, 5, 6]⟩ :=
  ⟨rfl, by decide⟩

/-- C5, amended. For every matrix with the storage invariant and every
`position < rows`, `addRow(position)` produces a `(rows+1) × columns` matrix in
which the rows `0 .. position` are unchanged, row `position + 1` is the new
all-zero row, and every original row `k > position` is found at index `k + 1`. -/
theorem addRow_inserts_after [Zero T] (M : Matrix T) (hV : M.Valid) (position : Nat)
    (hpos : position < M.m_rows) :
    ∃ M' : Matrix T, M.addRow position = .ok M' ∧
      M'.m_rows = M.m_rows + 1 ∧ M'.m_columns = M.m_columns ∧ M'.Valid ∧
      (∀ i j, i ≤ position → j < M.m_columns → M'.get i j = M.get i j) ∧
      (∀ j, j < M.m_columns → M'.get (position + 1) j = .ok 0) ∧
      (∀ k j, position < k → k < M.m_rows → j < M.m_columns →
        M'.get (k + 1) j = M.get k j) :=
  addRow_get M hV position hpos

theorem addRow_inserts_after_witness :
    (⟨2, 3, [1, 2, 3, 4, 5, 6]⟩ : Matrix CInt).Valid ∧ 0 < 2 ∧
    (⟨2, 3, [1, 2, 3, 4, 5, 6]⟩ : Matrix CInt).addRow 0 =
      .ok ⟨3, 3, [1, 2, 3, 0, 0, 0, 4, 5, 6]⟩ ∧
    ∃ M' : Matrix CInt, (⟨2, 3, [1, 2, 3, 4, 5, 6]⟩ : Matrix CInt).addRow 0 = .ok M' ∧
      M'.m_rows = 2 + 1 ∧ M'.m_columns = 3 ∧ M'.Valid ∧
      (∀ i j, i ≤ 0 → j < 3 → M'.get i j = (⟨2, 3, [1, 2, 3, 4, 5, 6]⟩ : Matrix CInt).get i j) ∧
      (∀ j, j < 3 → M'.get (0 + 1) j = .ok 0) ∧
      (∀ k j, 0 < k → k < 2 → j < 3 →
        M'.get (k + 1) j = (⟨2, 3, [1, 2, 3, 4, 5, 6]⟩ : Matrix CInt).get k j) :=
  ⟨by decide, by decide, rfl,
    addRow_inserts_after ⟨2, 3, [1, 2, 3, 4, 5, 6]⟩ (by decide) 0 (by decide)⟩

/-- C6, counterexample. `addColumn(0, {7, 8})` on `[[1,2,3],[4,5,6]]` gives
`[[1,7,2,3],[4,8,5,6]]`: the new column is at index 1, not at index 0. -/
theorem addColumnValues_zero_counterexample :
    (⟨2, 3, [1, 2, 3, 4, 5, 6]⟩ : Matrix CInt).addColumnValues 0 [7, 8] =
      .ok ⟨2, 4, [1, 7, 2, 3, 4, 8, 5, 6]⟩ ∧
    (⟨2, 4, [1, 7, 2, 3, 4, 8, 5, 6]⟩ : Matrix CInt) ≠ ⟨2, 4, [7, 1, 2, 3, 8, 4, 5, 6]⟩ :=
  ⟨rfl, by decide⟩

/-- C6, amended. For every matrix with the storage invariant, every
`position < columns` and every list of `rows` values, `addColumn(position,
values)` produces a `rows × (columns+1)` matrix in which the columns
`0 .. position` are unchanged, column `position + 1` holds the values
(`values[i]` in row `i`), and every original column `k > position` is found at
index `k + 1`. -/
theorem addColumnValues_inserts_after [Zero T] (M : Matrix T) (hV : M.Valid) (position : Nat)
    (hpos : position < M.m_columns) (values : List T) (hlen : values.length = M.m_rows) :
    ∃ M' : Matrix T, M.addColumnValues position values = .ok M' ∧
      M'.m_rows = M.m_rows ∧ M'.m_columns = M.m_columns + 1 ∧ M'.Valid ∧
      (∀ i j, i < M.m_rows → j ≤ position → M'.get i j = M.get i j) ∧
      (∀ i v, values[i]? = some v → M'.get i (position + 1) = .ok v) ∧
      (∀ i k, i < M.m_rows → position < k → k < M.m_columns →
        M'.get i (k + 1) = M.get i k) := by
  obtain ⟨M', h0, h1, h2, h3, h4, h5, h6⟩ := addColumnValues_get M hV position hpos values hlen
  refine ⟨M', h0, h1, h2, h3, h4, ?_, h6⟩
  intro i v hv
  have hi : i < M.m_rows := by
    rw [← hlen]
    exact (List.getElem?_eq_some.mp hv).1
  rw [h5 i hi, getD_of_getElem? hv]

theorem addColumnValues_inserts_after_witness :
    (⟨2, 3, [1, 2, 3, 4, 5, 6]⟩ : Matrix CInt).Valid ∧ 0 < 3 ∧
    ([7, 8] : List CInt).length = 2 ∧
    (⟨2, 3, [1, 2, 3, 4, 5, 6]⟩ : Matrix CInt).addColumnValues 0 [7, 8] =
      .ok ⟨2, 4, [1, 7, 2, 3, 4, 8, 5, 6]⟩ ∧
    ∃ M' : Matrix CInt,
      (⟨2, 3, [1, 2, 3, 4, 5, 6]⟩ : Matrix CInt).addColumnValues 0 [7, 8] = .ok M' ∧
      M'.m_rows = 2 ∧ M'.m_columns = 3 + 1 ∧ M'.Valid ∧
      (∀ i j, i < 2 → j ≤ 0 → M'.get i j = (⟨2, 3, [1, 2, 3, 4, 5, 6]⟩ : Matrix CInt).get i j) ∧
      (∀ i v, ([7, 8] : List CInt)[i]? = some v → M'.get i (0 + 1) = .ok v) ∧
      (∀ i k, i < 2 → 0 < k → k < 3 →
        M'.get i (k + 1) = (⟨2, 3, [1, 2, 3, 4, 5, 6]⟩ : Matrix CInt).get i k) :=
  ⟨by decide, by decide, rfl, rfl,
    addColumnValues_inserts_after ⟨2, 3, [1, 2, 3, 4, 5, 6]⟩ (by decide) 0 (by decide) [7, 8] rfl⟩

/-- C7. For every matrix with the storage invariant and every `position < rows`,
`addRow(position)` and `addRow(position, values)` with `values.length ==
columns` produce a `(rows+1) × columns` matrix in which the rows
`0 .. position` are unchanged, the new row (all zeros, respectively the values)
is at index `position + 1`, and every original row `k > position` is at index
`k + 1`. -/
theorem addRow_overloads_insert_after [Zero T] (M : Matrix T) (hV : M.Valid) (position : Nat)
    (hpos : position < M.m_rows) :
    (∃ M' : Matrix T, M.addRow position = .ok M' ∧
      M'.m_rows = M.m_rows + 1 ∧ M'.m_columns = M.m_columns ∧
      (∀ i j, i ≤ position → j < M.m_columns → M'.get i j = M.get i j) ∧
      (∀ j, j < M.m_columns → M'.get (position + 1) j = .ok 0) ∧
      (∀ k j, position < k → k < M.m_rows → j < M.m_columns →
        M'.get (k + 1) j = M.get k j)) ∧
    ∀ values : List T, values.length = M.m_columns →
      ∃ M' : Matrix T, M.addRowValues position values = .ok M' ∧
        M'.m_rows = M.m_rows + 1 ∧ M'.m_columns = M.m_columns ∧
        (∀ i j, i ≤ position → j < M.m_columns → M'.get i j = M.get i j) ∧
        (∀ j v, values[j]? = some v → M'.get (position + 1) j = .ok v) ∧
        (∀ k j, position < k → k < M.m_rows → j < M.m_columns →
          M'.get (k + 1) j = M.get k j) := by
  constructor
  · obtain ⟨M', h0, h1, h2, _, h4, h5, h6⟩ := addRow_get M hV position hpos
    exact ⟨M', h0, h1, h2, h4, h5, h6⟩
  · intro values hlen
    obtain ⟨M', h0, h1, h2, _, h4, h5, h6⟩ := addRowValues_get M hV position hpos values hlen
    refine ⟨M', h0, h1, h2, h4, ?_, h6⟩
    intro j v hv
    have hj : j < M.m_columns := by
      rw [← hlen]
      exact (List.getElem?_eq_some.mp hv).1
    rw [h5 j hj, getD_of_getElem? hv]

theorem addRow_overloads_insert_after_witness :
    (⟨2, 3, [1, 2, 3, 4, 5, 6]⟩ : Matrix CInt).Valid ∧ 0 < 2 ∧
    (⟨2, 3, [1, 2, 3, 4, 5, 6]⟩ : Matrix CInt).addRowValues 0 [7, 8, 9] =
      .ok ⟨3, 3, [1, 2, 3, 7, 8, 9, 4, 5, 6]⟩ ∧
    ∃ M' : Matrix CInt,
      (⟨2, 3, [1, 2, 3, 4, 5, 6]⟩ : Matrix CInt).addRowValues 0 [7, 8, 9] = .ok M' ∧
      M'.m_rows = 2 + 1 ∧ M'.m_columns = 3 ∧
      (∀ i j, i ≤ 0 → j < 3 → M'.get i j = (⟨2, 3, [1, 2, 3, 4, 5, 6]⟩ : Matrix CInt).get i j) ∧
      (∀ j v, ([7, 8, 9] : List CInt)[j]? = some v → M'.get (0 + 1) j = .ok v) ∧
      (∀ k j, 0 < k → k < 2 → j < 3 →
        M'.get (k + 1) j = (⟨2, 3, [1, 2, 3, 4, 5, 6]⟩ : Matrix CInt).get k j) :=
  ⟨by decide, by decide, rfl,
    (addRow_overloads_insert_after ⟨2, 3, [1, 2, 3, 4, 5, 6]⟩ (by decide) 0 (by decide)).2
      [7, 8, 9] rfl⟩

/-- C8. For every matrix with the storage invariant and every
`position < columns`, `addColumn(position)` and `addColumn(position, values)`
with `values.length == rows` produce a `rows × (columns+1)` matrix in which the
columns `0 .. position` are unchanged, the new column (all zeros, respectively
`values[i]` in row `i`) is at index `position + 1`, and every original column
`k > position` is at index `k + 1`. -/
theorem addColumn_overloads_insert_after [Zero T] (M : Matrix T) (hV : M.Valid)
    (position : Nat) (hpos : position < M.m_columns) :
    (∃ M' : Matrix T, M.addColumn position = .ok M' ∧
      M'.m_rows = M.m_rows ∧ M'.m_columns = M.m_columns + 1 ∧
      (∀ i j, i < M.m_rows → j ≤ position → M'.get i j = M.get i j) ∧
      (∀ i, i < M.m_rows → M'.get i (position + 1) = .ok 0) ∧
      (∀ i k, i < M.m_rows → position < k → k < M.m_columns →
        M'.get i (k + 1) = M.get i k)) ∧
    ∀ values : List T, values.length = M.m_rows →
      ∃ M' : Matrix T, M.addColumnValues position values = .ok M' ∧
        M'.m_rows = M.m_rows ∧ M'.m_columns = M.m_columns + 1 ∧
        (∀ i j, i < M.m_rows → j ≤ position → M'.get i j = M.get i j) ∧
        (∀ i v, values[i]? = some v → M'.get i (position + 1) = .ok v) ∧
        (∀ i k, i < M.m_rows → position < k → k < M.m_columns →
          M'.get i (k + 1) = M.get i k) := by
  constructor
  · obtain ⟨M', h0, h1, h2, _, h4, h5, h6⟩ := addColumn_get M hV position hpos
    exact ⟨M', h0, h1, h2, h4, h5, h6⟩
  · intro values hlen
    obtain ⟨M', h0, h1, h2, _, h4, h5, h6⟩ :=
      addColumnValues_get M hV position hpos values hlen
    refine ⟨M', h0, h1, h2, h4, ?_, h6⟩
    intro i v hv
    have hi : i < M.m_rows := by
      rw [← hlen]
      exact (List.getElem?_eq_some.mp hv).1
    rw [h5 i hi, getD_of_getElem? hv]

theorem addColumn_overloads_insert_after_witness :
    (⟨2, 3, [1, 2, 3, 4, 5, 6]⟩ : Matrix CInt).Valid ∧ 0 < 3 ∧
    (⟨2, 3, [1, 2, 3, 4, 5, 6]⟩ : Matrix CInt).addColumn 0 =
      .ok ⟨2, 4, [1, 0, 2, 3, 4, 0, 5, 6]⟩ ∧
    ∃ M' : Matrix CInt, (⟨2, 3, [1, 2, 3, 4, 5, 6]⟩ : Matrix CInt).addColumn 0 = .ok M' ∧
      M'.m_rows = 2 ∧ M'.m_columns = 3 + 1 ∧
      (∀ i j, i < 2 → j ≤ 0 → M'.get i j = (⟨2, 3, [1, 2, 3, 4, 5, 6]⟩ : Matrix CInt).get i j) ∧
      (∀ i, i < 2 → M'.get i (0 + 1) = .ok 0) ∧
      (∀ i k, i < 2 → 0 < k → k < 3 →
        M'.get i (k + 1) = (⟨2, 3, [1, 2, 3, 4, 5, 6]⟩ : Matrix CInt).get i k) :=
  ⟨by decide, by decide, rfl,
    (addColumn_overloads_insert_after ⟨2, 3, [1, 2, 3, 4, 5, 6]⟩ (by decide) 0 (by decide)).1⟩

/-- C9, failing input. `addRow(2)` on the `2 × 3` matrix `[[1,2,3],[4,5,6]]`
passes the range check and then inserts at `begin() + 9` into a vector of six
elements. -/
theorem addRow_at_end_out_of_range :
    (⟨2, 3, [1, 2, 3, 4, 5, 6]⟩ : Matrix CInt).Valid ∧
    (⟨2, 3, [1, 2, 3, 4, 5, 6]⟩ : Matrix CInt).addRow 2 = .error .undefinedBehaviour :=
  ⟨by decide, rfl⟩

/-- C10, failing inputs. On the `2 × 3` matrix `[[1,2,3],[4,5,6]]`,
`addColumn(0, {7})` passes both checks and reads a second value from a list of
one, and `addColumn(3, {7, 8})` passes both checks and inserts past the end of
the storage in the last row. -/
theorem addColumnValues_out_of_range :
    (⟨2, 3, [1, 2, 3, 4, 5, 6]⟩ : Matrix CInt).Valid ∧
    (⟨2, 3, [1, 2, 3, 4, 5, 6]⟩ : Matrix CInt).addColumnValues 0 [7] =
      .error .undefinedBehaviour ∧
    (⟨2, 3, [1, 2, 3, 4, 5, 6]⟩ : Matrix CInt).addColumnValues 3 [7, 8] =
      .error .undefinedBehaviour :=
  ⟨by decide, rfl, rfl⟩

/-- C12, counterexample. The square `int` matrix `[[-1, INT_MIN], [0, 1]]` has
the storage invariant, and `inverse` returns no matrix for it: the first pass
of `rref` on `[A | I]` divides the pivot row by the pivot `-1`, and the
quotient `INT_MIN / -1` is no `int`. -/
theorem inverse_int_min_counterexample :
    (⟨2, 2, [-1, INT_MIN, 0, 1]⟩ : Matrix CInt).Valid ∧
    (⟨2, 2, [-1, INT_MIN, 0, 1]⟩ : Matrix CInt).m_rows =
      (⟨2, 2, [-1, INT_MIN, 0, 1]⟩ : Matrix CInt).m_columns ∧
    (⟨2, 2, [-1, INT_MIN, 0, 1]⟩ : Matrix CInt).inverse = .error .divisionOverflow ∧
    ¬ ∃ B : Matrix CInt, (⟨2, 2, [-1, INT_MIN, 0, 1]⟩ : Matrix CInt).inverse = .ok B :=
  ⟨by decide, rfl, rfl, fun ⟨_, h⟩ => Except.noConfusion h⟩

/-- C12, amended. For a matrix with the storage invariant, `inverse` throws
"wrong matrix shape" exactly when `rows != columns`.  On a square matrix,
singular or not, it makes no access out of range or outside the storage, does
not divide by zero, and its pivot search ends: it returns an `n × n` matrix
with the storage invariant, unless it stops at the division of an entry by a
nonzero pivot whose quotient the element type cannot hold.  For an element
type in which every such quotient exists, the shape error is the only failure
and every square matrix gets an `n × n` matrix. -/
theorem inverse_fails_iff_not_square_or_overflow [Zero T] [One T] [Sub T] [Mul T] [Div T]
    [DivOverflow T] [DecidableEq T] (M : Matrix T) (hV : M.Valid) :
    (M.inverse = .error .wrongShape ↔ M.m_rows ≠ M.m_columns) ∧
    (M.m_rows = M.m_columns →
      (∃ B : Matrix T, M.inverse = .ok B ∧ B.m_rows = M.m_rows ∧ B.m_columns = M.m_rows ∧
        B.Valid) ∨
      (M.inverse = .error .divisionOverflow ∧
        ∃ x f : T, f ≠ 0 ∧ DivOverflow.overflows x f = true)) ∧
    ((∀ x f : T, f ≠ 0 → DivOverflow.overflows x f = false) →
      ((∃ e, M.inverse = .error e) ↔ M.m_rows ≠ M.m_columns) ∧
      (M.m_rows = M.m_columns →
        ∃ B : Matrix T, M.inverse = .ok B ∧ B.m_rows = M.m_rows ∧ B.m_columns = M.m_rows ∧
          B.Valid)) := by
  have hthrow : M.m_rows ≠ M.m_columns → M.inverse = .error .wrongShape := by
    intro h
    unfold inverse
    rw [if_pos h]
  have htotal : M.m_rows = M.m_columns →
      (∃ B : Matrix T, M.inverse = .ok B ∧ B.m_rows = M.m_rows ∧ B.m_columns = M.m_rows ∧
        B.Valid) ∨
      (M.inverse = .error .divisionOverflow ∧
        ∃ x f : T, f ≠ 0 ∧ DivOverflow.overflows x f = true) := by
    intro hsq
    have hM : M.Holds M.m_rows M.m_rows M.entry := by
      have := holds_entry hV
      rw [← hsq] at this; exact this
    exact inverse_total hM
  refine ⟨⟨fun h => ?_, hthrow⟩, htotal, fun hov => ⟨⟨fun h => ?_, fun h => ⟨_, hthrow h⟩⟩,
    fun hsq => inverse_ok hov M hV hsq⟩⟩
  · intro hsq
    rcases htotal hsq with ⟨B, hB, _⟩ | ⟨herr, _⟩
    · rw [hB] at h; cases h
    · rw [herr] at h; cases h
  · intro hsq
    obtain ⟨B, hB, _⟩ := inverse_ok hov M hV hsq
    obtain ⟨e, he⟩ := h
    rw [hB] at he
    cases he

theorem inverse_fails_iff_not_square_or_overflow_witness :
    (⟨2, 2, [0, 0, 0, 0]⟩ : Matrix CInt).Valid ∧
    (⟨2, 2, [0, 0, 0, 0]⟩ : Matrix CInt).inverse = .ok ⟨2, 2, [1, 0, 0, 1]⟩ ∧
    (⟨2, 3, [1, 2, 3, 4, 5, 6]⟩ : Matrix CInt).inverse = .error .wrongShape ∧
    ((∃ B : Matrix CInt, (⟨2, 2, [0, 0, 0, 0]⟩ : Matrix CInt).inverse = .ok B ∧
      B.m_rows = 2 ∧ B.m_columns = 2 ∧ B.Valid) ∨
     ((⟨2, 2, [0, 0, 0, 0]⟩ : Matrix CInt).inverse = .error .divisionOverflow ∧
      ∃ x f : CInt, f ≠ 0 ∧ DivOverflow.overflows x f = true)) ∧
    (⟨2, 2, [0, 0, 0, 0]⟩ : Matrix ℚ).Valid ∧
    (∀ x f : ℚ, f ≠ 0 → DivOverflow.overflows x f = false) ∧
    ∃ B : Matrix ℚ, (⟨2, 2, [0, 0, 0, 0]⟩ : Matrix ℚ).inverse = .ok B ∧
      B.m_rows = 2 ∧ B.m_columns = 2 ∧ B.Valid :=
  ⟨by decide, rfl, rfl,
    (inverse_fails_iff_not_square_or_overflow ⟨2, 2, [0, 0, 0, 0]⟩ (by decide)).2.1 rfl,
    by decide, fun _ _ _ => rfl,
    ((inverse_fails_iff_not_square_or_overflow (⟨2, 2, [0, 0, 0, 0]⟩ : Matrix ℚ)
      (by decide)).2.2 (fun _ _ _ => rfl)).2 rfl⟩

/-- C13. Each mutating operation with a validity check leaves its receiver as
it was when it rejects the call: `addRow(position)`, `addRow(position,
values)`, `addColumn(position)` and `addColumn(position, values)` throw when
the position is beyond the dimension or the values are more than the
dimension permits, the receiver after the throw is the matrix before the
call, and no other throw of these operations exists. -/
theorem rejected_call_keeps_receiver [Zero T] (M : Matrix T) (position : Nat)
    (values : List T) :
    (position > M.m_rows → M.addRowInPlace position = (.error .outsideRange, M)) ∧
    (position > M.m_rows → M.addRowValuesInPlace position values = (.error .outsideRange, M)) ∧
    (position ≤ M.m_rows → values.length > M.m_columns →
      M.addRowValuesInPlace position values = (.error .listTooBig, M)) ∧
    (position > M.m_columns → M.addColumnInPlace position = (.error .outsideRange, M)) ∧
    (position > M.m_columns →
      M.addColumnValuesInPlace position values = (.error .outsideRange, M)) ∧
    (position ≤ M.m_columns → values.length > M.m_rows →
      M.addColumnValuesInPlace position values = (.error .listTooBig, M)) ∧
    (∀ e, e ≠ .undefinedBehaviour →
      ((M.addRowInPlace position).1 = .error e → (M.addRowInPlace position).2 = M) ∧
      ((M.addRowValuesInPlace position values).1 = .error e →
        (M.addRowValuesInPlace position values).2 = M) ∧
      ((M.addColumnInPlace position).1 = .error e → (M.addColumnInPlace position).2 = M) ∧
      ((M.addColumnValuesInPlace position values).1 = .error e →
        (M.addColumnValuesInPlace position values).2 = M)) := by
  refine ⟨fun h => ?_, fun h => ?_, fun h1 h2 => ?_, fun h => ?_, fun h => ?_, fun h1 h2 => ?_,
    fun e he => ⟨fun h => ?_, fun h => ?_, fun h => ?_, fun h => ?_⟩⟩
  · unfold addRowInPlace; rw [if_pos h]
  · unfold addRowValuesInPlace; rw [if_pos h]
  · unfold addRowValuesInPlace; rw [if_neg (by omega), if_pos h2]
  · unfold addColumnInPlace; rw [if_pos h]
  · unfold addColumnValuesInPlace; rw [if_pos h]
  · unfold addColumnValuesInPlace; rw [if_neg (by omega), if_pos h2]
  · exact addRowInPlace_thrown M position e h
  · exact addRowValuesInPlace_thrown M position values e h
  · rw [(addColumnInPlace_thrown M position e he h).2]
  · exact (addColumnValuesInPlace_thrown M position values e he h).2

theorem rejected_call_keeps_receiver_witness :
    (⟨2, 3, [1, 2, 3, 4, 5, 6]⟩ : Matrix CInt).addRowInPlace 3 =
      (.error .outsideRange, ⟨2, 3, [1, 2, 3, 4, 5, 6]⟩) ∧
    (⟨2, 3, [1, 2, 3, 4, 5, 6]⟩ : Matrix CInt).addColumnValuesInPlace 0 [7, 8, 9] =
      (.error .listTooBig, ⟨2, 3, [1, 2, 3, 4, 5, 6]⟩) :=
  ⟨(rejected_call_keeps_receiver ⟨2, 3, [1, 2, 3, 4, 5, 6]⟩ 3 []).1 (by decide),
    (rejected_call_keeps_receiver ⟨2, 3, [1, 2, 3, 4, 5, 6]⟩ 0 [7, 8, 9]).2.2.2.2.2.1
      (by decide) (by decide)⟩

/-- C14. For matrices with the storage invariant, `A + B` throws "shapes do not
match" exactly when `A.rows != B.rows` or `A.columns != B.columns`; otherwise
it returns a matrix of the same shape whose entry `(i, j)` is
`A(i,j) + B(i,j)`. -/
theorem add_shape_and_entries [Zero T] [Add T] (A B : Matrix T) (hA : A.Valid) (hB : B.Valid) :
    (A.add B = .error .shapesDoNotMatch ↔
      A.m_rows ≠ B.m_rows ∨ A.m_columns ≠ B.m_columns) ∧
    (A.m_rows = B.m_rows → A.m_columns = B.m_columns →
      ∃ R : Matrix T, A.add B = .ok R ∧ R.m_rows = A.m_rows ∧ R.m_columns = A.m_columns ∧
        R.Valid ∧
        ∀ i j, i < A.m_rows → j < A.m_columns →
          ∃ a b, A.get i j = .ok a ∧ B.get i j = .ok b ∧ R.get i j = .ok (a + b)) := by
  have hok : A.m_rows = B.m_rows → A.m_columns = B.m_columns →
      ∃ R : Matrix T, A.add B = .ok R ∧ R.m_rows = A.m_rows ∧ R.m_columns = A.m_columns ∧
        R.Valid ∧
        ∀ i j, i < A.m_rows → j < A.m_columns →
          ∃ a b, A.get i j = .ok a ∧ B.get i j = .ok b ∧ R.get i j = .ok (a + b) := by
    intro h1 h2
    have hAH := holds_entry hA
    have hBH : B.Holds A.m_rows A.m_columns B.entry := by
      have := holds_entry hB
      rw [← h1, ← h2] at this; exact this
    obtain ⟨R, hR, hH⟩ := add_spec hAH hBH
    exact ⟨R, hR, hH.1, hH.2.1, hH.valid, fun i j hi hj =>
      ⟨A.entry i j, B.entry i j, hAH.get hi hj, hBH.get hi hj, hH.get hi hj⟩⟩
  refine ⟨⟨fun h => ?_, fun h => ?_⟩, hok⟩
  · by_contra hne
    have h1 : A.m_rows = B.m_rows := by
      by_contra h1; exact hne (Or.inl h1)
    have h2 : A.m_columns = B.m_columns := by
      by_contra h2; exact hne (Or.inr h2)
    obtain ⟨R, hR, _⟩ := hok h1 h2
    rw [hR] at h
    cases h
  · unfold add
    rw [if_pos (by
      rcases h with h | h
      · exact Or.inl (Ne.symm h)
      · exact Or.inr (Ne.symm h))]

theorem add_shape_and_entries_witness :
    (⟨2, 3, [1, 2, 3, 4, 5, 6]⟩ : Matrix CInt).Valid ∧
    (⟨2, 3, [6, 5, 4, 3, 2, 1]⟩ : Matrix CInt).Valid ∧
    (⟨2, 3, [1, 2, 3, 4, 5, 6]⟩ : Matrix CInt).add ⟨2, 3, [6, 5, 4, 3, 2, 1]⟩ =
      .ok ⟨2, 3, [7, 7, 7, 7, 7, 7]⟩ ∧
    ∃ R : Matrix CInt,
      (⟨2, 3, [1, 2, 3, 4, 5, 6]⟩ : Matrix CInt).add ⟨2, 3, [6, 5, 4, 3, 2, 1]⟩ = .ok R ∧
      R.m_rows = 2 ∧ R.m_columns = 3 ∧ R.Valid ∧
      ∀ i j, i < 2 → j < 3 →
        ∃ a b, (⟨2, 3, [1, 2, 3, 4, 5, 6]⟩ : Matrix CInt).get i j = .ok a ∧
          (⟨2, 3, [6, 5, 4, 3, 2, 1]⟩ : Matrix CInt).get i j = .ok b ∧
          R.get i j = .ok (a + b) :=
  ⟨by decide, by decide, rfl,
    (add_shape_and_entries ⟨2, 3, [1, 2, 3, 4, 5, 6]⟩ ⟨2, 3, [6, 5, 4, 3, 2, 1]⟩
      (by decide) (by decide)).2 rfl rfl⟩

/-- C15. Over an element type with commutative addition, for matrices with the
storage invariant: if `A` and `B` have the same shape, `A + B` and `B + A` both
return, and return the same matrix (rows, columns and elements); if the shapes
differ, both throw "shapes do not match". -/
theorem add_comm_matrices [Zero T] [Add T] (hcomm : ∀ a b : T, a + b = b + a)
    (A B : Matrix T) (hA : A.Valid) (hB : B.Valid) :
    (A.m_rows = B.m_rows → A.m_columns = B.m_columns →
      ∃ R : Matrix T, A.add B = .ok R ∧ B.add A = .ok R) ∧
    (A.m_rows ≠ B.m_rows ∨ A.m_columns ≠ B.m_columns →
      A.add B = .error .shapesDoNotMatch ∧ B.add A = .error .shapesDoNotMatch) := by
  constructor
  · intro h1 h2
    have hAH := holds_entry hA
    have hBH : B.Holds A.m_rows A.m_columns B.entry := by
      have := holds_entry hB
      rw [← h1, ← h2] at this; exact this
    obtain ⟨R, hR, hH⟩ := add_spec hAH hBH
    obtain ⟨R', hR', hH'⟩ := add_spec hBH hAH
    have : R' = R := (hH'.congr (fun i j _ _ => hcomm _ _)).unique hH
    rw [this] at hR'
    exact ⟨R, hR, hR'⟩
  · intro h
    constructor
    · unfold add
      rw [if_pos (by
        rcases h with h | h
        · exact Or.inl (Ne.symm h)
        · exact Or.inr (Ne.symm h))]
    · unfold add
      rw [if_pos h]

theorem add_comm_matrices_witness :
    (⟨2, 3, [1, 2, 3, 4, 5, 6]⟩ : Matrix CInt).Valid ∧
    (⟨2, 3, [6, 5, 4, 3, 2, 1]⟩ : Matrix CInt).Valid ∧
    ∃ R : Matrix CInt,
      (⟨2, 3, [1, 2, 3, 4, 5, 6]⟩ : Matrix CInt).add ⟨2, 3, [6, 5, 4, 3, 2, 1]⟩ = .ok R ∧
      (⟨2, 3, [6, 5, 4, 3, 2, 1]⟩ : Matrix CInt).add ⟨2, 3, [1, 2, 3, 4, 5, 6]⟩ = .ok R :=
  ⟨by decide, by decide,
    (add_comm_matrices CInt.add_comm ⟨2, 3, [1, 2, 3, 4, 5, 6]⟩ ⟨2, 3, [6, 5, 4, 3, 2, 1]⟩
      (by decide) (by decide)).1 rfl rfl⟩

/-- C16. For every matrix `A` with the storage invariant, of any shape,
`transpose` returns, `transpose` of the result returns, and the result of the
second is `A`: the same rows, columns and elements. -/
theorem transpose_transpose [Zero T] (A : Matrix T) (hV : A.Valid) :
    ∃ R : Matrix T, A.transpose = .ok R ∧ R.transpose = .ok A := by
  have hA := holds_entry hV
  obtain ⟨R, hR, hH⟩ := transpose_spec hA
  obtain ⟨R2, hR2, hH2⟩ := transpose_spec hH
  have : R2 = A := hH2.unique hA
  rw [this] at hR2
  exact ⟨R, hR, hR2⟩

theorem transpose_transpose_witness :
    (⟨0, 3, []⟩ : Matrix CInt).Valid ∧
    (⟨0, 3, []⟩ : Matrix CInt).transpose = .ok ⟨3, 0, []⟩ ∧
    (⟨3, 0, []⟩ : Matrix CInt).transpose = .ok ⟨0, 3, []⟩ ∧
    ∃ R : Matrix CInt, (⟨0, 3, []⟩ : Matrix CInt).transpose = .ok R ∧
      R.transpose = .ok ⟨0, 3, []⟩ :=
  ⟨by decide, rfl, rfl, transpose_transpose ⟨0, 3, []⟩ (by decide)⟩

/-- C17. For every matrix `A` with the storage invariant, `transpose` returns a
matrix with `A.columns` rows and `A.rows` columns, with the storage invariant,
whose entry `(j, i)` is the entry `(i, j)` of `A`. -/
theorem transpose_entries [Zero T] (A : Matrix T) (hV : A.Valid) :
    ∃ R : Matrix T, A.transpose = .ok R ∧ R.m_rows = A.m_columns ∧ R.m_columns = A.m_rows ∧
      R.Valid ∧ ∀ i j, i < A.m_rows → j < A.m_columns → R.get j i = A.get i j := by
  have hA := holds_entry hV
  obtain ⟨R, hR, hH⟩ := transpose_spec hA
  refine ⟨R, hR, hH.1, hH.2.1, hH.valid, ?_⟩
  intro i j hi hj
  rw [hH.get hj hi, hA.get hi hj]

theorem transpose_entries_witness :
    (⟨2, 3, [1, 2, 3, 4, 5, 6]⟩ : Matrix CInt).Valid ∧
    (⟨2, 3, [1, 2, 3, 4, 5, 6]⟩ : Matrix CInt).transpose = .ok ⟨3, 2, [1, 4, 2, 5, 3, 6]⟩ ∧
    ∃ R : Matrix CInt, (⟨2, 3, [1, 2, 3, 4, 5, 6]⟩ : Matrix CInt).transpose = .ok R ∧
      R.m_rows = 3 ∧ R.m_columns = 2 ∧ R.Valid ∧
      ∀ i j, i < 2 → j < 3 →
        R.get j i = (⟨2, 3, [1, 2, 3, 4, 5, 6]⟩ : Matrix CInt).get i j :=
  ⟨by decide, rfl, transpose_entries ⟨2, 3, [1, 2, 3, 4, 5, 6]⟩ (by decide)⟩

/-- C18. For every matrix with the storage invariant and every `(row, column)`,
the element access, reading or writing, throws "dimensions are outside of
matrix range" exactly when `row >= rows` or `column >= columns`; otherwise
the flat index `row * columns + column` lies in the element sequence, the read
returns the element stored there and the write replaces it. -/
theorem access_range_check (M : Matrix T) (hV : M.Valid) (row column : Nat) :
    (M.get row column = .error .outsideRange ↔ row ≥ M.m_rows ∨ column ≥ M.m_columns) ∧
    (∀ x, M.put row column x = .error .outsideRange ↔
      row ≥ M.m_rows ∨ column ≥ M.m_columns) ∧
    (row < M.m_rows → column < M.m_columns →
      ∃ h : row * M.m_columns + column < M.m_elements.length,
        M.get row column = .ok (M.m_elements.get ⟨row * M.m_columns + column, h⟩) ∧
        ∀ x, M.put row column x =
          .ok ⟨M.m_rows, M.m_columns, M.m_elements.set (row * M.m_columns + column) x⟩) := by
  refine ⟨get_outsideRange_iff M row column, fun x => put_outsideRange_iff M row column x, ?_⟩
  intro hr hc
  obtain ⟨h, hg⟩ := get_in_range M hV hr hc
  exact ⟨h, hg, fun x => put_in_range M hV hr hc x⟩

theorem access_range_check_witness :
    (⟨2, 3, [1, 2, 3, 4, 5, 6]⟩ : Matrix CInt).Valid ∧
    (⟨2, 3, [1, 2, 3, 4, 5, 6]⟩ : Matrix CInt).get 2 0 = .error .outsideRange ∧
    (⟨2, 3, [1, 2, 3, 4, 5, 6]⟩ : Matrix CInt).get 0 3 = .error .outsideRange ∧
    (⟨2, 3, [1, 2, 3, 4, 5, 6]⟩ : Matrix CInt).get 1 2 = .ok 6 :=
  ⟨by decide,
    (access_range_check ⟨2, 3, [1, 2, 3, 4, 5, 6]⟩ (by decide) 2 0).1.mpr (by decide),
    (access_range_check ⟨2, 3, [1, 2, 3, 4, 5, 6]⟩ (by decide) 0 3).1.mpr (by decide),
    rfl⟩

/-- C19, counterexample. `Matrix<int>(4294967296, 4294967296, {1})` throws
"wrong matrix shape" although the one value is not more than
`rows * columns = 2^64`: the product is computed in `size_t` and is `0`. -/
theorem ofList_size_wrap_counterexample :
    ¬ (([1] : List CInt).length > 4294967296 * 4294967296) ∧
    (ofList 4294967296 4294967296 [1] : Except Failure (Matrix CInt)) = .error .wrongShape :=
  ⟨by decide, rfl⟩

/-- C19, amended. `Matrix(rows, columns, values)` throws "wrong matrix shape"
exactly when `values.length` is greater than the product `rows * columns` as
`size_t` computes it, modulo `2^64`; otherwise it yields a matrix with
`m_rows = rows`, `m_columns = columns` and a storage of that many elements,
whose flat element `k` is `values[k]` for `k < values.length` and zero from
`values.length` on.  Where `rows * columns < 2^64`, it throws exactly when
`values.length > rows * columns`, and otherwise yields a `rows × columns`
matrix with the storage invariant whose flat element `k` is `values[k]` for
`k < values.length` and zero for `values.length <= k < rows * columns`, so
that the element `(i, j)` is `values[i * columns + j]`, or zero past the
values. -/
theorem ofList_shape_and_elements_size_t [Zero T] (rows columns : Nat) (values : List T) :
    (ofList rows columns values = .error .wrongShape ↔
      values.length > sizeMul rows columns) ∧
    ((∃ e, ofList rows columns values = .error e) ↔ values.length > sizeMul rows columns) ∧
    (values.length ≤ sizeMul rows columns →
      ∃ M : Matrix T, ofList rows columns values = .ok M ∧ M.m_rows = rows ∧
        M.m_columns = columns ∧ M.m_elements.length = sizeMul rows columns ∧
        (∀ (k : Nat) (v : T), values[k]? = some v → M.m_elements[k]? = some v) ∧
        (∀ k : Nat, values.length ≤ k → k < sizeMul rows columns →
          M.m_elements[k]? = some 0)) ∧
    (rows * columns < 18446744073709551616 →
      (ofList rows columns values = .error .wrongShape ↔ values.length > rows * columns) ∧
      ((∃ e, ofList rows columns values = .error e) ↔ values.length > rows * columns) ∧
      (values.length ≤ rows * columns →
        ∃ M : Matrix T, ofList rows columns values = .ok M ∧ M.m_rows = rows ∧
          M.m_columns = columns ∧ M.Valid ∧
          (∀ (k : Nat) (v : T), values[k]? = some v → M.m_elements[k]? = some v) ∧
          (∀ k : Nat, values.length ≤ k → k < rows * columns → M.m_elements[k]? = some 0) ∧
          (∀ (i j : Nat) (v : T), i < rows → j < columns →
            values[i * columns + j]? = some v → M.get i j = .ok v) ∧
          (∀ i j : Nat, i < rows → j < columns → values.length ≤ i * columns + j →
            M.get i j = .ok 0))) := by
  have hthrow : values.length > sizeMul rows columns →
      ofList rows columns values = .error .wrongShape := by
    intro h
    unfold ofList
    rw [if_pos h]
  have hok : values.length ≤ sizeMul rows columns →
      ofList rows columns values =
        .ok ⟨rows, columns,
          values ++ (List.replicate (sizeMul rows columns) 0).drop values.length⟩ := by
    intro h
    unfold ofList
    rw [if_neg (by omega)]
  have h1 : ofList rows columns values = .error .wrongShape ↔
      values.length > sizeMul rows columns := by
    refine ⟨fun h => ?_, hthrow⟩
    by_contra hne
    rw [hok (by omega)] at h
    cases h
  have h2 : (∃ e, ofList rows columns values = .error e) ↔
      values.length > sizeMul rows columns := by
    refine ⟨fun h => ?_, fun h => ⟨_, hthrow h⟩⟩
    by_contra hne
    obtain ⟨e, he⟩ := h
    rw [hok (by omega)] at he
    cases he
  refine ⟨h1, h2, fun hlen => ?_, fun hsize => ?_⟩
  · obtain ⟨e1, e2, e3⟩ := ofList_elements (sizeMul rows columns) values hlen
    exact ⟨_, hok hlen, rfl, rfl, e1, e2, e3⟩
  · have hs : sizeMul rows columns = rows * columns := sizeMul_eq hsize
    rw [hs] at h1 h2 hok
    refine ⟨h1, h2, fun hlen => ?_⟩
    obtain ⟨e1, e2, e3⟩ := ofList_elements (rows * columns) values hlen
    refine ⟨_, hok hlen, rfl, rfl, e1, e2, e3, ?_, ?_⟩
    · intro i j v hi hj hv
      exact get_of_getElem? _ hi hj (e2 _ v hv)
    · intro i j hi hj hge
      exact get_of_getElem? _ hi hj (e3 _ hge (flat_lt hi hj))

theorem ofList_shape_and_elements_size_t_witness :
    2 * 3 < 18446744073709551616 ∧
    ([1, 2, 3, 4] : List CInt).length ≤ 2 * 3 ∧
    (ofList 2 3 [1, 2, 3, 4] : Except Failure (Matrix CInt)) = .ok ⟨2, 3, [1, 2, 3, 4, 0, 0]⟩ ∧
    (ofList 2 3 [1, 2, 3, 4, 5, 6, 7] : Except Failure (Matrix CInt)) = .error .wrongShape ∧
    ([] : List CInt).length ≤ sizeMul 9223372036854775808 2 ∧
    (∃ M : Matrix CInt, ofList 9223372036854775808 2 [] = .ok M ∧
      M.m_rows = 9223372036854775808 ∧ M.m_columns = 2 ∧
      M.m_elements.length = sizeMul 9223372036854775808 2 ∧
      (∀ (k : Nat) (v : CInt), ([] : List CInt)[k]? = some v → M.m_elements[k]? = some v) ∧
      (∀ k : Nat, ([] : List CInt).length ≤ k → k < sizeMul 9223372036854775808 2 →
        M.m_elements[k]? = some 0)) ∧
    ∃ M : Matrix CInt, ofList 2 3 [1, 2, 3, 4] = .ok M ∧ M.m_rows = 2 ∧
      M.m_columns = 3 ∧ M.Valid ∧
      (∀ (k : Nat) (v : CInt), ([1, 2, 3, 4] : List CInt)[k]? = some v →
        M.m_elements[k]? = some v) ∧
      (∀ k : Nat, ([1, 2, 3, 4] : List CInt).length ≤ k → k < 2 * 3 →
        M.m_elements[k]? = some 0) ∧
      (∀ (i j : Nat) (v : CInt), i < 2 → j < 3 →
        ([1, 2, 3, 4] : List CInt)[i * 3 + j]? = some v → M.get i j = .ok v) ∧
      (∀ i j : Nat, i < 2 → j < 3 → ([1, 2, 3, 4] : List CInt).length ≤ i * 3 + j →
        M.get i j = .ok 0) :=
  ⟨by decide, by decide, rfl, rfl, by decide,
    (ofList_shape_and_elements_size_t 9223372036854775808 2 []).2.2.1 (by decide),
    ((ofList_shape_and_elements_size_t 2 3 [1, 2, 3, 4]).2.2.2 (by decide)).2.2 (by decide)⟩

/-- C20, counterexample. The `1 × 2` `int` matrix `[[-1, INT_MIN]]` has the
storage invariant, and `rref` does not return on it: the row is divided by its
pivot `-1`, and the quotient `INT_MIN / -1` is no `int`. -/
theorem rref_int_min_counterexample :
    (⟨1, 2, [-1, INT_MIN]⟩ : Matrix CInt).Valid ∧
    (⟨1, 2, [-1, INT_MIN]⟩ : Matrix CInt).rref = .error .divisionOverflow ∧
    ¬ ∃ M' : Matrix CInt, (⟨1, 2, [-1, INT_MIN]⟩ : Matrix CInt).rref = .ok M' :=
  ⟨by decide, rfl, fun ⟨_, h⟩ => Except.noConfusion h⟩

/-- C20, amended. For every matrix with the storage invariant, of any shape
and any element type, the pivot search of `rref` ends, no element access and
no row swap is out of range and no row is divided by zero: `rref` returns a
matrix of the same shape with the storage invariant and signals no error,
unless it stops at the division of an entry by a nonzero pivot whose quotient
the element type cannot hold; for an element type in which every such quotient
exists it always returns.  At a lead column without a nonzero entry from the
row cursor on, the outer loop goes on as from the next column with the same
row cursor, and returns with the matrix as it is when that column was the
last. -/
theorem rref_total_or_overflow_and_skips [Zero T] [Sub T] [Mul T] [Div T] [DivOverflow T]
    [DecidableEq T] (M : Matrix T) (hV : M.Valid) :
    ((∃ M' : Matrix T, M.rref = .ok M' ∧ M'.m_rows = M.m_rows ∧ M'.m_columns = M.m_columns ∧
      M'.Valid) ∨
     (M.rref = .error .divisionOverflow ∧
      ∃ x f : T, f ≠ 0 ∧ DivOverflow.overflows x f = true)) ∧
    ((∀ x f : T, f ≠ 0 → DivOverflow.overflows x f = false) →
      ∃ M' : Matrix T, M.rref = .ok M' ∧ M'.m_rows = M.m_rows ∧
        M'.m_columns = M.m_columns ∧ M'.Valid) ∧
    ∀ row lead fuel, row < M.m_rows → lead < M.m_columns →
      (∀ r, row ≤ r → r < M.m_rows → M.get r lead = .ok 0) →
      (lead + 1 < M.m_columns → rrefLoop fuel M row lead = rrefLoop fuel M row (lead + 1)) ∧
      (lead + 1 = M.m_columns → rrefLoop (fuel + 1) M row lead = .ok M) := by
  refine ⟨rref_total M hV, fun hov => rref_ok hov M hV, ?_⟩
  intro row lead fuel hrow hlead hz
  have hM := holds_entry hV
  have hz' : ∀ r, row ≤ r → r < M.m_rows → M.entry r lead = 0 := by
    intro r hr hrm
    have := hz r hr hrm
    rw [hM.get hrm hlead] at this
    exact Except.ok.inj this
  exact ⟨fun h => rrefLoop_skip hM hrow h hz' fuel,
    fun h => rrefLoop_exhausted hM hrow h hz' fuel⟩

theorem rref_total_or_overflow_and_skips_witness :
    (⟨2, 3, [0, 0, 0, 0, 0, 0]⟩ : Matrix CInt).Valid ∧
    (⟨2, 3, [0, 0, 0, 0, 0, 0]⟩ : Matrix CInt).rref = .ok ⟨2, 3, [0, 0, 0, 0, 0, 0]⟩ ∧
    (⟨2, 3, [0, 2, 0, 0, 4, 0]⟩ : Matrix CInt).rref = .ok ⟨2, 3, [0, 1, 0, 0, 0, 0]⟩ ∧
    (⟨0, 3, []⟩ : Matrix CInt).rref = .ok ⟨0, 3, []⟩ ∧
    (⟨3, 0, []⟩ : Matrix CInt).rref = .ok ⟨3, 0, []⟩ ∧
    ((∃ M' : Matrix CInt, (⟨2, 3, [0, 0, 0, 0, 0, 0]⟩ : Matrix CInt).rref = .ok M' ∧
      M'.m_rows = 2 ∧ M'.m_columns = 3 ∧ M'.Valid) ∨
     ((⟨2, 3, [0, 0, 0, 0, 0, 0]⟩ : Matrix CInt).rref = .error .divisionOverflow ∧
      ∃ x f : CInt, f ≠ 0 ∧ DivOverflow.overflows x f = true)) ∧
    (∀ r, 0 ≤ r → r < 2 → (⟨2, 3, [0, 2, 0, 0, 4, 0]⟩ : Matrix CInt).get r 0 = .ok 0) ∧
    rrefLoop 2 (⟨2, 3, [0, 2, 0, 0, 4, 0]⟩ : Matrix CInt) 0 0 =
      rrefLoop 2 (⟨2, 3, [0, 2, 0, 0, 4, 0]⟩ : Matrix CInt) 0 (0 + 1) ∧
    (⟨2, 3, [0, 2, 4, 0, 1, 5]⟩ : Matrix ℚ).Valid ∧
    ∃ M' : Matrix ℚ, (⟨2, 3, [0, 2, 4, 0, 1, 5]⟩ : Matrix ℚ).rref = .ok M' ∧
      M'.m_rows = 2 ∧ M'.m_columns = 3 ∧ M'.Valid :=
  have hz : ∀ r, 0 ≤ r → r < 2 →
      (⟨2, 3, [0, 2, 0, 0, 4, 0]⟩ : Matrix CInt).get r 0 = .ok 0 := by
    intro r _ hr
    interval_cases r <;> rfl
  ⟨by decide, rfl, rfl, rfl, rfl,
    (rref_total_or_overflow_and_skips ⟨2, 3, [0, 0, 0, 0, 0, 0]⟩ (by decide)).1,
    hz,
    ((rref_total_or_overflow_and_skips (⟨2, 3, [0, 2, 0, 0, 4, 0]⟩ : Matrix CInt)
      (by decide)).2.2 0 0 2 (by decide) (by decide) hz).1 (by decide),
    by decide,
    (rref_total_or_overflow_and_skips (⟨2, 3, [0, 2, 4, 0, 1, 5]⟩ : Matrix ℚ)
      (by decide)).2.1 (fun _ _ _ => rfl)⟩

end Matrix

end MatrixLib
